import Mathlib

set_option autoImplicit false

/-!
Verification development for the Bytestore storage library.

We give a shallow embedding of the backend contract (src/backend/mod.rs),
the concrete backends relevant to the claims, the fixed-stride list
(src/components/list/mod.rs), the split file (src/components/split_file/mod.rs),
the indexed file (src/components/indexed_file/mod.rs), the custom-header file
(src/components/header_file/mod.rs) and the hash map (src/components/map/mod.rs).

Machine integers (`usize`, `u64`, `u32`) are modelled as `Nat`; an explicit
`% 2^w` is written at the places where the source's arithmetic can wrap in
release builds, and an explicit panic value models the places where a debug
build would abort (integer underflow, slice-index panics, `unreachable!`,
`unwrap`).  Byte regions are `List Nat` (each element one byte).  Headers and
table offsets are stored little-endian through `le64`, exactly as the source
does with `usize::to_le_bytes` / `from_le_bytes`.
-/

namespace Bytestore

/-- Error kinds, from `Error` in src/error.rs (the serde variants are collapsed
into one constructor since serialization is opaque here). -/
inductive Err where
  | outOfBounds
  | invalidHeader
  | invalidShift
  | initErr
  | unexpectedValue
  | unsupportedOperation
  | ioErr
  | serdeErr
  deriving DecidableEq, Repr

/-- Result of a fallible Rust operation: a value, an `Err`, or a panic
(debug-build arithmetic overflow, failed slice indexing, `unreachable!`,
`unwrap` of `None`). -/
inductive RRes (α : Type) where
  | ok : α → RRes α
  | err : Err → RRes α
  | pnc : RRes α
  deriving Repr, DecidableEq

def RRes.bind {α β : Type} : RRes α → (α → RRes β) → RRes β
  | .ok a, f => f a
  | .err e, _ => .err e
  | .pnc, _ => .pnc

instance : Monad RRes where
  pure := RRes.ok
  bind := RRes.bind

/-- Extract the value of an `RRes`, with a default. -/
def RRes.getD {α : Type} (r : RRes α) (d : α) : α :=
  match r with
  | .ok a => a
  | _ => d

@[simp] theorem RRes.bind_ok {α β : Type} (a : α) (f : α → RRes β) :
    RRes.bind (.ok a) f = f a := rfl
@[simp] theorem RRes.bind_err {α β : Type} (e : Err) (f : α → RRes β) :
    RRes.bind (.err e) f = .err e := rfl
@[simp] theorem RRes.bind_pnc {α β : Type} (f : α → RRes β) :
    RRes.bind .pnc f = .pnc := rfl

@[simp] theorem RRes.monad_bind_eq {α β : Type} (x : RRes α) (f : α → RRes β) :
    (x >>= f) = RRes.bind x f := rfl

@[simp] theorem RRes.pure_eq {α : Type} (a : α) : (pure a : RRes α) = RRes.ok a := rfl

/-! ### Byte-list primitives

These model the Rust slice primitives used by the backend code:
`copy_from_slice` (`writeSeg`), `copy_within` (`copyWithin`, memmove
semantics), `fill` (`fillSeg`), and subslice reads (`getSeg`). -/

/-- Read the subslice `l[s .. s+n)`. -/
def getSeg (l : List Nat) (s n : Nat) : List Nat := (l.drop s).take n

/-- Overwrite `l[p .. p+src.length)` with `src` (Rust `copy_from_slice`),
assuming the segment fits. -/
def writeSeg (l : List Nat) (p : Nat) (src : List Nat) : List Nat :=
  l.take p ++ src ++ l.drop (p + src.length)

/-- Fill `l[s .. e)` with byte `v` (Rust `slice::fill`). -/
def fillSeg (l : List Nat) (s e v : Nat) : List Nat :=
  writeSeg l s (List.replicate (e - s) v)

/-- Rust `slice::copy_within(s..e, d)`: copy `l[s..e)` over `l[d..d+(e-s))`
with memmove semantics (the source bytes are read before writing). -/
def copyWithin (l : List Nat) (s e d : Nat) : List Nat :=
  writeSeg l d (getSeg l s (e - s))

/-- Little-endian 8-byte encoding of a `usize`/`u64` value
(`usize::to_le_bytes`). -/
def le64 (n : Nat) : List Nat :=
  [n % 256, n / 256 % 256, n / 256 ^ 2 % 256, n / 256 ^ 3 % 256,
   n / 256 ^ 4 % 256, n / 256 ^ 5 % 256, n / 256 ^ 6 % 256, n / 256 ^ 7 % 256]

/-- Little-endian decoding of 8 bytes (`usize::from_le_bytes`). -/
def leDec (l : List Nat) : Nat :=
  l.getD 0 0 + l.getD 1 0 * 256 + l.getD 2 0 * 256 ^ 2 + l.getD 3 0 * 256 ^ 3 +
    l.getD 4 0 * 256 ^ 4 + l.getD 5 0 * 256 ^ 5 + l.getD 6 0 * 256 ^ 6 +
    l.getD 7 0 * 256 ^ 7

/-! ### Generic backend operations

The `Backend` trait (src/backend/mod.rs) is a set of default methods over five
primitives: `data`, `data_mut`, `first_index`, `len`, `set_len`.  We capture
the primitives in the class `Be` (`wr` is the functional counterpart of
writing through `data_mut`: it replaces the whole region, the default methods
only ever write length-preserving modifications of it) and translate each
default method once, generically. -/

class Be (σ : Type) where
  rd : σ → List Nat
  wr : σ → List Nat → σ
  fi : σ → Nat
  len : σ → Nat
  setLen : σ → Nat → RRes σ

namespace Be

variable {σ : Type} [Be σ]

/-- `Backend::get_index`. -/
def getIndex (s : σ) (i : Nat) : Nat := fi s + i

/-- `Backend::last_index`. -/
def lastIndex (s : σ) : Nat := fi s + len s

/-- `Backend::end_index` (`data().len().saturating_sub(1)`; `Nat` subtraction
is saturating). -/
def endIndex (s : σ) : Nat := (rd s).length - 1

/-- `Backend::capacity`. -/
def capacity (s : σ) : Nat := (rd s).length - fi s

/-- `Backend::free`. -/
def free (s : σ) : Nat := capacity s - len s

/-- `Backend::check_len_oob`. -/
def checkLenOob (s : σ) (index : Nat) : RRes Unit :=
  if index > lastIndex s then .err .outOfBounds else .ok ()

/-- `Backend::check_capacity_oob`. -/
def checkCapacityOob (s : σ) (index : Nat) : RRes Unit :=
  if index > endIndex s + 1 then .err .outOfBounds else .ok ()

/-- `Backend::get`: read `len` bytes at logical index `index`.  The subslice
`data()[start..end]` panics when it does not fit the region. -/
def get (s : σ) (index len : Nat) : RRes (List Nat) := do
  let start := getIndex s index
  let e := start + len
  checkLenOob s e
  if e ≤ (rd s).length then .ok (getSeg (rd s) start len) else .pnc

/-- `Backend::push`: copy `d` to the end and extend the length.  Returns the
old length (the insertion offset). -/
def push (s : σ) (d : List Nat) : RRes (σ × Nat) := do
  let pos := len s
  if d.isEmpty then
    .ok (s, pos)
  else do
    -- next_free_slice
    let start := getIndex s (len s)
    let e := start + d.length
    checkCapacityOob s e
    if e ≤ (rd s).length then do
      let s1 := wr s (writeSeg (rd s) start d)
      let s2 ← setLen s1 (len s1 + d.length)
      .ok (s2, pos)
    else .pnc

/-- `Backend::push_fill`: like `push` but writing byte `v`, `n` times. -/
def pushFill (s : σ) (v n : Nat) : RRes (σ × Nat) := do
  let pos := len s
  if n = 0 then
    .ok (s, pos)
  else do
    let start := getIndex s (len s)
    let e := start + n
    checkCapacityOob s e
    if e ≤ (rd s).length then do
      let s1 := wr s (fillSeg (rd s) start e v)
      let s2 ← setLen s1 (len s1 + n)
      .ok (s2, pos)
    else .pnc

/-- `Backend::replace_same_len_direct` (physical start index). -/
def replaceSameLenDirect (s : σ) (start : Nat) (d : List Nat) : RRes (σ × Nat) := do
  let e := start + d.length
  checkCapacityOob s e
  if e ≤ (rd s).length then do
    let s1 := wr s (writeSeg (rd s) start d)
    if e > lastIndex s1 then do
      let diff := e - lastIndex s1
      -- the source `.unwrap()`s this `set_len`
      match setLen s1 (len s1 + diff) with
      | .ok s2 => .ok (s2, diff)
      | .err _ => .pnc
      | .pnc => .pnc
    else .ok (s1, 0)
  else .pnc

/-- `Backend::replace_same_len`. -/
def replaceSameLen (s : σ) (index : Nat) (d : List Nat) : RRes (σ × Nat) :=
  replaceSameLenDirect s (getIndex s index) d

/-- `Backend::replace_same_len_fill`. -/
def replaceSameLenFill (s : σ) (index : Nat) (v fillLen : Nat) : RRes (σ × Nat) := do
  let start := getIndex s index
  let e := start + fillLen
  checkCapacityOob s e
  if e ≤ (rd s).length then do
    let s1 := wr s (fillSeg (rd s) start e v)
    if e > lastIndex s1 then do
      let diff := e - lastIndex s1
      match setLen s1 (len s1 + diff) with
      | .ok s2 => .ok (s2, diff)
      | .err _ => .pnc
      | .pnc => .pnc
    else .ok (s1, 0)
  else .pnc

/-- The directional-copy core shared by `Backend::replace` and
`Backend::replace_fill`: move the tail `[start+k, last_index)` to
`start + newLen`, guarded by `move_start_index < end_index()` exactly as in
the source.  `copy_within` panics when either range leaves the region. -/
def replaceMove (s : σ) (start k newLen : Nat) : RRes σ := do
  let moveStart := start + k
  if moveStart < endIndex s then
    let moveEnd := lastIndex s
    let newStart := start + newLen
    if moveStart ≤ moveEnd ∧ moveEnd ≤ (rd s).length ∧
        newStart + (moveEnd - moveStart) ≤ (rd s).length then
      .ok (wr s (copyWithin (rd s) moveStart moveEnd newStart))
    else .pnc
  else .ok s

/-- Length adjustment shared by `Backend::replace` and `Backend::replace_fill`:
`let len = len.min(self.len()); let diff = len.abs_diff(n); ...`. -/
def replaceAdjustLen (s : σ) (k n : Nat) : RRes (σ × Nat) := do
  let kC := min k (len s)
  let diff := max kC n - min kC n
  if kC > n then do
    let s1 ← setLen s (len s - diff)
    .ok (s1, diff)
  else do
    let s1 ← setLen s (len s + diff)
    .ok (s1, diff)

/-- `Backend::replace`: substitute the `k` bytes at logical `index` with `d`. -/
def replace (s : σ) (index k : Nat) (d : List Nat) : RRes (σ × Nat) := do
  if k = d.length then
    replaceSameLen s index d
  else do
    let start := getIndex s index
    checkLenOob s start
    let s1 ← replaceMove s start k d.length
    let s2 ←
      if d.isEmpty then .ok s1
      else do
        let e := start + d.length
        checkCapacityOob s1 e
        if e ≤ (rd s1).length then .ok (wr s1 (writeSeg (rd s1) start d)) else .pnc
    replaceAdjustLen s2 k d.length

/-- `Backend::replace_fill`: like `replace` with `fillLen` copies of byte `v`. -/
def replaceFill (s : σ) (index k : Nat) (v fillLen : Nat) : RRes (σ × Nat) := do
  if k = fillLen then
    replaceSameLenFill s index v fillLen
  else do
    let start := getIndex s index
    checkLenOob s start
    let s1 ← replaceMove s start k fillLen
    let s2 ←
      if fillLen > 0 then do
        let e := start + fillLen
        checkCapacityOob s1 e
        if e ≤ (rd s1).length then .ok (wr s1 (fillSeg (rd s1) start e v)) else .pnc
      else .ok s1
    replaceAdjustLen s2 k fillLen

/-- `Backend::remove`. -/
def remove (s : σ) (index k : Nat) : RRes σ := do
  let (s1, _) ← replace s index k []
  .ok s1

/-- `ranges_overlap` from src/utils.rs: `a.start <= b.end && a.end >= b.start`
(note: half-open ranges that merely touch also satisfy this). -/
def rangesOverlap (aStart aEnd bStart bEnd : Nat) : Bool :=
  aStart ≤ bEnd && aEnd ≥ bStart

/-- `Backend::swap_same_len`: exchange `[a, a+n)` and `[b, b+n)`.
`split_at_mut`, the subslice indexing and `swap_with_slice` panic when out of
the region. -/
def swapSameLen (s : σ) (a b n : Nat) : RRes σ := do
  if rangesOverlap a (a + n) b (b + n) || n = 0 then
    .err .outOfBounds
  else
    let aP := getIndex s a
    let bP := getIndex s b
    let lo := if aP > bP then bP else aP
    let hi := if aP > bP then aP else bP
    if hi ≤ (rd s).length ∧ lo + n ≤ hi ∧ n ≤ (rd s).length - hi then
      let segLo := getSeg (rd s) lo n
      let segHi := getSeg (rd s) hi n
      .ok (wr s (writeSeg (writeSeg (rd s) lo segHi) hi segLo))
    else .pnc

/-- `Backend::fill`: memset the logical range `[start, e)` within the live
data. -/
def fillRange (s : σ) (start e v : Nat) : RRes σ := do
  if start ≥ e then
    .ok s
  else
    let pStart := getIndex s start
    let pEnd := getIndex s e
    checkLenOob s pEnd
    if pEnd ≤ (rd s).length then .ok (wr s (fillSeg (rd s) pStart pEnd v)) else .pnc

/-- `Backend::move_range_to`: raw relocation; works on physical indices. -/
def moveRangeTo (s : σ) (index len newIndex : Nat) : RRes σ := do
  checkLenOob s (index + len)
  checkLenOob s (newIndex + len)
  if index ≤ index + len ∧ index + len ≤ (rd s).length ∧
      newIndex + len ≤ (rd s).length then
    .ok (wr s (copyWithin (rd s) index (index + len) newIndex))
  else .pnc

/-- `Backend::clear` (`set_len(0).unwrap()`). -/
def clear (s : σ) : RRes σ :=
  match setLen s 0 with
  | .ok s1 => .ok s1
  | _ => .pnc

/-- `Backend::inc_len`. -/
def incLen (s : σ) (amount : Nat) : RRes σ :=
  setLen s (len s + amount)

end Be

/-! ### Concrete backend: `BaseBackend<&mut [u8]>` (src/backend/base/mod.rs)

The region's first 8 bytes always hold the little-endian header; the struct
additionally caches the header value (`header: BaseHeader`), which is
authoritative for `len()`. -/

structure BaseMut where
  data : List Nat
  hdr : Nat
  deriving Repr, DecidableEq

/-- `BaseBackend<&mut [u8]>::set_len`: `check_capacity_oob(len)` then update
the cached header and write its bytes at `[0, 8)` (that slice write panics on
a region shorter than 8 bytes). -/
def BaseMut.setLen (s : BaseMut) (n : Nat) : RRes BaseMut :=
  if n > s.data.length - 1 + 1 then .err .outOfBounds
  else if 8 ≤ s.data.length then
    .ok ⟨writeSeg s.data 0 (le64 n), n⟩
  else .pnc

instance : Be BaseMut where
  rd s := s.data
  wr s l := { s with data := l }
  fi _ := 8
  len s := s.hdr
  setLen := BaseMut.setLen

/-! ### Concrete backend: `impl Backend for &[u8]` (src/backend/mod.rs)

The shared-slice backend: `first_index = 0`, `len = slice length`,
`set_len` is a silent no-op, `data_mut` panics. -/

structure SliceRO where
  data : List Nat
  deriving Repr, DecidableEq

namespace SliceRO

/-- `<&[u8] as Backend>::set_len` returns `Ok(())` without doing anything. -/
def setLen (_s : SliceRO) (_n : Nat) : RRes Unit := .ok ()

/-- `Backend::push` as inherited by `&[u8]`: for nonempty data,
`next_free_slice` starts at `len = data.len()` and the capacity check
`end > end_index() + 1` fails, so the push errors with `OutOfBounds`;
an empty push returns the current length without touching `data_mut`. -/
def push (s : SliceRO) (d : List Nat) : RRes Nat :=
  let pos := s.data.length
  if d.isEmpty then .ok pos
  else if s.data.length + d.length > s.data.length - 1 + 1 then .err .outOfBounds
  else .pnc

/-- `Backend::replace_same_len` as inherited by `&[u8]`: after the capacity
check passes, `data_mut()` is reached, which panics for the read-only slice. -/
def replaceSameLen (s : SliceRO) (index : Nat) (d : List Nat) : RRes Nat :=
  if index + d.length > s.data.length - 1 + 1 then .err .outOfBounds
  else .pnc

/-- `Backend::fill` as inherited by `&[u8]`: an empty range returns `Ok`,
otherwise after the length check `data_mut()` panics. -/
def fillRange (s : SliceRO) (start e _v : Nat) : RRes Unit :=
  if start ≥ e then .ok ()
  else if e > s.data.length then .err .outOfBounds
  else .pnc

end SliceRO

/-! ### Concrete backend: `BaseSubBackend<&[u8]>` (src/backend/base/sub.rs)

The read-only sub-backend has `first_index = 8` and a borrowed header; both
`data_mut` and `set_len` are `panic!("Backend is read only!")`. -/

structure SubRO where
  data : List Nat
  hdr : Nat
  deriving Repr, DecidableEq

namespace SubRO

/-- `<BaseSubBackend<&[u8]> as Backend>::set_len` panics unconditionally. -/
def setLen (_s : SubRO) (_n : Nat) : RRes Unit := .pnc

/-- `Backend::push` as inherited by `BaseSubBackend<&[u8]>`: the empty push
returns `Ok(len)`; a nonempty push either fails the capacity check with
`OutOfBounds` or reaches `data_mut()` and panics. -/
def push (s : SubRO) (d : List Nat) : RRes Nat :=
  let pos := s.hdr
  if d.isEmpty then .ok pos
  else if 8 + s.hdr + d.length > s.data.length - 1 + 1 then .err .outOfBounds
  else .pnc

/-- `Backend::replace_same_len` as inherited by `BaseSubBackend<&[u8]>`. -/
def replaceSameLen (s : SubRO) (index : Nat) (d : List Nat) : RRes Nat :=
  if 8 + index + d.length > s.data.length - 1 + 1 then .err .outOfBounds
  else .pnc

end SubRO

/-! ### Custom-header file flush path (src/components/header_file/mod.rs)

`CustomHeaderFile` wraps a parent backend `B` and a `header_len` prefix.  For
the flush claim we model it over a memory/mmap style parent whose
`flush_range_impl` succeeds; all lengths refer to the shared `data()`. -/

structure ChfFlush where
  data : List Nat
  headerLen : Nat
  deriving Repr, DecidableEq

namespace ChfFlush

/-- The parent's `Backend::flush_range`: bounds check then the (successful)
concrete `flush_range_impl`. -/
def parentFlushRange (s : ChfFlush) (start len : Nat) : RRes Unit :=
  if start + len > s.data.length then .err .outOfBounds else .ok ()

/-- `CustomHeaderFile::flush_range_impl`: forwards
`backend.flush_range(start + hl, len - hl)`.  The subtraction `len - hl` is a
debug-build panic when `len < hl` (the source does not check this). -/
def flushRangeImpl (s : ChfFlush) (start len : Nat) : RRes Unit :=
  if len < s.headerLen then .pnc
  else parentFlushRange s (start + s.headerLen) (len - s.headerLen)

/-- `Backend::flush_range` as inherited by `CustomHeaderFile`: the default
bounds check, then `flush_range_impl`. -/
def flushRange (s : ChfFlush) (start len : Nat) : RRes Unit :=
  if start + len > s.data.length then .err .outOfBounds
  else flushRangeImpl s start len

end ChfFlush

/-! ### Growable memory backend (src/backend/memory.rs, src/backend/growable.rs)

`MemoryBackend = BaseBackend<MemoryData>`: `set_len` goes through the
unchecked inherent `BaseBackend::set_len` (header update + byte write, no
bounds check), and `resize_impl` is `Vec::resize(new_size, 0)`. -/

structure MemG where
  data : List Nat
  hdr : Nat
  deriving Repr, DecidableEq

/-- `MemoryBackend::set_len` (no capacity check; writes the header bytes). -/
def MemG.setLen (s : MemG) (n : Nat) : RRes MemG :=
  if 8 ≤ s.data.length then .ok ⟨writeSeg s.data 0 (le64 n), n⟩ else .pnc

instance : Be MemG where
  rd s := s.data
  wr s l := { s with data := l }
  fi _ := 8
  len s := s.hdr
  setLen := MemG.setLen

namespace MemG

/-- `MemoryBackend::resize_impl`: `Vec::resize(new_size, 0)`. -/
def resizeImpl (s : MemG) (newSize : Nat) : RRes MemG :=
  .ok { s with data := (s.data.take newSize) ++
                List.replicate (newSize - s.data.length) 0 }

/-- `GrowableBackend::resize` (default implementation). -/
def resize (s : MemG) (delta : Int) : RRes MemG := do
  if delta = 0 then
    .ok s
  else
    let dataLen := s.data.length
    if delta < 0 ∧ delta.natAbs > dataLen then
      .err .outOfBounds
    else
      let newSize := ((dataLen : Int) + delta).toNat
      if newSize < Be.lastIndex s then .err .outOfBounds
      else resizeImpl s newSize

/-- `GrowableBackend::grow`. -/
def grow (s : MemG) (size : Nat) : RRes MemG := resize s (size : Int)

/-- `GrowableBackend::grow_to` (default implementation). -/
def growTo (s : MemG) (size : Nat) : RRes MemG :=
  let dataLen := s.data.length
  if size ≤ dataLen - Be.fi s then .ok s
  else grow s (size + Be.fi s - dataLen)

end MemG

/-! ### Fixed-stride list (src/components/list/mod.rs)

`List<B, T, N>` over the growable memory backend; `N` is the element stride.
Elements are handled as raw `N`-byte strings (`push_raw` / `get_raw`), the
typed layer being an opaque serializer. -/

/-- Structurally recursive binary logarithm (`usize::ilog2`; the fuel is an
upper bound on the recursion depth, so `ilog2 = Nat.log2`). -/
def log2fuel : Nat → Nat → Nat
  | 0, _ => 0
  | fuel + 1, n => if 2 ≤ n then log2fuel fuel (n / 2) + 1 else 0

/-- `usize::ilog2`. -/
def ilog2 (n : Nat) : Nat := log2fuel n n

/-- `smallest_two_power_for` from src/utils.rs (`is_power_of_two` is written
as `2 ^ ilog2 len = len` for nonzero `len`). -/
def smallest_two_power_for (len : Nat) : Nat :=
  let r := max (ilog2 (max len 1)) 1
  if len ≠ 0 ∧ 2 ^ (ilog2 len) = len then r else r + 1

structure ListN (N : Nat) where
  be : MemG
  len : Nat
  deriving Repr, DecidableEq

namespace ListN

variable {N : Nat}

/-- `List::free`. -/
def free (l : ListN N) : Nat := Be.free l.be / N

/-- `List::capacity`. -/
def capacity (l : ListN N) : Nat := Be.capacity l.be / N

/-- `List::byte_index`. -/
def byteIndex (index : Nat) : Nat := index * N

/-- `List::grow_for`: grow so that `items` more elements fit, rounding the
element capacity up to `2^(smallest_two_power_for (items + len))`. -/
def growFor (l : ListN N) (items : Nat) : RRes (ListN N) := do
  if items = 0 then
    .ok l
  else
    let needHold := items + l.len
    let pow := smallest_two_power_for needHold
    let be1 ← MemG.growTo l.be (byteIndex (N := N) (2 ^ pow))
    .ok { l with be := be1 }

/-- `List::grow`: grow for `len.max(1)` additional entries (doubling). -/
def grow (l : ListN N) : RRes (ListN N) := growFor l (max l.len 1)

/-- `List::push_raw`. -/
def pushRaw (l : ListN N) (d : List Nat) : RRes (ListN N) := do
  if d.length ≠ N then
    .err .unexpectedValue
  else do
    let l1 ← if free l = 0 then grow l else .ok l
    let (be1, _) ← Be.push l1.be d
    .ok { be := be1, len := l1.len + 1 }

/-- `List::get_raw`. -/
def getRaw (l : ListN N) (index : Nat) : RRes (List Nat) :=
  Be.get l.be (byteIndex (N := N) index) N

end ListN

/-! ### Hash map (src/components/map/)

The map layers a 16-byte metadata entry, a fixed-stride `u32` slot list and a
KV indexed file inside a multi-file.  We model it at element level: the slot
list is a `List Nat` (slot value `0` = empty, `k+1` = KV id `k`), and the KV
indexed file is a `List (Nat × Nat)` of key/value pairs indexed by id — the
serializer is the opaque round-trip of spec §4.8, and the byte-level list and
indexed file get/set/append operations behave as element reads/writes for
valid ids.  Keys and values are `u64`s, whose `Hash` impl is the identity.
`u32` slot values and the `f32` load factor are modelled with exact naturals
(exact below `2^32` ids and `2^24` capacities; the theorems stay in that
range). -/

def U64 : Nat := 2 ^ 64

/-- Primality test by trial division (for the spec-modelled prime table). -/
def primeB (n : Nat) : Bool :=
  Nat.ble 2 n && (List.range n).all fun d => Nat.ble d 1 || n % d != 0

/-- Fuel-bounded search for the first prime at or after `c`. -/
def findPrimeFrom : Nat → Nat → Nat
  | 0, _ => 0
  | fuel + 1, c => if primeB c then c else findPrimeFrom fuel (c + 1)

/-- The smallest prime strictly greater than `n` (total by Bertrand's
postulate, which keeps the search within the fuel). -/
def nextPrimeAfter (n : Nat) : Nat := findPrimeFrom (n + 2) (n + 1)

/-- Modelled from the spec: the prime capacity table `NEXT_PRIMES_OF_TWO` of
src/components/map/primes.rs, which is not under src/.  Per the spec's growth
schedule (1 → 3 → 3 → 5 → 11, "next primes-of-two table") entry `k ≥ 1` is the
next prime after `2^k`; entry `0` is `1` (a fresh map created with capacity
request 0 has capacity 1). -/
def NEXT_PRIMES_OF_TWO (k : Nat) : Nat := if k = 0 then 1 else nextPrimeAfter (2 ^ k)

/-- Fuel-bounded scan of the capacity table. -/
def nextBiggerAux (n : Nat) : Nat → Nat → Nat
  | 0, _ => 0
  | fuel + 1, k =>
    if NEXT_PRIMES_OF_TWO k > n then NEXT_PRIMES_OF_TWO k
    else nextBiggerAux n fuel (k + 1)

/-- Modelled from the spec: `primes::next_bigger_than` — the first capacity
table entry strictly bigger than `n` (src/components/map/primes.rs is not
under src/). -/
def next_bigger_than (n : Nat) : Nat := nextBiggerAux n (n + 2) 0

/-- `impl Hash for u64` (src/components/map/hashing/hash.rs): the identity. -/
def hashU64 (k : Nat) : Nat := k

/-- `QuadraticProbing::f` (src/components/map/hashing/hashfn.rs).  The `u64`
multiplications and additions wrap at `2^64` (release semantics). -/
def quadF (hash i m : Nat) : Nat :=
  let c1 := 65537 % m
  let c2 := 16411 % m
  let t1 := c1 * (i % m) % U64 % m
  let t2 := c2 * (i * i % U64 % m) % U64 % m
  ((hash + t1) % U64 + t2) % U64 % m

/-- `LinearProbing::f`. -/
def linF (hash i m : Nat) : Nat := ((hash % m) + (i % m)) % U64 % m

/-- The default hasher `DoubleHashing<QuadraticProbing, LinearProbing>::f`. -/
def doubleF (hash i m : Nat) : Nat :=
  let first := quadF hash 1 m
  let second := linF hash i m
  (first + second) % U64 % m

/-- `Insertion` (src/components/map/insertion.rs). -/
structure Insertion where
  kvId : Nat
  collisions : Nat
  inserted : Bool
  position : Nat
  deriving Repr, DecidableEq

/-- The hash map `FMap` state: slot table, KV storage, cached `len` and
`capacity` (the latter two are mirrored in the metadata entry). -/
structure FMapN where
  table : List Nat
  kv : List (Nat × Nat)
  len : Nat
  capacity : Nat
  deriving Repr, DecidableEq

/-- `FMap::resolve_hash`: read slot `pos`; value `0` (or an out-of-bounds
read, which `.ok()?` collapses) is an empty slot, `e > 0` holds KV id `e-1`. -/
def resolveHash (pos : Nat) (table : List Nat) : Option Nat :=
  if pos < table.length then
    let e := table.getD pos 0
    if e > 0 then some (e - 1) else none
  else none

/-- `FMap::set_table_kvid`: `table.set_raw(pos, (kv_id + 1).to_le_bytes())`
(the u32 list's `set_raw` bounds-checks `pos` against its length). -/
def setTableKvid (pos kvId : Nat) (table : List Nat) : RRes (List Nat) :=
  if pos ≥ table.length then .err .outOfBounds
  else .ok (table.set pos (kvId + 1))

/-- The probe loop of `FMap::map_kv_pair` (`for i in 0..capacity`), fuel is
the number of remaining iterations; exhausting it is the `unreachable!()`. -/
def mapKvPairGo (key kvId m : Nat) (kv : List (Nat × Nat)) (table : List Nat) :
    Nat → Nat → RRes (List Nat × Insertion)
  | 0, _ => .pnc
  | fuel + 1, i =>
    let pos := doubleF (hashU64 key) i m
    match resolveHash pos table with
    | some pid =>
      match kv.get? pid with
      | none => .err .outOfBounds
      | some pr =>
        if pr.1 = key then .ok (table, ⟨pid, i, false, pos⟩)
        else mapKvPairGo key kvId m kv table fuel (i + 1)
    | none =>
      match setTableKvid pos kvId table with
      | .ok t1 => .ok (t1, ⟨kvId, i, true, pos⟩)
      | .err e => .err e
      | .pnc => .pnc

/-- `FMap::map_kv_pair`. -/
def mapKvPair (key kvId m : Nat) (table : List Nat) (kv : List (Nat × Nat)) :
    RRes (List Nat × Insertion) :=
  mapKvPairGo key kvId m kv table m 0

/-- The probe loop of `FMap::get_debug`; an empty slot (the `?` on
`resolve_hash`) yields `None`, an invalid stored id panics (the `.unwrap()`
on `entry_by_id`). -/
def getDebugGo (key m : Nat) (table : List Nat) (kv : List (Nat × Nat)) :
    Nat → Nat → RRes (Option (Nat × Nat))
  | 0, _ => .ok none
  | fuel + 1, i =>
    let pos := doubleF (hashU64 key) i m
    match resolveHash pos table with
    | none => .ok none
    | some pid =>
      match kv.get? pid with
      | none => .pnc
      | some pr =>
        if pr.1 = key then .ok (some (pr.2, i))
        else getDebugGo key m table kv fuel (i + 1)

/-- `FMap::get_debug` (value and collision count). -/
def getDebug (m : FMapN) (key : Nat) : RRes (Option (Nat × Nat)) :=
  getDebugGo key m.capacity m.table m.kv m.capacity 0

/-- `FMap::get`. -/
def FMapN.get (m : FMapN) (key : Nat) : RRes (Option Nat) :=
  match getDebug m key with
  | .ok r => .ok (r.map Prod.fst)
  | .err e => .err e
  | .pnc => .pnc

/-- `FMap::need_grow_for`: `load_factor_for(len + n) ≥ 0.75`, written exactly
over naturals (`(len+n)/cap ≥ 3/4 ↔ 4·(len+n) ≥ 3·cap`); the source's `f32`
arithmetic is exact in the range covered by the theorems. -/
def needGrowFor (m : FMapN) (newElements : Nat) : Bool :=
  if m.capacity = 0 then false
  else Nat.ble (3 * m.capacity) (4 * (m.len + newElements))

/-- `FMap::need_grow`. -/
def needGrow (m : FMapN) : Bool := needGrowFor m 1

/-- `FMap::increase_capacity`: a no-op unless strictly growing; otherwise the
slot list is grown, its length set to the new capacity and fully zeroed
(`grow_for_exact`, `set_len`, `mem_set(0)`), and the metadata updated. -/
def increaseCapacity (m : FMapN) (newCapacity : Nat) : FMapN :=
  if newCapacity ≤ m.capacity then m
  else { m with table := List.replicate newCapacity 0, capacity := newCapacity }

/-- The loop of `FMap::rehash` (`for i in 0..len`): re-probe entry `i` of the
KV storage; a missing entry is the `.unwrap()` panic. -/
def rehashGo (cap : Nat) (kv : List (Nat × Nat)) :
    List Nat → Nat → Nat → RRes (List Nat)
  | table, 0, _ => .ok table
  | table, fuel + 1, i =>
    match kv.get? i with
    | none => .pnc
    | some pr =>
      match mapKvPair pr.1 i cap table kv with
      | .ok (t1, _) => rehashGo cap kv t1 fuel (i + 1)
      | .err e => .err e
      | .pnc => .pnc

/-- `FMap::rehash`. -/
def FMapN.rehash (m : FMapN) : RRes FMapN :=
  match rehashGo m.capacity m.kv m.table m.len 0 with
  | .ok t => .ok { m with table := t }
  | .err e => .err e
  | .pnc => .pnc

/-- `FMap::grow_to`: `need_cap = (len / 0.75).ceil() = ⌈4·len/3⌉`, target
capacity `NEXT_PRIMES_OF_TWO[smallest_two_power_for need_cap]`; a no-op when
the capacity already equals the target, otherwise grow the table and rehash. -/
def FMapN.growTo (m : FMapN) (len : Nat) : RRes (FMapN × Nat) :=
  let needCap := (4 * len + 2) / 3
  let pow := smallest_two_power_for needCap
  let regrowthSize := NEXT_PRIMES_OF_TWO pow
  if m.capacity = regrowthSize then .ok (m, 0)
  else
    match (increaseCapacity m regrowthSize).rehash with
    | .ok m2 => .ok (m2, regrowthSize)
    | .err e => .err e
    | .pnc => .pnc

/-- `FMap::grow`. -/
def FMapN.grow (m : FMapN) : RRes (FMapN × Nat) := m.growTo (m.len + 1)

/-- `FMap::raw_insert`: push the encoded pair into the KV indexed file first
(id = current count), then probe.  Note the pair is stored even when the key
turns out to be already present. -/
def rawInsert (m : FMapN) (k v : Nat) : RRes (FMapN × Insertion) :=
  let pairId := m.kv.length
  let kv1 := m.kv ++ [(k, v)]
  match mapKvPair k pairId m.capacity m.table kv1 with
  | .ok (t1, ins) => .ok ({ m with kv := kv1, table := t1 }, ins)
  | .err e => .err e
  | .pnc => .pnc

/-- `FMap::insert_debug`: grow when needed, `raw_insert`, and increment `len`
only when a new pair was actually mapped. -/
def insertDebug (m : FMapN) (k v : Nat) : RRes (FMapN × Insertion) := do
  let m1 ←
    if needGrow m then
      match m.grow with
      | .ok (mg, _) => RRes.ok mg
      | .err e => .err e
      | .pnc => .pnc
    else .ok m
  let (m2, ins) ← rawInsert m1 k v
  let m3 := if ins.inserted then { m2 with len := m2.len + 1 } else m2
  .ok (m3, ins)

/-- `FMap::with_capacity`: capacity is the first prime-table entry above the
request; zeroed slot list of that length, empty KV storage, `len = 0`. -/
def mkMap (c : Nat) : FMapN :=
  let cap := next_bigger_than c
  { table := List.replicate cap 0, kv := [], len := 0, capacity := cap }

/-- A sequence of `insert` calls. -/
def insertMany (m : FMapN) : List (Nat × Nat) → RRes FMapN
  | [] => .ok m
  | (k, v) :: ps =>
    match insertDebug m k v with
    | .ok (m1, _) => insertMany m1 ps
    | .err e => .err e
    | .pnc => .pnc

/-- The number of nonzero (occupied) slots of the table. -/
def nonzeroSlots (m : FMapN) : Nat := (m.table.filter (· != 0)).length

/-- The capacity trace of a run: capacities observed after creation and after
each insert. -/
def capTrace (m : FMapN) : List (Nat × Nat) → List Nat
  | [] => [m.capacity]
  | (k, v) :: ps =>
    match insertDebug m k v with
    | .ok (m1, _) => m.capacity :: capTrace m1 ps
    | _ => [m.capacity]

/-! ### Split file (src/components/split_file/mod.rs)

A `SplitFile` is a `CustomHeaderFile<B, SplitFileHeader>` over a root backend
plus two cached child `BaseHeader`s.  We model it over the growable memory
root.  `data` is the root's whole byte region; the custom-header file view of
it has `first_index = 8 + hlen` (root header + custom header prefix) and
length `clen` (the root header stores `hlen + clen`).  The `SplitFileHeader`
is a single `usize`, whose encoded width is constant, so `set_header` is
length-preserving; its encoded bytes (and the `u32` prefix) are opaque and
tracked by the `split` field. -/

structure SplitSt where
  data : List Nat
  hlen : Nat
  clen : Nat
  split : Nat
  h1 : Nat
  h2 : Nat
  deriving Repr, DecidableEq

/-- `CustomHeaderFile::set_len`: `parent.set_len(len + header_len)`, the
memory root's unchecked `set_len` writing the root header bytes. -/
def SplitSt.chfSetLen (s : SplitSt) (n : Nat) : RRes SplitSt :=
  if 8 ≤ s.data.length then
    .ok { s with clen := n, data := writeSeg s.data 0 (le64 (n + s.hlen)) }
  else .pnc

/-- The `CustomHeaderFile` view of the split file as a backend. -/
instance : Be SplitSt where
  rd s := s.data
  wr s l := { s with data := l }
  fi s := 8 + s.hlen
  len s := s.clen
  setLen := SplitSt.chfSetLen

/-- `CustomHeaderFile::grow`, forwarded to the memory root's
`GrowableBackend::resize` (`Vec::resize(new_size, 0)` appends zeros). -/
def SplitSt.chfGrow (s : SplitSt) (size : Nat) : RRes SplitSt :=
  if size = 0 then .ok s
  else if s.data.length + size < 8 + s.hlen + s.clen then .err .outOfBounds
  else .ok { s with data := s.data ++ List.replicate size 0 }

/-- `BackendIndex` (src/components/split_file/backend_index.rs). -/
inductive BIdx where
  | first
  | second
  deriving Repr, DecidableEq

/-- Physical start of `SplitFile::backend_range(index)`. -/
def SplitSt.rangeStart (s : SplitSt) : BIdx → Nat
  | .first => 8 + s.hlen
  | .second => 8 + s.hlen + s.split

/-- Physical end of `SplitFile::backend_range(index)`. -/
def SplitSt.rangeEnd (s : SplitSt) : BIdx → Nat
  | .first => 8 + s.hlen + s.split
  | .second => 8 + s.hlen + s.clen

/-- The cached `BaseHeader` of a side. -/
def SplitSt.hOf (s : SplitSt) : BIdx → Nat
  | .first => s.h1
  | .second => s.h2

/-- Update the cached `BaseHeader` of a side. -/
def SplitSt.setHOf (s : SplitSt) (i : BIdx) (n : Nat) : SplitSt :=
  match i with
  | .first => { s with h1 := n }
  | .second => { s with h2 := n }

/-- Replace the whole data region (helper for the views). -/
def SplitSt.makeWr (s : SplitSt) (l : List Nat) : SplitSt := { s with data := l }

/-- A side of the split file viewed as a backend
(`split_file::entry::Entry`): `data()` is `backend_data(index)` (recomputed
from the parent on each call), `first_index` is 8, `len` reads the cached
header. -/
structure SFEnt where
  st : SplitSt
  idx : BIdx
  deriving Repr, DecidableEq

/-- `Entry::set_len` → `SplitFile::get_backend_mut(index).set_len(n)`
(`BaseSubMutBackend`): bounds check against the side's slice, update the
cached header and write its bytes at the slice start. -/
def SFEnt.setLen (e : SFEnt) (n : Nat) : RRes SFEnt :=
  let rlen := e.st.rangeEnd e.idx - e.st.rangeStart e.idx
  if n > rlen - 1 + 1 then .err .outOfBounds
  else if 8 ≤ rlen then
    .ok { st := (e.st.setHOf e.idx n).makeWr (writeSeg e.st.data (e.st.rangeStart e.idx) (le64 n)),
          idx := e.idx }
  else .pnc

instance : Be SFEnt where
  rd e := getSeg e.st.data (e.st.rangeStart e.idx) (e.st.rangeEnd e.idx - e.st.rangeStart e.idx)
  wr e l := { st := e.st.makeWr (writeSeg e.st.data (e.st.rangeStart e.idx) l), idx := e.idx }
  fi _ := 8
  len e := e.st.hOf e.idx
  setLen := SFEnt.setLen

/-- `SplitFile::set_split_pos`: capacity check, then
`CustomHeaderFile::set_header` (length-preserving over the opaque header
bytes) and a header flush on the root. -/
def SplitSt.setSplitPos (s : SplitSt) (pos : Nat) : RRes SplitSt :=
  if pos > s.data.length - (8 + s.hlen) then .err .outOfBounds
  else .ok { s with split := pos }

/-- `SplitFile::grow(index, size)`: grow the parent; for the first side,
insert `size` zero bytes at `split_pos` via the custom-header file's
`replace_fill` and advance `split_pos`; for the second side just extend the
parent length. -/
def SplitSt.growSF (s : SplitSt) (index : BIdx) (size : Nat) : RRes SplitSt := do
  let s1 ← s.chfGrow size
  match index with
  | .first => do
    let split := s1.split
    let (s2, _) ← Be.replaceFill s1 split 0 0 size
    s2.setSplitPos (split + size)
  | .second =>
    Be.setLen s1 (Be.len s1 + size)

/-- `SplitFile::create_with_init_cap(c)` over a fresh memory root grown to the
exact needed capacity `4 + 8 + (c+8)·2`: root header, 12 opaque custom-header
prefix bytes (the `u32` length and the encoded `split_pos`), then the two
sides, each an 8-byte zero header plus `c` zero bytes.  `split_pos = 8 + c`. -/
def mkSplit (c : Nat) : SplitSt :=
  { data := le64 (28 + 2 * c) ++ List.replicate 12 0 ++ le64 0 ++
      List.replicate c 0 ++ le64 0 ++ List.replicate c 0,
    hlen := 12, clen := 16 + 2 * c, split := 8 + c, h1 := 0, h2 := 0 }

/-! ### Indexed file (src/components/indexed_file/mod.rs) -/

structure IdxFile where
  sf : SplitSt
  count : Nat
  deriving Repr, DecidableEq

namespace IdxFile

/-- The read-only view of a side (`SplitFile::first()` / `second()`). -/
def side (f : IdxFile) (i : BIdx) : SFEnt := ⟨f.sf, i⟩

/-- `IndexedFile::id_to_storage_offset`: read 8 bytes at `id*8` of the first
side and decode little-endian. -/
def idToOff (f : IdxFile) (id : Nat) : RRes Nat := do
  let bytes ← Be.get (f.side .first) (id * 8) 8
  .ok (leDec bytes)

/-- `IndexedFile::entry_index`: the byte range of entry `id` inside the second
side's slice (its 8-byte header included). -/
def entryIndex (f : IdxFile) (id : Nat) : RRes (Nat × Nat) := do
  let off ← f.idToOff id
  let next ←
    if id + 1 = f.count then .ok (Be.len (f.side .second))
    else f.idToOff (id + 1)
  .ok (off + 8, next + 8)

/-- `IndexedFile::get`: slice the second side's data at `entry_index(id)`
(Rust slice indexing panics when the range is invalid). -/
def getEntry (f : IdxFile) (id : Nat) : RRes (List Nat) := do
  let (a, b) ← f.entryIndex id
  let sl := Be.rd (f.side .second)
  if a ≤ b ∧ b ≤ sl.length then .ok (getSeg sl a (b - a)) else .pnc

/-- `IndexedFile::set_id_to_storage_offset`: direct 8-byte write at physical
index `8 + id*8` of the first side's slice. -/
def setIdToOff (f : IdxFile) (id v : Nat) : RRes IdxFile :=
  let e := f.side .first
  let idx := 8 + id * 8
  if idx + 8 ≤ (Be.rd e).length then
    .ok { f with sf := (Be.wr e (writeSeg (Be.rd e) idx (le64 v))).st }
  else .pnc

/-- The trailing loop of `IndexedFile::shift_offsets` (ids after the first
shifted one); a negative result is the `.expect` panic. -/
def shiftLoop (by_ : Int) : IdxFile → Nat → Nat → RRes IdxFile
  | f, 0, _ => .ok f
  | f, fuel + 1, id => do
    let pos ← f.idToOff id
    let r := (pos : Int) + by_
    if r < 0 then .pnc
    else do
      let f1 ← f.setIdToOff id r.toNat
      shiftLoop by_ f1 fuel (id + 1)

/-- `IndexedFile::shift_offsets(after_id, by)`. -/
def shiftOffsets (f : IdxFile) (afterId : Nat) (by_ : Int) : RRes (IdxFile × Bool) := do
  let firstId := afterId + 1
  if firstId ≥ f.count ∨ by_ = 0 then .ok (f, false)
  else do
    let pos ← f.idToOff firstId
    let r := (pos : Int) + by_
    if r < 0 then .err .invalidShift
    else do
      let res := r.toNat
      let prev ← f.idToOff afterId
      if prev > res then .err .outOfBounds
      else do
        let f1 ← f.setIdToOff firstId res
        let f2 ← shiftLoop by_ f1 (f.count - (firstId + 1)) (firstId + 1)
        .ok (f2, true)

/-- `IndexedFile::grow_entry(id, size, value)`: grow the second side, splice
`size` copies of `value` at the end of entry `id` (`replace_fill`), then
shift the following offsets. -/
def growEntry (f : IdxFile) (id size value : Nat) : RRes IdxFile := do
  if size = 0 then .ok f
  else do
    let sf1 ← f.sf.growSF .second size
    let f1 : IdxFile := { f with sf := sf1 }
    let (_, b) ← f1.entryIndex id
    let index := b - 8
    let (e2, _) ← Be.replaceFill (f1.side .second) index 0 value size
    let f2 : IdxFile := { f1 with sf := e2.st }
    let (f3, _) ← f2.shiftOffsets id (size : Int)
    .ok f3

/-- `IndexedFile::grow_list` / `grow_list_by`. -/
def growList (f : IdxFile) : RRes IdxFile := do
  let firstCap := max (Be.capacity (f.side .first)) 8
  let sf1 ← f.sf.growSF .first firstCap
  .ok { f with sf := sf1 }

/-- `IndexedFile::add_index`: grow the table side when fewer than 8 free
bytes, then push the offset and bump `count`. -/
def addIndex (f : IdxFile) (index : Nat) : RRes IdxFile := do
  let f1 ← if Be.free (f.side .first) < 8 then f.growList else .ok f
  let (e1, _) ← Be.push (f1.side .first) (le64 index)
  .ok { sf := e1.st, count := f1.count + 1 }

/-- `IndexedFile::grow_data_for`: grow the second side by
`max len (second capacity)` when `len` does not fit. -/
def growDataFor (f : IdxFile) (len : Nat) : RRes IdxFile := do
  if Be.free (f.side .second) ≥ len then .ok f
  else do
    let size := max len (Be.capacity (f.side .second))
    let sf1 ← f.sf.growSF .second size
    .ok { f with sf := sf1 }

/-- `IndexedFile::insert`: id = count; append the offset (= second side's
length), grow the data side if needed, push the bytes. -/
def insert (f : IdxFile) (d : List Nat) : RRes (IdxFile × Nat) := do
  let id := f.count
  let pos := Be.len (f.side .second)
  let f1 ← f.addIndex pos
  let f2 ← f1.growDataFor d.length
  let (e, _) ← Be.push (f2.side .second) d
  .ok ({ f2 with sf := e.st }, id)

end IdxFile

/-- `IndexedFile::with_capacity c` (via `SplitFile::create_with_init_cap`);
`count = first.len / 8 = 0`. -/
def mkIdx (c : Nat) : IdxFile := { sf := mkSplit c, count := 0 }

/-- The indexed-file state after the first insert of the repository's
`test_grow` scenario (`insert [1,2,3]` into a fresh file). -/
def testIdx1 : IdxFile := ((IdxFile.insert (mkIdx 0) [1, 2, 3]).getD (mkIdx 0, 0)).1

/-- … after the second insert (`insert [9,9,9]`). -/
def testIdx2 : IdxFile := ((IdxFile.insert testIdx1 [9, 9, 9]).getD (mkIdx 0, 0)).1

/-- … after `grow_entry(0, 2, 0)`. -/
def testIdx3 : IdxFile := (IdxFile.growEntry testIdx2 0 2 0).getD (mkIdx 0)

/-- … after `grow_entry(1, 4, 3)`. -/
def testIdx4 : IdxFile := (IdxFile.growEntry testIdx3 1 4 3).getD (mkIdx 0)

/-! ### Well-formedness invariants -/

/-- Well-formed hash map: the slot list's length is the capacity, the KV
storage holds exactly `len` pairs with pairwise-distinct keys, the nonzero
slots are a permutation of `{1, …, len}` (KV id + 1, each placed once), and
the load factor is strictly below 3/4. -/
def WFm (m : FMapN) : Prop :=
  m.table.length = m.capacity ∧
  m.kv.length = m.len ∧
  (m.kv.map Prod.fst).Nodup ∧
  (m.table.filter (· != 0)).Perm ((List.range m.len).map (· + 1)) ∧
  4 * m.len < 3 * m.capacity

/-- The capacity produced by one insert: grown to the prime-table target when
the load factor check triggers, unchanged otherwise. -/
def capNext (m : FMapN) : Nat :=
  if needGrow m then
    NEXT_PRIMES_OF_TWO (smallest_two_power_for ((4 * (m.len + 1) + 2) / 3))
  else m.capacity

/-- Well-formed split file: the custom header prefix is at least 4 bytes, each
side starts with its 8-byte header, the parent length covers both sides, the
region covers the parent length, and each side's cached length fits its
capacity. -/
def WFSplit (s : SplitSt) : Prop :=
  4 ≤ s.hlen ∧ 8 ≤ s.split ∧ s.split + 8 ≤ s.clen ∧
  8 + s.hlen + s.clen ≤ s.data.length ∧
  s.h1 + 8 ≤ s.split ∧ s.h2 + 8 + s.split ≤ s.clen

/-- The offset stored for entry `i` in the first (table) side. -/
def offAt (f : IdxFile) (i : Nat) : Nat :=
  leDec (getSeg f.sf.data (f.sf.rangeStart .first + 8 + 8 * i) 8)

/-- Well-formed indexed file: a well-formed split file whose table side holds
exactly `count` 8-byte offsets, non-decreasing and bounded by the storage
side's live length. -/
def WFIdx (f : IdxFile) : Prop :=
  WFSplit f.sf ∧ f.sf.h1 = 8 * f.count ∧
  (∀ i, i + 1 < f.count → offAt f i ≤ offAt f (i + 1)) ∧
  (∀ i, i < f.count → offAt f i ≤ f.sf.h2)

/-! ## Lemmas about the byte-list primitives -/

theorem getSeg_length (l : List Nat) (s n : Nat) (h : s + n ≤ l.length) :
    (getSeg l s n).length = n := by
  simp [getSeg]
  omega

theorem getSeg_getD (l : List Nat) (s n i : Nat) (h : i < n) :
    (getSeg l s n).getD i 0 = l.getD (s + i) 0 := by
  simp [getSeg, List.getD_eq_getElem?_getD, List.getElem?_take, h,
    List.getElem?_drop]

theorem writeSeg_length (l src : List Nat) (p : Nat) (h : p + src.length ≤ l.length) :
    (writeSeg l p src).length = l.length := by
  simp [writeSeg]
  omega

theorem writeSeg_getD (l src : List Nat) (p j : Nat) (h : p + src.length ≤ l.length) :
    (writeSeg l p src).getD j 0 =
      if p ≤ j ∧ j < p + src.length then src.getD (j - p) 0 else l.getD j 0 := by
  have hp : p ≤ l.length := by omega
  have hlt : (l.take p).length = p := by simp; omega
  simp only [writeSeg, List.append_assoc, List.getD_eq_getElem?_getD]
  rw [List.getElem?_append, hlt]
  rcases Nat.lt_or_ge j p with hj | hj
  · rw [if_pos hj, List.getElem?_take, if_pos hj, if_neg (by omega)]
  · rw [if_neg (by omega), List.getElem?_append]
    rcases Nat.lt_or_ge j (p + src.length) with hj2 | hj2
    · rw [if_pos (by omega), if_pos (by omega)]
    · rw [if_neg (by omega), if_neg (by omega), List.getElem?_drop]
      congr 2
      omega

theorem fillSeg_length (l : List Nat) (s e v : Nat) (hse : s ≤ e) (h : e ≤ l.length) :
    (fillSeg l s e v).length = l.length := by
  apply writeSeg_length
  simp
  omega

theorem fillSeg_getD (l : List Nat) (s e v j : Nat) (hse : s ≤ e) (h : e ≤ l.length) :
    (fillSeg l s e v).getD j 0 = if s ≤ j ∧ j < e then v else l.getD j 0 := by
  rw [fillSeg, writeSeg_getD]
  · simp only [List.length_replicate]
    rcases Nat.lt_or_ge j e with hj | hj
    · rcases Nat.lt_or_ge j s with hj2 | hj2
      · rw [if_neg (by omega), if_neg (by omega)]
      · rw [if_pos (by omega), if_pos (by omega)]
        rw [List.getD_eq_getElem?_getD, List.getElem?_replicate, if_pos (by omega)]
        rfl
    · rw [if_neg (by omega), if_neg (by omega)]
  · simp
    omega

theorem copyWithin_length (l : List Nat) (s e d : Nat) (hse : s ≤ e)
    (he : e ≤ l.length) (hd : d + (e - s) ≤ l.length) :
    (copyWithin l s e d).length = l.length := by
  apply writeSeg_length
  rw [getSeg_length l s (e - s) (by omega)]
  omega

theorem copyWithin_getD (l : List Nat) (s e d j : Nat) (hse : s ≤ e)
    (he : e ≤ l.length) (hd : d + (e - s) ≤ l.length) :
    (copyWithin l s e d).getD j 0 =
      if d ≤ j ∧ j < d + (e - s) then l.getD (s + (j - d)) 0 else l.getD j 0 := by
  rw [copyWithin, writeSeg_getD]
  · rw [getSeg_length l s (e - s) (by omega)]
    rcases Nat.lt_or_ge j (d + (e - s)) with hj | hj
    · rcases Nat.lt_or_ge j d with hj2 | hj2
      · rw [if_neg (by omega), if_neg (by omega)]
      · rw [if_pos (by omega), if_pos (by omega)]
        exact getSeg_getD l s (e - s) (j - d) (by omega)
    · rw [if_neg (by omega), if_neg (by omega)]
  · rw [getSeg_length l s (e - s) (by omega)]
    omega

theorem le64_length (n : Nat) : (le64 n).length = 8 := rfl

theorem leDec_le64 (n : Nat) (h : n < 2 ^ 64) : leDec (le64 n) = n := by
  simp only [le64, leDec, List.getD_cons_zero, List.getD_cons_succ]
  omega

theorem log2fuel_eq (fuel : Nat) : ∀ n, n ≤ fuel → log2fuel fuel n = Nat.log2 n := by
  induction fuel with
  | zero =>
    intro n h
    have : n = 0 := by omega
    subst this
    rw [log2fuel]
    conv_rhs => rw [Nat.log2]
    simp
  | succ fuel ih =>
    intro n h
    rw [log2fuel]
    by_cases h2 : 2 ≤ n
    · rw [if_pos h2, ih (n / 2) (by omega)]
      conv_rhs => rw [Nat.log2]
      rw [if_pos h2]
    · rw [if_neg h2]
      conv_rhs => rw [Nat.log2]
      rw [if_neg h2]

theorem ilog2_eq (n : Nat) : ilog2 n = Nat.log2 n := log2fuel_eq n n le_rfl

theorem s2p_ge (m : Nat) (h : 1 ≤ m) : m ≤ 2 ^ smallest_two_power_for m := by
  unfold smallest_two_power_for
  have hmax : max m 1 = m := by omega
  rw [hmax, ilog2_eq]
  by_cases hp : m ≠ 0 ∧ 2 ^ Nat.log2 m = m
  · rw [if_pos hp]
    calc m = 2 ^ Nat.log2 m := hp.2.symm
    _ ≤ 2 ^ max (Nat.log2 m) 1 := Nat.pow_le_pow_right (by omega) (le_max_left _ _)
  · rw [if_neg hp]
    have h1 : m < 2 ^ (Nat.log2 m + 1) := Nat.lt_log2_self
    calc m ≤ 2 ^ (Nat.log2 m + 1) := le_of_lt h1
    _ ≤ 2 ^ (max (Nat.log2 m) 1 + 1) :=
      Nat.pow_le_pow_right (by omega) (by omega)

theorem s2p_le (m : Nat) (h : 1 ≤ m) : 2 ^ smallest_two_power_for m ≤ 2 * m := by
  unfold smallest_two_power_for
  have hmax : max m 1 = m := by omega
  rw [hmax, ilog2_eq]
  have hlow : 2 ^ Nat.log2 m ≤ m := Nat.log2_self_le (by omega)
  by_cases hp : m ≠ 0 ∧ 2 ^ Nat.log2 m = m
  · rw [if_pos hp]
    rcases Nat.lt_or_ge m 2 with hm | hm
    · have h1 : m = 1 := by omega
      subst h1
      have h0 : Nat.log2 1 = 0 := by
        have h2 := Nat.log2_self_le (n := 1) one_ne_zero
        rcases Nat.eq_zero_or_pos (Nat.log2 1) with h3 | h3
        · exact h3
        · have h4 := Nat.pow_le_pow_right (by omega : 1 ≤ 2) h3
          omega
      rw [h0]
      decide
    · have hl : 1 ≤ Nat.log2 m := (Nat.le_log2 (by omega)).2 (by omega)
      rw [max_eq_left hl, hp.2]
      omega
  · rw [if_neg hp]
    have hm : 2 ≤ m := by
      rcases Nat.lt_or_ge m 2 with hm | hm
      · exfalso
        have h1 : m = 1 := by omega
        subst h1
        have h0 : Nat.log2 1 = 0 := by
          have h2 := Nat.log2_self_le (n := 1) one_ne_zero
          rcases Nat.eq_zero_or_pos (Nat.log2 1) with h3 | h3
          · exact h3
          · have h4 := Nat.pow_le_pow_right (by omega : 1 ≤ 2) h3
            omega
        exact hp ⟨by omega, by rw [h0]; rfl⟩
      · exact hm
    have hl : 1 ≤ Nat.log2 m := (Nat.le_log2 (by omega)).2 (by omega)
    rw [max_eq_left hl, pow_succ]
    omega

theorem list_eq_of_getD (l1 l2 : List Nat) (hlen : l1.length = l2.length)
    (h : ∀ i, i < l1.length → l1.getD i 0 = l2.getD i 0) : l1 = l2 := by
  apply List.ext_getElem hlen
  intro i h1 h2
  have := h i h1
  rwa [List.getD_eq_getElem l1 0 h1, List.getD_eq_getElem l2 0 h2] at this

@[simp] theorem BaseMut_rd (s : BaseMut) : Be.rd s = s.data := rfl
@[simp] theorem BaseMut_wr (s : BaseMut) (l : List Nat) :
    Be.wr s l = { s with data := l } := rfl
@[simp] theorem BaseMut_fi (s : BaseMut) : Be.fi s = 8 := rfl
@[simp] theorem BaseMut_len (s : BaseMut) : Be.len s = s.hdr := rfl
theorem BaseMut_setLen (s : BaseMut) (n : Nat) : Be.setLen s n = BaseMut.setLen s n := rfl

@[simp] theorem MemG_rd (s : MemG) : Be.rd s = s.data := rfl
@[simp] theorem MemG_wr (s : MemG) (l : List Nat) :
    Be.wr s l = { s with data := l } := rfl
@[simp] theorem MemG_fi (s : MemG) : Be.fi s = 8 := rfl
@[simp] theorem MemG_len (s : MemG) : Be.len s = s.hdr := rfl
theorem MemG_setLen (s : MemG) (n : Nat) : Be.setLen s n = MemG.setLen s n := rfl

@[simp] theorem SplitSt_rd (s : SplitSt) : Be.rd s = s.data := rfl
@[simp] theorem SplitSt_wr (s : SplitSt) (l : List Nat) :
    Be.wr s l = { s with data := l } := rfl
@[simp] theorem SplitSt_fi (s : SplitSt) : Be.fi s = 8 + s.hlen := rfl
@[simp] theorem SplitSt_len (s : SplitSt) : Be.len s = s.clen := rfl
theorem SplitSt_setLen (s : SplitSt) (n : Nat) : Be.setLen s n = SplitSt.chfSetLen s n := rfl

@[simp] theorem SFEnt_rd (e : SFEnt) :
    Be.rd e = getSeg e.st.data (e.st.rangeStart e.idx)
      (e.st.rangeEnd e.idx - e.st.rangeStart e.idx) := rfl
@[simp] theorem SFEnt_wr (e : SFEnt) (l : List Nat) :
    Be.wr e l = { st := e.st.makeWr (writeSeg e.st.data (e.st.rangeStart e.idx) l),
                  idx := e.idx } := rfl
@[simp] theorem SFEnt_fi (e : SFEnt) : Be.fi e = 8 := rfl
@[simp] theorem SFEnt_len (e : SFEnt) : Be.len e = e.st.hOf e.idx := rfl
theorem SFEnt_setLen (e : SFEnt) (n : Nat) : Be.setLen e n = SFEnt.setLen e n := rfl

/-! ## Claim C3 -/

/-- C3: the claim fails on the code.  On a full backend holding `[1,2,3,4]`
(capacity 4), `replace(1, 2, [])` satisfies the claim's hypotheses
(`i + k = 3 ≤ len = 4`, new length `2 ≤ capacity`), and the source comment
says the tail `[i+k, len) = [4]` should move to index `i = 1` — but the move
guard `move_start_index < self.end_index()` compares against
`data().len() - 1` instead of `last_index()`, skips the one-byte move, and
the result reads `[1, 2]` where the claim requires `[1, 4]`. -/
theorem C3_replace_full_backend_drops_tail_byte :
    Be.replace (⟨le64 4 ++ [1, 2, 3, 4], 4⟩ : BaseMut) 1 2 [] =
      .ok (⟨le64 2 ++ [1, 2, 3, 4], 2⟩, 2) ∧
    Be.get (⟨le64 2 ++ [1, 2, 3, 4], 2⟩ : BaseMut) 0 2 = .ok [1, 2] ∧
    Be.get (⟨le64 4 ++ [1, 2, 3, 4], 4⟩ : BaseMut) 3 1 = .ok [4] ∧
    ([1, 2] : List Nat) ≠ [1, 4] := by
  refine ⟨by decide, by decide, by decide, by decide⟩

/-! ## Claim C5 -/

/-- C5 counterexample: `swap_same_len(0, 2, 2)` on live data `[1,2,3,4,5,6]`
swaps the directly adjacent ranges `[0,2)` and `[2,4)` — disjoint as half-open
ranges, so the claim says it succeeds — but `ranges_overlap` tests
`a.start <= b.end && a.end >= b.start`, which adjacent ranges satisfy, so the
code fails with `OutOfBounds`. -/
theorem C5_counterexample_adjacent_ranges :
    Be.swapSameLen (⟨le64 6 ++ [1, 2, 3, 4, 5, 6], 6⟩ : BaseMut) 0 2 2 =
      .err .outOfBounds := by decide

theorem exchange_length (l : List Nat) (lo hi n : Nat) (h1 : lo + n ≤ hi)
    (h2 : hi + n ≤ l.length) :
    (writeSeg (writeSeg l lo (getSeg l hi n)) hi (getSeg l lo n)).length = l.length := by
  have hg1 : (getSeg l hi n).length = n := getSeg_length l hi n (by omega)
  have hg2 : (getSeg l lo n).length = n := getSeg_length l lo n (by omega)
  have hw1 : (writeSeg l lo (getSeg l hi n)).length = l.length :=
    writeSeg_length l _ lo (by omega)
  rw [writeSeg_length _ _ hi (by rw [hg2, hw1]; omega), hw1]

theorem exchange_getD (l : List Nat) (lo hi n j : Nat) (h1 : lo + n ≤ hi)
    (h2 : hi + n ≤ l.length) :
    (writeSeg (writeSeg l lo (getSeg l hi n)) hi (getSeg l lo n)).getD j 0 =
      if lo ≤ j ∧ j < lo + n then l.getD (hi + (j - lo)) 0
      else if hi ≤ j ∧ j < hi + n then l.getD (lo + (j - hi)) 0
      else l.getD j 0 := by
  have hg1 : (getSeg l hi n).length = n := getSeg_length l hi n (by omega)
  have hg2 : (getSeg l lo n).length = n := getSeg_length l lo n (by omega)
  have hw1 : (writeSeg l lo (getSeg l hi n)).length = l.length :=
    writeSeg_length l _ lo (by omega)
  rw [writeSeg_getD _ _ hi j (by rw [hg2, hw1]; omega), hg2]
  rcases Nat.lt_or_ge j (lo + n) with hj | hj
  · rcases Nat.lt_or_ge j lo with hj0 | hj0
    · rw [if_neg (by omega), if_neg (by omega), if_neg (by omega),
        writeSeg_getD _ _ lo j (by rw [hg1]; omega), hg1, if_neg (by omega)]
    · rw [if_neg (by omega), if_pos ⟨hj0, hj⟩,
        writeSeg_getD _ _ lo j (by rw [hg1]; omega), hg1, if_pos (by omega),
        getSeg_getD _ _ _ _ (by omega)]
  · rcases Nat.lt_or_ge j hi with hjh | hjh
    · rw [if_neg (by omega), if_neg (by omega), if_neg (by omega),
        writeSeg_getD _ _ lo j (by rw [hg1]; omega), hg1, if_neg (by omega)]
    · rcases Nat.lt_or_ge j (hi + n) with hj2 | hj2
      · rw [if_pos (by omega), getSeg_getD _ _ _ _ (by omega),
          if_neg (by omega), if_pos (by omega)]
      · rw [if_neg (by omega), if_neg (by omega), if_neg (by omega),
          writeSeg_getD _ _ lo j (by rw [hg1]; omega), hg1, if_neg (by omega)]

theorem swap_ordered (s : BaseMut) (a b n : Nat) (hn : 1 ≤ n) (hab : a + n < b)
    (hb : 8 + b + n ≤ s.data.length) :
    Be.swapSameLen s a b n =
      .ok ⟨writeSeg (writeSeg s.data (8 + a) (getSeg s.data (8 + b) n)) (8 + b)
        (getSeg s.data (8 + a) n), s.hdr⟩ := by
  unfold Be.swapSameLen
  rw [if_neg (by
    simp only [Be.rangesOverlap, Bool.or_eq_true, Bool.and_eq_true, decide_eq_true_eq]
    omega)]
  simp only [Be.getIndex, BaseMut_fi, BaseMut_rd, BaseMut_wr]
  have hgt : ¬ (8 + a > 8 + b) := by omega
  simp only [if_neg hgt]
  rw [if_pos ⟨by omega, by omega, by omega⟩]

theorem swap_comm (s : BaseMut) (a b n : Nat) :
    Be.swapSameLen s a b n = Be.swapSameLen s b a n := by
  unfold Be.swapSameLen
  have hro : Be.rangesOverlap a (a + n) b (b + n) = Be.rangesOverlap b (b + n) a (a + n) := by
    rw [Bool.eq_iff_iff]
    simp only [Be.rangesOverlap, Bool.and_eq_true, decide_eq_true_eq, ge_iff_le]
    omega
  rw [hro]
  by_cases hc : (Be.rangesOverlap b (b + n) a (a + n) || decide (n = 0)) = true
  · rw [if_pos hc, if_pos hc]
  · rw [if_neg hc, if_neg hc]
    rcases Nat.lt_trichotomy a b with h | h | h
    · simp only [Be.getIndex, BaseMut_fi]
      have hg1 : ¬ (8 + a > 8 + b) := by omega
      have hg2 : (8 + b > 8 + a) := by omega
      simp only [if_neg hg1, if_pos hg2]
    · exfalso
      apply hc
      simp only [Be.rangesOverlap, Bool.or_eq_true, Bool.and_eq_true, decide_eq_true_eq]
      omega
    · simp only [Be.getIndex, BaseMut_fi]
      have hg1 : (8 + a > 8 + b) := by omega
      have hg2 : ¬ (8 + b > 8 + a) := by omega
      simp only [if_pos hg1, if_neg hg2]

/-- The successful growth path of the memory backend: `grow(n)` with `n > 0`
appends `n` zero bytes (`Vec::resize`). -/
theorem MemG_grow_append (s : MemG) (n : Nat) (hn : 0 < n)
    (hlast : 8 + s.hdr ≤ s.data.length + n) :
    MemG.grow s n = .ok { s with data := s.data ++ List.replicate n 0 } := by
  unfold MemG.grow MemG.resize
  rw [if_neg (by omega)]
  rw [if_neg (by intro hc; omega)]
  have hns : (((s.data.length : Nat) : Int) + ((n : Nat) : Int)).toNat =
      s.data.length + n := by omega
  rw [hns]
  rw [if_neg (by simp only [Be.lastIndex, MemG_fi, MemG_len]; omega)]
  unfold MemG.resizeImpl
  rw [List.take_of_length_le (by omega)]
  have h2 : s.data.length + n - s.data.length = n := by omega
  rw [h2]

/-- `grow_to(size)` on the memory backend when `size` exceeds the current
capacity: grows to exactly `size` (region length `size + 8`). -/
theorem MemG_growTo_append (s : MemG) (size : Nat)
    (hgt : s.data.length - 8 < size) (hh : s.hdr ≤ size) :
    MemG.growTo s size =
      .ok { s with data := s.data ++ List.replicate (size + 8 - s.data.length) 0 } := by
  unfold MemG.growTo
  simp only [MemG_rd, MemG_fi]
  rw [if_neg (by omega)]
  exact MemG_grow_append s (size + 8 - s.data.length) (by omega) (by omega)

/-! ## Claim C6 -/

/-- C6 counterexample: a full fixed-stride list (`N = 4`) of length 3 with
element capacity exactly 3 grows on push to element capacity 8, not to the
claimed smallest power of two `≥ len + 1 = 4`: `push_raw` grows through
`grow()` = `grow_for(len.max(1))`, which rounds `len + len.max(1) = 6` up to
8. -/
theorem C6_counterexample_full_list_of_three :
    ListN.pushRaw (⟨⟨le64 12 ++ List.replicate 12 7, 12⟩, 3⟩ : ListN 4) [1, 1, 1, 1] =
      .ok ⟨⟨le64 16 ++ (List.replicate 12 7 ++ ([1, 1, 1, 1] ++ List.replicate 16 0)),
        16⟩, 4⟩ ∧
    ListN.capacity (⟨⟨le64 16 ++ (List.replicate 12 7 ++
      ([1, 1, 1, 1] ++ List.replicate 16 0)), 16⟩, 4⟩ : ListN 4) = 8 ∧
    (8 : Nat) ≠ 4 := by
  refine ⟨by decide, by decide, by decide⟩

/-- C6 (amended): pushing an `N`-byte element onto a list with zero free
element slots grows the backend so that the element capacity becomes exactly
`2 ^ smallest_two_power_for (len.max(1) + len)` — the smallest power of two
at least twice the length for nonempty lists (2 for an empty one) — and then
appends the element.  (This coincides with the claimed "smallest power of two
`≥ len + 1`" only for `len ≤ 1`; a full list of length 3 grows to capacity
8, not 4.) -/
theorem C6_push_grows_for_double (N : Nat) (l : ListN N) (d : List Nat)
    (hN : 0 < N) (hdl : d.length = N)
    (hwf : l.be.hdr = N * l.len)
    (hdata : 8 + N * l.len ≤ l.be.data.length)
    (hfree : ListN.free l = 0) :
    ∃ l1 : ListN N, ListN.pushRaw l d = .ok l1 ∧
      ListN.capacity l1 = 2 ^ smallest_two_power_for (max l.len 1 + l.len) ∧
      l1.len = l.len + 1 ∧
      ListN.getRaw l1 l.len = .ok d := by
  obtain ⟨⟨D, hd⟩, L⟩ := l
  simp only at hwf hdata hfree ⊢
  subst hwf
  have hfree2 : Be.free (⟨D, N * L⟩ : MemG) < N := by
    refine (Nat.div_eq_zero_iff hN).mp ?_
    exact hfree
  have hfree3 : D.length - 8 - N * L < N := by
    simpa [Be.free, Be.capacity] using hfree2
  have hP : max L 1 + L ≤ 2 ^ smallest_two_power_for (max L 1 + L) :=
    s2p_ge _ (by omega)
  set T := 2 ^ smallest_two_power_for (max L 1 + L) with hT
  have hmul : N * (L + 1) = N * L + N := by ring
  have hmle : N * (L + 1) ≤ N * T := Nat.mul_le_mul_left N (by omega)
  have hDlt : D.length < T * N + 8 := by
    rw [Nat.mul_comm T N]
    omega
  have hDge : 8 + N * L ≤ D.length := hdata
  have hgrowTo : MemG.growTo ⟨D, N * L⟩ (T * N) =
      .ok ⟨D ++ List.replicate (T * N + 8 - D.length) 0, N * L⟩ := by
    exact MemG_growTo_append ⟨D, N * L⟩ (T * N)
      (by show D.length - 8 < T * N; rw [Nat.mul_comm T N]; omega)
      (by show N * L ≤ T * N; rw [Nat.mul_comm T N]; omega)
  have hgrow : ListN.grow (⟨⟨D, N * L⟩, L⟩ : ListN N) =
      .ok ⟨⟨D ++ List.replicate (T * N + 8 - D.length) 0, N * L⟩, L⟩ := by
    unfold ListN.grow ListN.growFor
    rw [if_neg (by omega)]
    show RRes.bind (MemG.growTo _ (ListN.byteIndex (N := N) T)) _ = _
    have hbi : ListN.byteIndex (N := N) T = T * N := rfl
    rw [hbi, hgrowTo]
    rfl
  set D1 : List Nat := D ++ List.replicate (T * N + 8 - D.length) 0 with hD1
  have hD1len : D1.length = T * N + 8 := by
    simp [hD1]
    omega
  have hdne : d.isEmpty = false := by
    rcases d with _ | ⟨x, d⟩
    · simp at hdl; omega
    · rfl
  have hwlen : (writeSeg D1 (8 + N * L) d).length = D1.length := by
    apply writeSeg_length
    rw [hD1len, hdl, Nat.mul_comm T N]
    omega
  have hpush : Be.push (⟨D1, N * L⟩ : MemG) d =
      .ok (⟨writeSeg (writeSeg D1 (8 + N * L) d) 0 (le64 (N * L + d.length)),
        N * L + d.length⟩, N * L) := by
    unfold Be.push
    simp only [MemG_rd, MemG_fi, MemG_len, hdne, Be.getIndex, Be.checkCapacityOob,
      Be.endIndex, MemG_setLen, Bool.false_eq_true, if_false]
    rw [if_neg (by rw [hD1len, hdl, Nat.mul_comm T N]; omega)]
    simp only [RRes.monad_bind_eq, RRes.bind_ok]
    rw [if_pos (by rw [hD1len, hdl, Nat.mul_comm T N]; omega)]
    unfold MemG.setLen
    rw [if_pos (by show (8 : Nat) ≤ (writeSeg D1 (8 + N * L) d).length
                   rw [hwlen, hD1len]; omega)]
    rfl
  refine ⟨⟨⟨writeSeg (writeSeg D1 (8 + N * L) d) 0 (le64 (N * L + d.length)),
      N * L + d.length⟩, L + 1⟩, ?_, ?_, rfl, ?_⟩
  · unfold ListN.pushRaw
    rw [if_neg (by omega)]
    rw [if_pos hfree]
    show RRes.bind (ListN.grow _) _ = _
    rw [hgrow]
    simp only [RRes.bind_ok]
    show RRes.bind (Be.push (⟨D1, N * L⟩ : MemG) d) _ = _
    rw [hpush]
    rfl
  · unfold ListN.capacity
    simp only [Be.capacity, MemG_rd, MemG_fi]
    have hl2 : (writeSeg (writeSeg D1 (8 + N * L) d) 0 (le64 (N * L + d.length))).length =
        D1.length := by
      rw [writeSeg_length _ _ _ (by rw [le64_length, hwlen, hD1len]; omega), hwlen]
    rw [hl2, hD1len]
    have : T * N + 8 - 8 = T * N := by omega
    rw [this, Nat.mul_div_cancel T hN]
  · unfold ListN.getRaw
    unfold Be.get
    simp only [MemG_rd, MemG_fi, MemG_len, Be.getIndex, Be.checkLenOob, Be.lastIndex]
    have hbi : ListN.byteIndex (N := N) L = L * N := rfl
    have hl2 : (writeSeg (writeSeg D1 (8 + N * L) d) 0 (le64 (N * L + d.length))).length =
        D1.length := by
      rw [writeSeg_length _ _ _ (by rw [le64_length, hwlen, hD1len]; omega), hwlen]
    rw [hbi]
    rw [if_neg (by rw [hdl, Nat.mul_comm L N]; omega)]
    simp only [RRes.monad_bind_eq, RRes.bind_ok]
    rw [if_pos (by rw [hl2, hD1len, Nat.mul_comm L N, Nat.mul_comm T N]; omega)]
    congr 1
    apply list_eq_of_getD
    · rw [getSeg_length _ _ _ (by rw [hl2, hD1len, Nat.mul_comm L N, Nat.mul_comm T N]; omega), hdl]
    · intro i hi
      rw [getSeg_length _ _ _ (by rw [hl2, hD1len, Nat.mul_comm L N, Nat.mul_comm T N]; omega)] at hi
      rw [getSeg_getD _ _ _ _ hi]
      rw [writeSeg_getD _ _ _ _ (by rw [le64_length, hwlen, hD1len]; omega)]
      rw [if_neg (by rw [le64_length]; omega)]
      rw [writeSeg_getD _ _ _ _ (by rw [hD1len, hdl, Nat.mul_comm T N]; omega)]
      rw [if_pos ⟨by rw [Nat.mul_comm L N]; omega,
        by rw [Nat.mul_comm L N, hdl]; omega⟩]
      congr 1
      rw [Nat.mul_comm L N]
      omega

/-- C6 witness: the amended statement at the concrete full list of length 3
(`N = 4`): the element capacity after the push is
`2 ^ smallest_two_power_for 6 = 8`. -/
theorem C6_push_grows_for_double_witness :
    ∃ l1 : ListN 4,
      ListN.pushRaw (⟨⟨le64 12 ++ List.replicate 12 7, 12⟩, 3⟩ : ListN 4) [1, 1, 1, 1] =
        .ok l1 ∧
      ListN.capacity l1 = 2 ^ smallest_two_power_for (max 3 1 + 3) ∧
      l1.len = 3 + 1 ∧
      ListN.getRaw l1 3 = .ok [1, 1, 1, 1] :=
  C6_push_grows_for_double 4 ⟨⟨le64 12 ++ List.replicate 12 7, 12⟩, 3⟩ [1, 1, 1, 1]
    (by decide) (by decide) (by decide) (by decide) (by decide)

/-- C5 (amended): `swap_same_len(a, b, n)` fails with `OutOfBounds` exactly
when `n = 0` or the ranges touch or overlap as closed intervals
(`a ≤ b + n ∧ b ≤ a + n`, the `ranges_overlap` test) — so directly adjacent
half-open ranges (`b = a + n`) also fail; for every pair of nonempty
in-bounds ranges separated by at least one byte it succeeds and exchanges the
two byte ranges, leaving the length and all other bytes unchanged. -/
theorem C5_swap_same_len_exact (s : BaseMut) (a b n : Nat) :
    (Be.swapSameLen s a b n = .err .outOfBounds ↔
      n = 0 ∨ (a ≤ b + n ∧ b ≤ a + n)) ∧
    (1 ≤ n → (a + n < b ∨ b + n < a) → 8 + max a b + n ≤ s.data.length →
      ∃ s1 : BaseMut, Be.swapSameLen s a b n = .ok s1 ∧ s1.hdr = s.hdr ∧
        s1.data.length = s.data.length ∧
        getSeg s1.data (8 + a) n = getSeg s.data (8 + b) n ∧
        getSeg s1.data (8 + b) n = getSeg s.data (8 + a) n ∧
        ∀ j, ¬ (8 + a ≤ j ∧ j < 8 + a + n) → ¬ (8 + b ≤ j ∧ j < 8 + b + n) →
          s1.data.getD j 0 = s.data.getD j 0) := by
  constructor
  · unfold Be.swapSameLen
    by_cases hc : (Be.rangesOverlap a (a + n) b (b + n) || decide (n = 0)) = true
    · rw [if_pos hc]
      simp only [Be.rangesOverlap, Bool.or_eq_true, Bool.and_eq_true,
        decide_eq_true_eq, ge_iff_le] at hc
      constructor
      · intro _
        omega
      · intro _
        rfl
    · rw [if_neg hc]
      simp only [Be.rangesOverlap, Bool.or_eq_true, Bool.and_eq_true,
        decide_eq_true_eq, ge_iff_le] at hc
      constructor
      · intro h
        by_cases hg : ((if Be.getIndex s a > Be.getIndex s b then Be.getIndex s a
              else Be.getIndex s b) ≤ (Be.rd s).length ∧
            ((if Be.getIndex s a > Be.getIndex s b then Be.getIndex s b
              else Be.getIndex s a) + n ≤
              if Be.getIndex s a > Be.getIndex s b then Be.getIndex s a
              else Be.getIndex s b) ∧
            n ≤ (Be.rd s).length - if Be.getIndex s a > Be.getIndex s b
              then Be.getIndex s a else Be.getIndex s b)
        · rw [if_pos hg] at h
          cases h
        · rw [if_neg hg] at h
          cases h
      · intro h
        exfalso
        omega
  · intro hn hsep hbnd
    rcases hsep with h1 | h1
    · have hmax : max a b = b := by omega
      rw [hmax] at hbnd
      have hlo : 8 + a + n ≤ 8 + b := by omega
      have hhi : 8 + b + n ≤ s.data.length := by omega
      refine ⟨_, swap_ordered s a b n hn h1 hbnd, rfl,
        exchange_length _ _ _ _ hlo hhi, ?_, ?_, ?_⟩
      · apply list_eq_of_getD
        · rw [getSeg_length _ _ _ (by rw [exchange_length _ _ _ _ hlo hhi]; omega),
            getSeg_length _ _ _ (by omega)]
        · intro i hi
          rw [getSeg_length _ _ _
            (by rw [exchange_length _ _ _ _ hlo hhi]; omega)] at hi
          rw [getSeg_getD _ _ _ _ hi, getSeg_getD _ _ _ _ hi,
            exchange_getD _ _ _ _ _ hlo hhi, if_pos ⟨by omega, by omega⟩]
          congr 1
          omega
      · apply list_eq_of_getD
        · rw [getSeg_length _ _ _ (by rw [exchange_length _ _ _ _ hlo hhi]; omega),
            getSeg_length _ _ _ (by omega)]
        · intro i hi
          rw [getSeg_length _ _ _
            (by rw [exchange_length _ _ _ _ hlo hhi]; omega)] at hi
          rw [getSeg_getD _ _ _ _ hi, getSeg_getD _ _ _ _ hi,
            exchange_getD _ _ _ _ _ hlo hhi, if_neg (by omega),
            if_pos ⟨by omega, by omega⟩]
          congr 1
          omega
      · intro j hja hjb
        rw [exchange_getD _ _ _ _ _ hlo hhi, if_neg (by omega), if_neg (by omega)]
    · have hmax : max a b = a := by omega
      rw [hmax] at hbnd
      have hlo : 8 + b + n ≤ 8 + a := by omega
      have hhi : 8 + a + n ≤ s.data.length := by omega
      rw [swap_comm]
      refine ⟨_, swap_ordered s b a n hn h1 hbnd, rfl,
        exchange_length _ _ _ _ hlo hhi, ?_, ?_, ?_⟩
      · apply list_eq_of_getD
        · rw [getSeg_length _ _ _ (by rw [exchange_length _ _ _ _ hlo hhi]; omega),
            getSeg_length _ _ _ (by omega)]
        · intro i hi
          rw [getSeg_length _ _ _
            (by rw [exchange_length _ _ _ _ hlo hhi]; omega)] at hi
          rw [getSeg_getD _ _ _ _ hi, getSeg_getD _ _ _ _ hi,
            exchange_getD _ _ _ _ _ hlo hhi, if_neg (by omega),
            if_pos ⟨by omega, by omega⟩]
          congr 1
          omega
      · apply list_eq_of_getD
        · rw [getSeg_length _ _ _ (by rw [exchange_length _ _ _ _ hlo hhi]; omega),
            getSeg_length _ _ _ (by omega)]
        · intro i hi
          rw [getSeg_length _ _ _
            (by rw [exchange_length _ _ _ _ hlo hhi]; omega)] at hi
          rw [getSeg_getD _ _ _ _ hi, getSeg_getD _ _ _ _ hi,
            exchange_getD _ _ _ _ _ hlo hhi, if_pos ⟨by omega, by omega⟩]
          congr 1
          omega
      · intro j hja hjb
        rw [exchange_getD _ _ _ _ _ hlo hhi, if_neg (by omega), if_neg (by omega)]

/-- C5 witness: the amended statement at live data `[1,2,3,4,5,6]`, swapping
`[0,2)` with `[3,5)` (one byte of gap). -/
theorem C5_swap_same_len_exact_witness :
    (Be.swapSameLen (⟨le64 6 ++ [1, 2, 3, 4, 5, 6], 6⟩ : BaseMut) 0 3 2 =
        .err .outOfBounds ↔ (2 : Nat) = 0 ∨ ((0 : Nat) ≤ 3 + 2 ∧ (3 : Nat) ≤ 0 + 2)) ∧
    (1 ≤ 2 → ((0 : Nat) + 2 < 3 ∨ (3 : Nat) + 2 < 0) →
      8 + max 0 3 + 2 ≤ (le64 6 ++ [1, 2, 3, 4, 5, 6] : List Nat).length →
      ∃ s1 : BaseMut,
        Be.swapSameLen (⟨le64 6 ++ [1, 2, 3, 4, 5, 6], 6⟩ : BaseMut) 0 3 2 = .ok s1 ∧
        s1.hdr = 6 ∧
        s1.data.length = (le64 6 ++ [1, 2, 3, 4, 5, 6] : List Nat).length ∧
        getSeg s1.data (8 + 0) 2 = getSeg (le64 6 ++ [1, 2, 3, 4, 5, 6]) (8 + 3) 2 ∧
        getSeg s1.data (8 + 3) 2 = getSeg (le64 6 ++ [1, 2, 3, 4, 5, 6]) (8 + 0) 2 ∧
        ∀ j, ¬ (8 + 0 ≤ j ∧ j < 8 + 0 + 2) → ¬ (8 + 3 ≤ j ∧ j < 8 + 3 + 2) →
          s1.data.getD j 0 = (le64 6 ++ [1, 2, 3, 4, 5, 6] : List Nat).getD j 0) :=
  C5_swap_same_len_exact ⟨le64 6 ++ [1, 2, 3, 4, 5, 6], 6⟩ 0 3 2

/-! ## Claim C9 -/

/-- C9 counterexample: `set_len` on the read-only shared-slice backend
(`impl Backend for &[u8]`) silently succeeds with `Ok(())` instead of
returning `UnsupportedOperation`. -/
theorem C9_counterexample_set_len_ok :
    SliceRO.setLen ⟨[1, 2, 3]⟩ 7 = .ok () ∧
    SliceRO.setLen ⟨[1, 2, 3]⟩ 7 ≠ .err .unsupportedOperation := by decide

/-- C9 (amended): mutating calls on the read-only backends never return
`UnsupportedOperation`: on `&[u8]`, `set_len` is a silent no-op returning
`Ok`, a nonempty `push` fails `OutOfBounds` (or panics on an empty region),
and writes that reach `data_mut` panic; on `BaseSubBackend<&[u8]>`, `set_len`
panics outright and the other mutating calls error `OutOfBounds` or panic. -/
theorem C9_read_only_mutations (s : SliceRO) (t : SubRO) (n i start e v : Nat)
    (d : List Nat) (hd : d ≠ []) :
    SliceRO.setLen s n = .ok () ∧
    (SliceRO.push s d = .err .outOfBounds ∨ SliceRO.push s d = .pnc) ∧
    (SliceRO.replaceSameLen s i d = .err .outOfBounds ∨
      SliceRO.replaceSameLen s i d = .pnc) ∧
    SliceRO.fillRange s start e v ≠ .err .unsupportedOperation ∧
    SubRO.setLen t n = .pnc ∧
    (SubRO.push t d = .err .outOfBounds ∨ SubRO.push t d = .pnc) ∧
    (SubRO.replaceSameLen t i d = .err .outOfBounds ∨
      SubRO.replaceSameLen t i d = .pnc) := by
  rcases d with _ | ⟨x, d⟩
  · exact absurd rfl hd
  · refine ⟨rfl, ?_, ?_, ?_, rfl, ?_, ?_⟩
    · by_cases hc : s.data.length + (x :: d).length > s.data.length - 1 + 1
      · left; simp only [List.length_cons] at hc; simp [SliceRO.push]; omega
      · right; simp only [List.length_cons] at hc; simp [SliceRO.push]; omega
    · by_cases hc : i + (x :: d).length > s.data.length - 1 + 1
      · left; simp only [List.length_cons] at hc; simp [SliceRO.replaceSameLen]; omega
      · right; simp only [List.length_cons] at hc; simp [SliceRO.replaceSameLen]; omega
    · simp only [SliceRO.fillRange]
      split
      · intro hcon; cases hcon
      · split
        · intro hcon; cases hcon
        · intro hcon; cases hcon
    · by_cases hc : 8 + t.hdr + (x :: d).length > t.data.length - 1 + 1
      · left; simp only [List.length_cons] at hc; simp [SubRO.push]; omega
      · right; simp only [List.length_cons] at hc; simp [SubRO.push]; omega
    · by_cases hc : 8 + i + (x :: d).length > t.data.length - 1 + 1
      · left; simp only [List.length_cons] at hc; simp [SubRO.replaceSameLen]; omega
      · right; simp only [List.length_cons] at hc; simp [SubRO.replaceSameLen]; omega

/-- C9 witness: the amended statement at concrete read-only backends. -/
theorem C9_read_only_mutations_witness :
    SliceRO.setLen ⟨[1, 2, 3]⟩ 9 = .ok () ∧
    (SliceRO.push ⟨[1, 2, 3]⟩ [4] = .err .outOfBounds ∨
      SliceRO.push ⟨[1, 2, 3]⟩ [4] = .pnc) ∧
    (SliceRO.replaceSameLen ⟨[1, 2, 3]⟩ 0 [4] = .err .outOfBounds ∨
      SliceRO.replaceSameLen ⟨[1, 2, 3]⟩ 0 [4] = .pnc) ∧
    SliceRO.fillRange ⟨[1, 2, 3]⟩ 0 2 9 ≠ .err .unsupportedOperation ∧
    SubRO.setLen ⟨le64 1 ++ [5, 0], 1⟩ 0 = .pnc ∧
    (SubRO.push ⟨le64 1 ++ [5, 0], 1⟩ [4] = .err .outOfBounds ∨
      SubRO.push ⟨le64 1 ++ [5, 0], 1⟩ [4] = .pnc) ∧
    (SubRO.replaceSameLen ⟨le64 1 ++ [5, 0], 1⟩ 0 [4] = .err .outOfBounds ∨
      SubRO.replaceSameLen ⟨le64 1 ++ [5, 0], 1⟩ 0 [4] = .pnc) :=
  C9_read_only_mutations ⟨[1, 2, 3]⟩ ⟨le64 1 ++ [5, 0], 1⟩ 9 0 0 2 9 [4] (by decide)

/-! ## Claim C10 -/

/-- C10: `CustomHeaderFile::flush_range(start, len)` with `len < header_len`
passes the default bounds check but panics in `flush_range_impl` on the
unchecked subtraction `len - header_len` — it does not return an error. -/
theorem C10_flush_range_short_window_panics (s : ChfFlush) (start len : Nat)
    (h1 : len < s.headerLen) (h2 : start + len ≤ s.data.length) :
    ChfFlush.flushRange s start len = .pnc := by
  unfold ChfFlush.flushRange ChfFlush.flushRangeImpl
  rw [if_neg (by omega), if_pos h1]

/-- C10 witness: `flush_range(0, 2)` with `header_len = 9` on a 50-byte
region panics. -/
theorem C10_flush_range_short_window_panics_witness :
    ChfFlush.flushRange ⟨List.replicate 50 0, 9⟩ 0 2 = .pnc :=
  C10_flush_range_short_window_panics ⟨List.replicate 50 0, 9⟩ 0 2
    (by decide) (by decide)

/-! ## Claim C1 -/

/-- C1: the claim fails on the code (`u64` keys with identity hash, `u64`
values).  After `insert(0,1); insert(0,2); insert(1,10)` the key `1` is
present with value `10` (`v0`).  The later `insert(1, 20)` first triggers a
grow to capacity 5, whose rehash only re-maps KV ids `0..len = 0..2` — id 2
(the live pair of key 1) is dropped because id 1 is an orphaned duplicate of
key 0 — so the probe no longer finds key 1: the insert returns
`inserted = true` (claim: `false`), `len` becomes 3 (claim: unchanged), and
`get(1)` now returns `Some 20` (claim: `Some v0 = Some 10`). -/
theorem C1_duplicate_insert_updates_after_rehash :
    insertMany (mkMap 0) [(0, 1), (0, 2), (1, 10)] =
      .ok ⟨[1, 0, 3], [(0, 1), (0, 2), (1, 10)], 2, 3⟩ ∧
    FMapN.get ⟨[1, 0, 3], [(0, 1), (0, 2), (1, 10)], 2, 3⟩ 1 = .ok (some 10) ∧
    insertDebug ⟨[1, 0, 3], [(0, 1), (0, 2), (1, 10)], 2, 3⟩ 1 20 =
      .ok (⟨[4, 0, 0, 1, 0], [(0, 1), (0, 2), (1, 10), (1, 20)], 3, 5⟩,
        ⟨3, 0, true, 0⟩) ∧
    FMapN.get ⟨[4, 0, 0, 1, 0], [(0, 1), (0, 2), (1, 10), (1, 20)], 3, 5⟩ 1 =
      .ok (some 20) := by
  refine ⟨by decide, by decide, by decide, by decide⟩

/-! ## Claim C2 -/

/-- C2 counterexample: after inserting key 0 twice (the second insert is a
key-already-present insert), the map has `len = 1` but the KV indexed file
holds 2 entries — `raw_insert` appended the duplicate pair before the probe
found the existing key, so `len = kv_storage.count` fails exactly in the case
the claim singles out. -/
theorem C2_counterexample_duplicate_insert :
    insertMany (mkMap 0) [(0, 1), (0, 2)] =
      .ok ⟨[1, 0, 0], [(0, 1), (0, 2)], 1, 3⟩ ∧
    (([(0, 1), (0, 2)] : List (Nat × Nat)).length = 2 ∧ (1 : Nat) ≠ 2) := by
  refine ⟨by decide, by decide, by decide⟩


/-! ## Lemmas for the hash-map growth and probing (claims C2, C7) -/

theorem s2p_pos (n : Nat) : 1 ≤ smallest_two_power_for n := by
  unfold smallest_two_power_for
  by_cases hp : n ≠ 0 ∧ 2 ^ ilog2 n = n
  · rw [if_pos hp]
    omega
  · rw [if_neg hp]
    omega

theorem primeB_of_prime (p : Nat) (hp : Nat.Prime p) : primeB p = true := by
  have h2 := hp.two_le
  unfold primeB
  rw [Bool.and_eq_true]
  constructor
  · exact Nat.ble_eq.mpr h2
  · rw [List.all_eq_true]
    intro d hd
    rw [List.mem_range] at hd
    rw [Bool.or_eq_true]
    by_cases hd1 : d ≤ 1
    · exact Or.inl (Nat.ble_eq.mpr hd1)
    · refine Or.inr ?_
      rw [bne_iff_ne]
      intro hmod
      have hdvd : d ∣ p := Nat.dvd_of_mod_eq_zero hmod
      have := (Nat.prime_def_lt.mp hp).2 d hd hdvd
      omega

theorem findPrimeFrom_bounds (p : Nat) (hp : primeB p = true) :
    ∀ fuel c, c ≤ p → p < c + fuel →
      c ≤ findPrimeFrom fuel c ∧ findPrimeFrom fuel c ≤ p := by
  intro fuel
  induction fuel with
  | zero => intro c h1 h2; omega
  | succ f ih =>
    intro c h1 h2
    by_cases hc : primeB c = true
    · unfold findPrimeFrom
      rw [if_pos hc]
      omega
    · unfold findPrimeFrom
      rw [if_neg hc]
      have hcp : c ≠ p := fun h => hc (h ▸ hp)
      have := ih (c + 1) (by omega) (by omega)
      omega

theorem nextPrimeAfter_bounds (n : Nat) (hn : 1 ≤ n) :
    n < nextPrimeAfter n ∧ nextPrimeAfter n ≤ 2 * n := by
  obtain ⟨p, hp, hlt, hle⟩ := Nat.exists_prime_lt_and_le_two_mul n (by omega)
  have hb := findPrimeFrom_bounds p (primeB_of_prime p hp) (n + 2) (n + 1)
    (by omega) (by omega)
  unfold nextPrimeAfter
  omega

theorem NPOT_bounds (k : Nat) (hk : 1 ≤ k) :
    2 ^ k < NEXT_PRIMES_OF_TWO k ∧ NEXT_PRIMES_OF_TWO k ≤ 2 ^ (k + 1) := by
  unfold NEXT_PRIMES_OF_TWO
  rw [if_neg (by omega)]
  have h1 : 1 ≤ 2 ^ k := Nat.one_le_two_pow
  have := nextPrimeAfter_bounds (2 ^ k) h1
  have h2 : 2 ^ (k + 1) = 2 * 2 ^ k := by ring
  omega

theorem nextBiggerAux_gt (n : Nat) :
    ∀ fuel k, (∃ j, j < fuel ∧ n < NEXT_PRIMES_OF_TWO (k + j)) →
      n < nextBiggerAux n fuel k := by
  intro fuel
  induction fuel with
  | zero => rintro k ⟨j, hj, _⟩; omega
  | succ f ih =>
    rintro k ⟨j, hj, hlt⟩
    unfold nextBiggerAux
    by_cases hk : NEXT_PRIMES_OF_TWO k > n
    · rw [if_pos hk]
      exact hk
    · rw [if_neg hk]
      have hj0 : j ≠ 0 := by
        intro h
        subst h
        simp at hlt
        omega
      exact ih (k + 1) ⟨j - 1, by omega, by
        have : k + 1 + (j - 1) = k + j := by omega
        rw [this]
        exact hlt⟩

theorem nbt_gt (n : Nat) : n < next_bigger_than n := by
  apply nextBiggerAux_gt
  refine ⟨n + 1, by omega, ?_⟩
  rw [Nat.zero_add]
  have h1 := (NPOT_bounds (n + 1) (by omega)).1
  have h2 : n < 2 ^ (n + 1) := by
    calc n < 2 ^ n := Nat.lt_two_pow n
    _ ≤ 2 ^ (n + 1) := Nat.pow_le_pow_right (by omega) (by omega)
  omega

theorem filter_replicate_zero (n : Nat) :
    (List.replicate n 0).filter (fun x => x != 0) = [] := by
  induction n with
  | zero => rfl
  | succ k ih =>
    rw [List.replicate_succ, List.filter_cons]
    simp [ih]

theorem filter_set_perm (l : List Nat) (p v : Nat) (hp : p < l.length)
    (hz : l.getD p 0 = 0) (hv : v ≠ 0) :
    ((l.set p v).filter (fun x => x != 0)).Perm
      (v :: l.filter (fun x => x != 0)) := by
  have hdec : l = l.take p ++ 0 :: l.drop (p + 1) := by
    conv_lhs => rw [← List.take_append_drop p l]
    congr 1
    rw [List.drop_eq_getElem_cons hp]
    congr 1
    rw [← List.getD_eq_getElem l 0 hp, hz]
  have hset : l.set p v = l.take p ++ v :: l.drop (p + 1) :=
    List.set_eq_take_cons_drop v hp
  rw [hset]
  conv_rhs => rw [hdec]
  rw [List.filter_append, List.filter_append, List.filter_cons, List.filter_cons]
  have hv' : (v != 0) = true := bne_iff_ne.mpr hv
  rw [if_pos hv', if_neg (by decide)]
  exact List.perm_middle

theorem exists_empty_slot (t : List Nat) (n : Nat)
    (hperm : (t.filter (fun x => x != 0)).Perm
      ((List.range n).map (· + 1)))
    (hlt : n < t.length) :
    ∃ pos, pos < t.length ∧ t.getD pos 0 = 0 := by
  by_contra hcon
  push_neg at hcon
  have hall : ∀ a ∈ t, (a != 0) = true := by
    intro a ha
    obtain ⟨i, hi, hia⟩ := List.mem_iff_getElem.mp ha
    have h1 := hcon i hi
    rw [List.getD_eq_getElem t 0 hi, hia] at h1
    exact bne_iff_ne.mpr h1
  have hself := List.filter_eq_self.mpr hall
  have hlen := hperm.length_eq
  rw [hself] at hlen
  simp at hlen
  omega

theorem quadF_lt (h i m : Nat) (hm : 0 < m) : quadF h i m < m := by
  unfold quadF
  exact Nat.mod_lt _ hm

theorem doubleF_lt (h i m : Nat) (hm : 0 < m) : doubleF h i m < m := by
  unfold doubleF
  exact Nat.mod_lt _ hm

theorem doubleF_eq (h i m : Nat) (hm : 0 < m) (hc : 2 * m ≤ U64) (hi : i < m) :
    doubleF h i m = (quadF h 1 m + (h % m + i) % m) % m := by
  have hq : quadF h 1 m < m := quadF_lt h 1 m hm
  have h1 : h % m < m := Nat.mod_lt _ hm
  have hlin : linF h i m = (h % m + i) % m := by
    unfold linF
    rw [Nat.mod_eq_of_lt hi, Nat.mod_eq_of_lt (show h % m + i < U64 by omega)]
  show (quadF h 1 m + linF h i m) % U64 % m = _
  rw [hlin]
  have h2 : (h % m + i) % m < m := Nat.mod_lt _ hm
  rw [Nat.mod_eq_of_lt (show quadF h 1 m + (h % m + i) % m < U64 by omega)]

theorem add_mod_cancel_lt (a b m : Nat) (hm : 0 < m) (ha : a < m) (hb : b < m) :
    (a + (b + m - a) % m) % m = b := by
  have key : (a + (b + m - a) % m) % m = (a + (b + m - a)) % m := by
    conv_rhs => rw [Nat.add_mod]
    rw [Nat.mod_eq_of_lt ha]
  rw [key, show a + (b + m - a) = b + m by omega, Nat.add_mod_right,
    Nat.mod_eq_of_lt hb]

theorem probe_surj (h m p : Nat) (hm : 0 < m) (hc : 2 * m ≤ U64) (hp : p < m) :
    ∃ j, j < m ∧ doubleF h j m = p := by
  have hq : quadF h 1 m < m := quadF_lt h 1 m hm
  have hr : h % m < m := Nat.mod_lt _ hm
  have ht : (p + m - quadF h 1 m) % m < m := Nat.mod_lt _ hm
  refine ⟨((p + m - quadF h 1 m) % m + m - h % m) % m, Nat.mod_lt _ hm, ?_⟩
  rw [doubleF_eq h _ m hm hc (Nat.mod_lt _ hm)]
  rw [add_mod_cancel_lt (h % m) ((p + m - quadF h 1 m) % m) m hm hr ht]
  rw [add_mod_cancel_lt (quadF h 1 m) p m hm hq hp]


theorem mapKvPairGo_fresh (key kvId m : Nat) (kv : List (Nat × Nat))
    (table : List Nat) (hm : 0 < m) (hc : 2 * m ≤ U64)
    (hlen : table.length = m)
    (hvalid : ∀ e ∈ table, e ≠ 0 →
      e - 1 < kv.length ∧ (kv.getD (e - 1) (0, 0)).1 ≠ key) :
    ∀ fuel i,
      (∃ j, i ≤ j ∧ j < i + fuel ∧ table.getD (doubleF (hashU64 key) j m) 0 = 0) →
      ∃ p ins, p < m ∧ table.getD p 0 = 0 ∧ Insertion.inserted ins = true ∧
        Insertion.kvId ins = kvId ∧
        mapKvPairGo key kvId m kv table fuel i = .ok (table.set p (kvId + 1), ins) := by
  intro fuel
  induction fuel with
  | zero =>
    rintro i ⟨j, hj1, hj2, _⟩
    omega
  | succ f ih =>
    rintro i ⟨j, hj1, hj2, hj3⟩
    have hpos : doubleF (hashU64 key) i m < m := doubleF_lt _ _ _ hm
    by_cases hz : table.getD (doubleF (hashU64 key) i m) 0 = 0
    · refine ⟨doubleF (hashU64 key) i m,
        ⟨kvId, i, true, doubleF (hashU64 key) i m⟩, hpos, hz, rfl, rfl, ?_⟩
      have hres : resolveHash (doubleF (hashU64 key) i m) table = none := by
        unfold resolveHash
        rw [if_pos (show doubleF (hashU64 key) i m < table.length from hlen ▸ hpos)]
        rw [hz]
        simp
      have hset : setTableKvid (doubleF (hashU64 key) i m) kvId table =
          .ok (table.set (doubleF (hashU64 key) i m) (kvId + 1)) := by
        unfold setTableKvid
        rw [if_neg (by omega)]
      simp only [mapKvPairGo, hres, hset]
    · have hmem : table.getD (doubleF (hashU64 key) i m) 0 ∈ table := by
        rw [List.getD_eq_getElem table 0 (hlen ▸ hpos)]
        exact List.getElem_mem _
      obtain ⟨hlt, hne⟩ := hvalid _ hmem hz
      have hjne : j ≠ i := fun hh => hz (hh ▸ hj3)
      obtain ⟨p, ins, h1, h2, h3, h4, h5⟩ := ih (i + 1) ⟨j, by omega, by omega, hj3⟩
      refine ⟨p, ins, h1, h2, h3, h4, ?_⟩
      have hres : resolveHash (doubleF (hashU64 key) i m) table =
          some (table.getD (doubleF (hashU64 key) i m) 0 - 1) := by
        unfold resolveHash
        rw [if_pos (show doubleF (hashU64 key) i m < table.length from hlen ▸ hpos)]
        rw [if_pos (by omega)]
      have hget : kv.get? (table.getD (doubleF (hashU64 key) i m) 0 - 1) =
          some (kv.getD (table.getD (doubleF (hashU64 key) i m) 0 - 1) (0, 0)) := by
        rw [List.get?_eq_getElem?, List.getElem?_eq_getElem hlt,
          List.getD_eq_getElem kv (0, 0) hlt]
      simp only [mapKvPairGo, hres, hget]
      rw [if_neg hne]
      exact h5

theorem WF_valid (tb : List Nat) (kv : List (Nat × Nat)) (k : Nat)
    (hperm : (tb.filter (fun x => x != 0)).Perm
      ((List.range kv.length).map (· + 1)))
    (hk : k ∉ kv.map Prod.fst) :
    ∀ e ∈ tb, e ≠ 0 → e - 1 < kv.length ∧ (kv.getD (e - 1) (0, 0)).1 ≠ k := by
  intro e he hne
  have hmemf : e ∈ tb.filter (fun x => x != 0) :=
    List.mem_filter.mpr ⟨he, bne_iff_ne.mpr hne⟩
  rw [hperm.mem_iff] at hmemf
  obtain ⟨idx, hidx, hide⟩ := List.mem_map.mp hmemf
  rw [List.mem_range] at hidx
  have he1 : e - 1 = idx := by omega
  rw [he1]
  refine ⟨hidx, ?_⟩
  intro hcontra
  apply hk
  rw [← hcontra, List.getD_eq_getElem kv (0, 0) hidx]
  exact List.mem_map.mpr ⟨kv[idx], List.getElem_mem _, rfl⟩

theorem rawInsert_fresh (m : FMapN) (k v : Nat)
    (hm : 0 < m.capacity) (hc : 2 * m.capacity ≤ U64)
    (hlen : m.table.length = m.capacity)
    (hperm : (m.table.filter (fun x => x != 0)).Perm
      ((List.range m.kv.length).map (· + 1)))
    (hk : k ∉ m.kv.map Prod.fst)
    (hroom : m.kv.length < m.capacity) :
    ∃ p ins, p < m.capacity ∧ m.table.getD p 0 = 0 ∧
      Insertion.inserted ins = true ∧
      rawInsert m k v = .ok ({ m with
        kv := m.kv ++ [(k, v)],
        table := m.table.set p (m.kv.length + 1) }, ins) := by
  have hvalid : ∀ e ∈ m.table, e ≠ 0 →
      e - 1 < (m.kv ++ [(k, v)]).length ∧
      ((m.kv ++ [(k, v)]).getD (e - 1) (0, 0)).1 ≠ k := by
    intro e he hne
    obtain ⟨h1, h2⟩ := WF_valid m.table m.kv k hperm hk e he hne
    have hl : e - 1 < (m.kv ++ [(k, v)]).length := by
      rw [List.length_append]
      simp only [List.length_cons, List.length_nil]
      omega
    refine ⟨hl, ?_⟩
    rw [List.getD_eq_getElem _ (0, 0) hl, List.getElem_append_left h1,
      ← List.getD_eq_getElem m.kv (0, 0) h1]
    exact h2
  obtain ⟨pos, hpos, hz⟩ :=
    exists_empty_slot m.table m.kv.length hperm (hlen ▸ hroom)
  obtain ⟨j, hjm, hjp⟩ :=
    probe_surj (hashU64 k) m.capacity pos hm hc (hlen ▸ hpos)
  obtain ⟨p, ins, h1, h2, h3, _, h5⟩ :=
    mapKvPairGo_fresh k m.kv.length m.capacity (m.kv ++ [(k, v)]) m.table hm hc
      hlen hvalid m.capacity 0
      ⟨j, Nat.zero_le _, by omega, by rw [hjp]; exact hz⟩
  refine ⟨p, ins, h1, h2, h3, ?_⟩
  have hkv1 : (m.kv ++ [(k, v)]).length = m.kv.length + 1 := by simp
  simp only [rawInsert, mapKvPair, h5]


theorem rehashGo_fresh (cap : Nat) (kv : List (Nat × Nat)) (hm : 0 < cap)
    (hc : 2 * cap ≤ U64) (hnod : (kv.map Prod.fst).Nodup)
    (hroom : kv.length < cap) :
    ∀ fuel i table, table.length = cap →
      (table.filter (fun x => x != 0)).Perm ((List.range i).map (· + 1)) →
      i + fuel ≤ kv.length →
      ∃ t, rehashGo cap kv table fuel i = .ok t ∧ t.length = cap ∧
        (t.filter (fun x => x != 0)).Perm ((List.range (i + fuel)).map (· + 1)) := by
  intro fuel
  induction fuel with
  | zero =>
    intro i table h1 h2 h3
    exact ⟨table, rfl, h1, by simpa using h2⟩
  | succ f ih =>
    intro i table h1 h2 h3
    have hi : i < kv.length := by omega
    have hget : kv.get? i = some (kv.getD i (0, 0)) := by
      rw [List.get?_eq_getElem?, List.getElem?_eq_getElem hi,
        List.getD_eq_getElem kv (0, 0) hi]
    have hvalid : ∀ e ∈ table, e ≠ 0 →
        e - 1 < kv.length ∧ (kv.getD (e - 1) (0, 0)).1 ≠ (kv.getD i (0, 0)).1 := by
      intro e he hne
      have hmemf : e ∈ table.filter (fun x => x != 0) :=
        List.mem_filter.mpr ⟨he, bne_iff_ne.mpr hne⟩
      rw [h2.mem_iff] at hmemf
      obtain ⟨idx, hidx, hide⟩ := List.mem_map.mp hmemf
      rw [List.mem_range] at hidx
      have he1 : e - 1 = idx := by omega
      rw [he1]
      refine ⟨by omega, ?_⟩
      have hpw := List.pairwise_iff_getElem.mp hnod idx i
        (by rw [List.length_map]; omega) (by rw [List.length_map]; omega) hidx
      rw [List.getElem_map, List.getElem_map] at hpw
      rw [List.getD_eq_getElem kv (0, 0) (by omega),
        List.getD_eq_getElem kv (0, 0) hi]
      exact hpw
    obtain ⟨pos, hpos, hz⟩ :=
      exists_empty_slot table i (by simpa using h2) (by omega)
    obtain ⟨j, hjm, hjp⟩ :=
      probe_surj (hashU64 (kv.getD i (0, 0)).1) cap pos hm hc (h1 ▸ hpos)
    obtain ⟨p, ins, hp1, hp2, hp3, hp4, hp5⟩ :=
      mapKvPairGo_fresh (kv.getD i (0, 0)).1 i cap kv table hm hc h1 hvalid cap 0
        ⟨j, Nat.zero_le _, by omega, by rw [hjp]; exact hz⟩
    have hperm1 : ((table.set p (i + 1)).filter (fun x => x != 0)).Perm
        ((List.range (i + 1)).map (· + 1)) := by
      refine (filter_set_perm table p (i + 1) (h1 ▸ hp1) hp2 (by omega)).trans ?_
      have hr : ((List.range (i + 1)).map (· + 1)) =
          (List.range i).map (· + 1) ++ [i + 1] := by
        rw [List.range_succ, List.map_append]
        rfl
      rw [hr]
      exact (h2.cons (i + 1)).trans (List.perm_append_singleton _ _).symm
    obtain ⟨t, ht1, ht2, ht3⟩ := ih (i + 1) (table.set p (i + 1))
      (by rw [List.length_set]; exact h1) hperm1 (by omega)
    refine ⟨t, ?_, ht2, ?_⟩
    · simp only [rehashGo, hget, mapKvPair, hp5]
      exact ht1
    · have he : i + 1 + f = i + (f + 1) := by omega
      rw [← he]
      exact ht3


theorem rehash_ok_of (tb : List Nat) (kvl : List (Nat × Nat)) (ln cp : Nat)
    (t : List Nat) (h : rehashGo cp kvl tb ln 0 = .ok t) :
    FMapN.rehash ⟨tb, kvl, ln, cp⟩ = .ok ⟨t, kvl, ln, cp⟩ := by
  show (match rehashGo cp kvl tb ln 0 with
    | .ok t => RRes.ok ({ table := t, kv := kvl, len := ln, capacity := cp } : FMapN)
    | .err e => .err e
    | .pnc => .pnc) = .ok ⟨t, kvl, ln, cp⟩
  rw [h]

theorem grow_fresh (m : FMapN)
    (hK : m.kv.length = m.len) (hN : (m.kv.map Prod.fst).Nodup)
    (hng : 3 * m.capacity ≤ 4 * (m.len + 1)) (hlenB : m.len < 2 ^ 20) :
    ∃ t rs,
      rs = NEXT_PRIMES_OF_TWO (smallest_two_power_for ((4 * (m.len + 1) + 2) / 3)) ∧
      FMapN.grow m = .ok (⟨t, m.kv, m.len, rs⟩, rs) ∧
      t.length = rs ∧
      (t.filter (fun x => x != 0)).Perm ((List.range m.kv.length).map (· + 1)) ∧
      4 * (m.len + 1) < 3 * rs ∧ m.capacity < rs ∧ rs ≤ 2 ^ 62 := by
  have hnc1 : 1 ≤ (4 * (m.len + 1) + 2) / 3 := by omega
  have hpow1 : 1 ≤ smallest_two_power_for ((4 * (m.len + 1) + 2) / 3) :=
    s2p_pos _
  have hb := NPOT_bounds _ hpow1
  have hge := s2p_ge _ hnc1
  have hle := s2p_le _ hnc1
  have hpow2 : 2 ^ (smallest_two_power_for ((4 * (m.len + 1) + 2) / 3) + 1) =
      2 * 2 ^ smallest_two_power_for ((4 * (m.len + 1) + 2) / 3) := by
    ring
  have hload : 4 * (m.len + 1) <
      3 * NEXT_PRIMES_OF_TWO (smallest_two_power_for ((4 * (m.len + 1) + 2) / 3)) := by
    omega
  have hcapg : m.capacity <
      NEXT_PRIMES_OF_TWO (smallest_two_power_for ((4 * (m.len + 1) + 2) / 3)) := by
    omega
  have hrsB : NEXT_PRIMES_OF_TWO (smallest_two_power_for ((4 * (m.len + 1) + 2) / 3)) ≤
      2 ^ 62 := by
    omega
  have hU : U64 = 2 ^ 64 := rfl
  obtain ⟨t, ht1, ht2, ht3⟩ := rehashGo_fresh
    (NEXT_PRIMES_OF_TWO (smallest_two_power_for ((4 * (m.len + 1) + 2) / 3)))
    m.kv (by omega) (by omega) hN (by omega) m.len 0
    (List.replicate (NEXT_PRIMES_OF_TWO
      (smallest_two_power_for ((4 * (m.len + 1) + 2) / 3))) 0)
    (by simp) (by rw [filter_replicate_zero]; simp) (by omega)
  refine ⟨t, _, rfl, ?_, ht2, ?_, hload, hcapg, hrsB⟩
  · show FMapN.grow m = _
    simp only [FMapN.grow, FMapN.growTo]
    rw [if_neg (by omega)]
    have hinc : increaseCapacity m
        (NEXT_PRIMES_OF_TWO (smallest_two_power_for ((4 * (m.len + 1) + 2) / 3))) =
        ⟨List.replicate (NEXT_PRIMES_OF_TWO
          (smallest_two_power_for ((4 * (m.len + 1) + 2) / 3))) 0,
         m.kv, m.len,
         NEXT_PRIMES_OF_TWO (smallest_two_power_for ((4 * (m.len + 1) + 2) / 3))⟩ := by
      unfold increaseCapacity
      rw [if_neg (by omega)]
    rw [hinc, rehash_ok_of _ _ _ _ t ht1]
  · rw [hK]
    simpa using ht3

theorem insertDebug_fresh (m : FMapN) (k v : Nat) (hwf : WFm m)
    (hcapB : m.capacity ≤ 2 ^ 62) (hlenB : m.len < 2 ^ 20)
    (hk : k ∉ m.kv.map Prod.fst) :
    ∃ m1 ins, insertDebug m k v = .ok (m1, ins) ∧ WFm m1 ∧
      m1.kv = m.kv ++ [(k, v)] ∧ m1.len = m.len + 1 ∧
      m1.capacity = capNext m ∧ m1.capacity ≤ 2 ^ 62 := by
  obtain ⟨hT, hK, hN, hP, hL⟩ := hwf
  have hm : 0 < m.capacity := by omega
  have hU : U64 = 2 ^ 64 := rfl
  have hnodup1 : ((m.kv ++ [(k, v)]).map Prod.fst).Nodup := by
    rw [List.map_append, List.nodup_append]
    refine ⟨hN, by simp, ?_⟩
    intro a ha hb
    simp only [List.map_cons, List.map_nil, List.mem_singleton] at hb
    subst hb
    exact hk ha
  by_cases hng : needGrow m = true
  · have hng' : 3 * m.capacity ≤ 4 * (m.len + 1) := by
      unfold needGrow needGrowFor at hng
      rw [if_neg (by omega)] at hng
      exact Nat.ble_eq.mp hng
    obtain ⟨t, rs, hrs, hg, ht2, ht3, hload, hcapg, hrsB⟩ :=
      grow_fresh m hK hN hng' hlenB
    obtain ⟨p, ins, hp1, hp2, hp3, hp4⟩ :=
      rawInsert_fresh ⟨t, m.kv, m.len, rs⟩ k v (show 0 < rs by omega)
        (show 2 * rs ≤ U64 by omega) ht2 ht3 hk (show m.kv.length < rs by omega)
    refine ⟨⟨t.set p (m.kv.length + 1), m.kv ++ [(k, v)], m.len + 1, rs⟩, ins,
      ?_, ?_, rfl, rfl, ?_, hrsB⟩
    · simp only [insertDebug, hng, if_pos, hg, RRes.monad_bind_eq, RRes.bind_ok,
        hp4, hp3, if_true]
    · refine ⟨?_, ?_, hnodup1, ?_, hload⟩
      · show (t.set p (m.kv.length + 1)).length = rs
        rw [List.length_set]
        exact ht2
      · show (m.kv ++ [(k, v)]).length = m.len + 1
        rw [List.length_append, hK]
        rfl
      · show ((t.set p (m.kv.length + 1)).filter (fun x => x != 0)).Perm
          ((List.range (m.len + 1)).map (· + 1))
        refine (filter_set_perm t p (m.kv.length + 1)
          (by rw [ht2]; exact hp1) hp2 (by omega)).trans ?_
        have hr : ((List.range (m.len + 1)).map (· + 1)) =
            (List.range m.len).map (· + 1) ++ [m.len + 1] := by
          rw [List.range_succ, List.map_append]
          rfl
        rw [hr, hK]
        have ht3' : (t.filter (fun x => x != 0)).Perm
            ((List.range m.len).map (· + 1)) := by
          rw [← hK]
          exact ht3
        exact (ht3'.cons (m.len + 1)).trans (List.perm_append_singleton _ _).symm
    · show rs = capNext m
      unfold capNext
      rw [if_pos hng, hrs]
  · have hng' : 4 * (m.len + 1) < 3 * m.capacity := by
      unfold needGrow needGrowFor at hng
      rw [if_neg (by omega)] at hng
      have h2 : ¬3 * m.capacity ≤ 4 * (m.len + 1) := fun hle => hng (Nat.ble_eq.mpr hle)
      omega
    obtain ⟨p, ins, hp1, hp2, hp3, hp4⟩ :=
      rawInsert_fresh m k v hm (by omega) hT (by rw [hK]; exact hP) hk (by omega)
    refine ⟨⟨m.table.set p (m.kv.length + 1), m.kv ++ [(k, v)], m.len + 1,
      m.capacity⟩, ins, ?_, ?_, rfl, rfl, ?_, hcapB⟩
    · simp only [insertDebug, hng, if_neg, RRes.monad_bind_eq, RRes.bind_ok,
        hp4, hp3, if_true]
      rfl
    · refine ⟨?_, ?_, hnodup1, ?_, hng'⟩
      · show (m.table.set p (m.kv.length + 1)).length = m.capacity
        rw [List.length_set]
        exact hT
      · show (m.kv ++ [(k, v)]).length = m.len + 1
        rw [List.length_append, hK]
        rfl
      · show ((m.table.set p (m.kv.length + 1)).filter (fun x => x != 0)).Perm
          ((List.range (m.len + 1)).map (· + 1))
        refine (filter_set_perm m.table p (m.kv.length + 1)
          (by rw [hT]; exact hp1) hp2 (by omega)).trans ?_
        have hr : ((List.range (m.len + 1)).map (· + 1)) =
            (List.range m.len).map (· + 1) ++ [m.len + 1] := by
          rw [List.range_succ, List.map_append]
          rfl
        rw [hr, hK]
        exact (hP.cons (m.len + 1)).trans (List.perm_append_singleton _ _).symm
    · show m.capacity = capNext m
      unfold capNext
      rw [if_neg hng]


theorem insertMany_fresh :
    ∀ (ps : List (Nat × Nat)) (m : FMapN), WFm m → m.capacity ≤ 2 ^ 62 →
      m.len + ps.length ≤ 2 ^ 20 → (ps.map Prod.fst).Nodup →
      (∀ q ∈ ps, q.1 ∉ m.kv.map Prod.fst) →
      ∃ m2, insertMany m ps = .ok m2 ∧ WFm m2 ∧ m2.capacity ≤ 2 ^ 62 ∧
        m2.kv = m.kv ++ ps ∧ m2.len = m.len + ps.length := by
  intro ps
  induction ps with
  | nil =>
    intro m h1 h2 h3 h4 h5
    exact ⟨m, rfl, h1, h2, by simp, by simp⟩
  | cons q ps ih =>
    intro m h1 h2 h3 h4 h5
    obtain ⟨m1, ins, hi1, hi2, hi3, hi4, hi5, hi6⟩ :=
      insertDebug_fresh m q.1 q.2 h1 h2
        (by simp only [List.length_cons] at h3; omega)
        (h5 q (List.mem_cons_self q ps))
    have hnod : (ps.map Prod.fst).Nodup := by
      rw [List.map_cons] at h4
      exact h4.of_cons
    have hfresh : ∀ r ∈ ps, r.1 ∉ m1.kv.map Prod.fst := by
      intro r hr
      rw [hi3, List.map_append, List.mem_append]
      rintro (hin | hin)
      · exact h5 r (List.mem_cons_of_mem q hr) hin
      · simp only [List.map_cons, List.map_nil, List.mem_singleton] at hin
        rw [List.map_cons] at h4
        have hq : q.1 ∈ ps.map Prod.fst := List.mem_map.mpr ⟨r, hr, hin⟩
        exact (List.nodup_cons.mp h4).1 hq
    obtain ⟨m2, hm1, hm2, hm3, hm4, hm5⟩ := ih m1 hi2 hi6
      (by rw [hi4]; simp only [List.length_cons] at h3; omega) hnod hfresh
    refine ⟨m2, ?_, hm2, hm3, ?_, ?_⟩
    · have hq : q = (q.1, q.2) := rfl
      rw [hq] at *
      simp only [insertMany, hi1]
      exact hm1
    · rw [hm4, hi3, List.append_assoc]
      rfl
    · rw [hm5, hi4, List.length_cons]
      omega

/-- C2 (corrected): for a map built by inserting pairwise-distinct keys
(at most `2^20` of them, identity-hashed `u64` keys, created with a
requested capacity whose prime-table result is at most `2^62`), the cached
`len` equals the number of nonzero slots of the table, equals the number of
entries in the KV storage, and stays strictly below `3/4` of the capacity.
The original claim's unrestricted form — in particular its duplicate-key
case — is refuted by `C2_counterexample_duplicate_insert`. -/
theorem C2_len_invariants_distinct_keys (c : Nat) (ps : List (Nat × Nat))
    (hc : next_bigger_than c ≤ 2 ^ 62) (hn : ps.length ≤ 2 ^ 20)
    (hd : (ps.map Prod.fst).Nodup) :
    ∃ m, insertMany (mkMap c) ps = .ok m ∧
      m.len = nonzeroSlots m ∧ m.len = m.kv.length ∧
      4 * m.len < 3 * m.capacity := by
  have hcap0 : 0 < next_bigger_than c := by
    have := nbt_gt c
    omega
  have hwf0 : WFm (mkMap c) := by
    refine ⟨by simp [mkMap], rfl, by simp [mkMap], ?_, by simp [mkMap]; omega⟩
    show ((List.replicate (next_bigger_than c) 0).filter (fun x => x != 0)).Perm
      ((List.range 0).map (· + 1))
    rw [filter_replicate_zero]
    simp
  obtain ⟨m, h1, hwf, _, _, _⟩ := insertMany_fresh ps (mkMap c) hwf0 hc
    (by show 0 + ps.length ≤ 2 ^ 20; omega) hd (by simp [mkMap])
  obtain ⟨hT, hK, hN, hP, hL⟩ := hwf
  refine ⟨m, h1, ?_, hK.symm, hL⟩
  show m.len = nonzeroSlots m
  unfold nonzeroSlots
  rw [hP.length_eq, List.length_map, List.length_range]

/-- C2 witness: the corrected statement at a concrete run of two
distinct-key inserts into a freshly created map. -/
theorem C2_len_invariants_distinct_keys_witness :
    (next_bigger_than 0 ≤ 2 ^ 62 ∧
      ([((3 : Nat), (7 : Nat)), (4, 9)].length ≤ 2 ^ 20) ∧
      (([((3 : Nat), (7 : Nat)), (4, 9)].map Prod.fst).Nodup)) ∧
    (∃ m, insertMany (mkMap 0) [(3, 7), (4, 9)] = .ok m ∧
      m.len = nonzeroSlots m ∧ m.len = m.kv.length ∧
      4 * m.len < 3 * m.capacity) :=
  ⟨⟨by decide, by decide, by decide⟩,
    C2_len_invariants_distinct_keys 0 [(3, 7), (4, 9)] (by decide) (by decide)
      (by decide)⟩


theorem rawInsert_ok_fields (m : FMapN) (k v : Nat) (m2 : FMapN) (ins : Insertion)
    (h : rawInsert m k v = .ok (m2, ins)) :
    m2.capacity = m.capacity ∧ m2.len = m.len := by
  simp only [rawInsert] at h
  split at h
  · simp only [RRes.ok.injEq, Prod.mk.injEq] at h
    obtain ⟨h1, _⟩ := h
    rw [← h1]
    exact ⟨rfl, rfl⟩
  · simp at h
  · simp at h

theorem rehash_ok_fields (m m2 : FMapN) (h : FMapN.rehash m = .ok m2) :
    m2.capacity = m.capacity ∧ m2.len = m.len ∧ m2.kv = m.kv := by
  simp only [FMapN.rehash] at h
  split at h
  · simp only [RRes.ok.injEq] at h
    rw [← h]
    exact ⟨rfl, rfl, rfl⟩
  · simp at h
  · simp at h

theorem grow_ok_capacity (m mg : FMapN) (x : Nat) (hng : needGrow m = true)
    (h : FMapN.grow m = .ok (mg, x)) : m.capacity < mg.capacity := by
  have hng' : 3 * m.capacity ≤ 4 * (m.len + 1) ∧ m.capacity ≠ 0 := by
    unfold needGrow needGrowFor at hng
    by_cases hc0 : m.capacity = 0
    · rw [if_pos hc0] at hng
      simp at hng
    · rw [if_neg hc0] at hng
      exact ⟨Nat.ble_eq.mp hng, hc0⟩
  have hnc1 : 1 ≤ (4 * (m.len + 1) + 2) / 3 := by omega
  have hpow1 := s2p_pos ((4 * (m.len + 1) + 2) / 3)
  have hb := NPOT_bounds _ hpow1
  have hge := s2p_ge _ hnc1
  have hrs_cap : m.capacity <
      NEXT_PRIMES_OF_TWO (smallest_two_power_for ((4 * (m.len + 1) + 2) / 3)) := by
    omega
  simp only [FMapN.grow, FMapN.growTo] at h
  rw [if_neg (by omega)] at h
  split at h
  · rename_i m2 heq
    obtain ⟨hcap2, _, _⟩ := rehash_ok_fields _ _ heq
    have hic : (increaseCapacity m
        (NEXT_PRIMES_OF_TWO (smallest_two_power_for
          ((4 * (m.len + 1) + 2) / 3)))).capacity =
        NEXT_PRIMES_OF_TWO (smallest_two_power_for ((4 * (m.len + 1) + 2) / 3)) := by
      unfold increaseCapacity
      rw [if_neg (by omega)]
    simp only [RRes.ok.injEq, Prod.mk.injEq] at h
    obtain ⟨h1, _⟩ := h
    rw [← h1, hcap2, hic]
    exact hrs_cap
  · simp at h
  · simp at h

theorem insertDebug_capacity (m : FMapN) (k v : Nat) (m1 : FMapN)
    (ins : Insertion) (hm : 0 < m.capacity)
    (h : insertDebug m k v = .ok (m1, ins)) :
    m.capacity < m1.capacity ↔ 3 * m.capacity ≤ 4 * (m.len + 1) := by
  simp only [insertDebug, RRes.monad_bind_eq] at h
  by_cases hng : needGrow m = true
  · rw [if_pos hng] at h
    have hng3 : 3 * m.capacity ≤ 4 * (m.len + 1) := by
      unfold needGrow needGrowFor at hng
      rw [if_neg (by omega)] at hng
      exact Nat.ble_eq.mp hng
    refine ⟨fun _ => hng3, fun _ => ?_⟩
    cases hgr : FMapN.grow m with
    | ok pr =>
      obtain ⟨mg, x⟩ := pr
      rw [hgr] at h
      simp only [RRes.bind_ok] at h
      cases hri : rawInsert mg k v with
      | ok pr2 =>
        obtain ⟨m2, ins2⟩ := pr2
        rw [hri] at h
        simp only [RRes.bind_ok, RRes.ok.injEq, Prod.mk.injEq] at h
        obtain ⟨h1, _⟩ := h
        have hcap1 : m1.capacity = m2.capacity := by
          rw [← h1]
          by_cases hi : Insertion.inserted ins2 = true
          · rw [if_pos hi]
          · rw [if_neg hi]
        have hcap2 := (rawInsert_ok_fields mg k v m2 ins2 hri).1
        have := grow_ok_capacity m mg x hng hgr
        omega
      | err e =>
        rw [hri] at h
        simp at h
      | pnc =>
        rw [hri] at h
        simp at h
    | err e =>
      rw [hgr] at h
      simp at h
    | pnc =>
      rw [hgr] at h
      simp at h
  · rw [if_neg hng] at h
    have hng3 : ¬3 * m.capacity ≤ 4 * (m.len + 1) := by
      unfold needGrow needGrowFor at hng
      rw [if_neg (by omega)] at hng
      exact fun hle => hng (Nat.ble_eq.mpr hle)
    simp only [RRes.bind_ok] at h
    cases hri : rawInsert m k v with
    | ok pr2 =>
      obtain ⟨m2, ins2⟩ := pr2
      rw [hri] at h
      simp only [RRes.bind_ok, RRes.ok.injEq, Prod.mk.injEq] at h
      obtain ⟨h1, _⟩ := h
      have hcap1 : m1.capacity = m2.capacity := by
        rw [← h1]
        by_cases hi : Insertion.inserted ins2 = true
        · rw [if_pos hi]
        · rw [if_neg hi]
      have hcap2 := (rawInsert_ok_fields m k v m2 ins2 hri).1
      constructor
      · intro hlt
        omega
      · exact fun hle => absurd hle hng3
    | err e =>
      rw [hri] at h
      simp at h
    | pnc =>
      rw [hri] at h
      simp at h

theorem capNext_eval (m : FMapN) (n c : Nat) (h1 : m.len = n) (h2 : m.capacity = c) :
    capNext m = capNext ⟨[], [], n, c⟩ := by
  unfold capNext needGrow needGrowFor
  rw [h1, h2]


/-! ## Claim C7 -/

/-- C7: on the empty map of capacity 1 (`with_capacity(0)`, whose prime-table
capacity is 1), four inserts of pairwise-distinct (identity-hashed `u64`)
keys produce the capacity trace `1, 3, 3, 5, 11`; and in general a successful
insert changes (grows) the capacity exactly when adding one element would
reach the load-factor threshold, `len + 1 ≥ 0.75 · capacity`, written exactly
as `3 · capacity ≤ 4 · (len + 1)`. -/
theorem C7_capacity_schedule (k0 k1 k2 k3 v0 v1 v2 v3 : Nat)
    (h01 : k0 ≠ k1) (h02 : k0 ≠ k2) (h03 : k0 ≠ k3)
    (h12 : k1 ≠ k2) (h13 : k1 ≠ k3) (h23 : k2 ≠ k3) :
    capTrace (mkMap 0) [(k0, v0), (k1, v1), (k2, v2), (k3, v3)] =
      [1, 3, 3, 5, 11] ∧
    (∀ (m m1 : FMapN) (k v : Nat) (ins : Insertion), 0 < m.capacity →
      insertDebug m k v = .ok (m1, ins) →
      (m.capacity < m1.capacity ↔ 3 * m.capacity ≤ 4 * (m.len + 1))) := by
  constructor
  · have hwf0 : WFm (mkMap 0) := by
      unfold WFm
      decide
    obtain ⟨m1, ins1, e1, wf1, kv1, ln1, cp1, _⟩ :=
      insertDebug_fresh (mkMap 0) k0 v0 hwf0 (by decide) (by decide)
        (by simp [mkMap])
    have hln1 : m1.len = 1 := by rw [ln1]; rfl
    have hcp1 : m1.capacity = 3 := by
      rw [cp1, capNext_eval (mkMap 0) 0 1 rfl rfl]
      decide
    have hkv1 : m1.kv = [(k0, v0)] := by rw [kv1]; rfl
    obtain ⟨m2, ins2, e2, wf2, kv2, ln2, cp2, _⟩ :=
      insertDebug_fresh m1 k1 v1 wf1 (by omega) (by omega)
        (by simp [hkv1]; omega)
    have hln2 : m2.len = 2 := by omega
    have hcp2 : m2.capacity = 3 := by
      rw [cp2, capNext_eval m1 1 3 hln1 hcp1]
      decide
    have hkv2 : m2.kv = [(k0, v0), (k1, v1)] := by rw [kv2, hkv1]; rfl
    obtain ⟨m3, ins3, e3, wf3, kv3, ln3, cp3, _⟩ :=
      insertDebug_fresh m2 k2 v2 wf2 (by omega) (by omega)
        (by simp [hkv2]; omega)
    have hln3 : m3.len = 3 := by omega
    have hcp3 : m3.capacity = 5 := by
      rw [cp3, capNext_eval m2 2 3 hln2 hcp2]
      decide
    have hkv3 : m3.kv = [(k0, v0), (k1, v1), (k2, v2)] := by rw [kv3, hkv2]; rfl
    obtain ⟨m4, ins4, e4, wf4, kv4, ln4, cp4, _⟩ :=
      insertDebug_fresh m3 k3 v3 wf3 (by omega) (by omega)
        (by simp [hkv3]; omega)
    have hcp4 : m4.capacity = 11 := by
      rw [cp4, capNext_eval m3 3 5 hln3 hcp3]
      decide
    simp only [capTrace, e1, e2, e3, e4]
    rw [hcp1, hcp2, hcp3, hcp4]
    rfl
  · intro m m1 k v ins hm h
    exact insertDebug_capacity m k v m1 ins hm h

/-- C7 witness: the schedule at the concrete distinct keys `0, 1, 2, 3`. -/
theorem C7_capacity_schedule_witness :
    ((0 : Nat) ≠ 1 ∧ (0 : Nat) ≠ 2 ∧ (0 : Nat) ≠ 3 ∧ (1 : Nat) ≠ 2 ∧
      (1 : Nat) ≠ 3 ∧ (2 : Nat) ≠ 3) ∧
    (capTrace (mkMap 0) [(0, 10), (1, 11), (2, 12), (3, 13)] =
      [1, 3, 3, 5, 11] ∧
    (∀ (m m1 : FMapN) (k v : Nat) (ins : Insertion), 0 < m.capacity →
      insertDebug m k v = .ok (m1, ins) →
      (m.capacity < m1.capacity ↔ 3 * m.capacity ≤ 4 * (m.len + 1)))) :=
  ⟨⟨by decide, by decide, by decide, by decide, by decide, by decide⟩,
    C7_capacity_schedule 0 1 2 3 10 11 12 13 (by decide) (by decide) (by decide)
      (by decide) (by decide) (by decide)⟩


/-! ## Lemmas for the split file (claim C8) -/

theorem fillSeg_self (l : List Nat) (a v : Nat) : fillSeg l a a v = l := by
  unfold fillSeg writeSeg
  rw [Nat.sub_self]
  simp

theorem append_replicate_getD (l : List Nat) (n j : Nat) :
    (l ++ List.replicate n 0).getD j 0 = if j < l.length then l.getD j 0 else 0 := by
  rw [List.getD_eq_getElem?_getD, List.getElem?_append]
  rcases Nat.lt_or_ge j l.length with hj | hj
  · rw [if_pos hj, if_pos hj, List.getD_eq_getElem?_getD]
  · rw [if_neg (by omega), if_neg (by omega), List.getElem?_replicate]
    by_cases hjn : j - l.length < n
    · rw [if_pos hjn]
      rfl
    · rw [if_neg hjn]
      rfl

theorem SplitSt_replaceFill_insert (D : List Nat) (h c p a1 a2 n : Nat)
    (hn : 1 ≤ n) (hh : 4 ≤ h) (hpc : p + 8 ≤ c) (hp8 : 8 ≤ p)
    (hb : 8 + h + c + n ≤ D.length) :
    Be.replaceFill (⟨D, h, c, p, a1, a2⟩ : SplitSt) p 0 0 n =
      .ok (⟨writeSeg (fillSeg (copyWithin D (8 + h + p) (8 + h + c)
          (8 + h + p + n)) (8 + h + p) (8 + h + p + n) 0) 0
          (le64 (c + n + h)), h, c + n, p, a1, a2⟩, n) := by
  have hcl : (copyWithin D (8 + h + p) (8 + h + c) (8 + h + p + n)).length =
      D.length :=
    copyWithin_length _ _ _ _ (by omega) (by omega) (by omega)
  have hfl : (fillSeg (copyWithin D (8 + h + p) (8 + h + c) (8 + h + p + n))
      (8 + h + p) (8 + h + p + n) 0).length = D.length := by
    rw [fillSeg_length _ _ _ _ (by omega) (by rw [hcl]; omega)]
    exact hcl
  have hck : Be.checkLenOob (⟨D, h, c, p, a1, a2⟩ : SplitSt)
      (Be.getIndex (⟨D, h, c, p, a1, a2⟩ : SplitSt) p) = .ok () := by
    simp only [Be.checkLenOob, Be.lastIndex, Be.getIndex, SplitSt_fi, SplitSt_len]
    rw [if_neg (by omega)]
  have hmv : Be.replaceMove (⟨D, h, c, p, a1, a2⟩ : SplitSt)
      (Be.getIndex (⟨D, h, c, p, a1, a2⟩ : SplitSt) p) 0 n =
      .ok (⟨copyWithin D (8 + h + p) (8 + h + c) (8 + h + p + n),
        h, c, p, a1, a2⟩ : SplitSt) := by
    simp only [Be.replaceMove, Be.endIndex, Be.lastIndex, Be.getIndex,
      SplitSt_fi, SplitSt_len, SplitSt_rd, SplitSt_wr, RRes.monad_bind_eq,
      Nat.add_zero]
    rw [if_pos (by omega)]
    rw [if_pos ⟨by omega, by omega, by omega⟩]
  have hcc : Be.checkCapacityOob
      (⟨copyWithin D (8 + h + p) (8 + h + c) (8 + h + p + n),
        h, c, p, a1, a2⟩ : SplitSt)
      (Be.getIndex (⟨D, h, c, p, a1, a2⟩ : SplitSt) p + n) = .ok () := by
    simp only [Be.checkCapacityOob, Be.endIndex, Be.getIndex, SplitSt_fi,
      SplitSt_rd]
    rw [if_neg (by rw [hcl]; omega)]
  have hadj : Be.replaceAdjustLen
      (⟨fillSeg (copyWithin D (8 + h + p) (8 + h + c) (8 + h + p + n))
        (8 + h + p) (8 + h + p + n) 0, h, c, p, a1, a2⟩ : SplitSt) 0 n =
      .ok ((⟨writeSeg (fillSeg (copyWithin D (8 + h + p) (8 + h + c)
          (8 + h + p + n)) (8 + h + p) (8 + h + p + n) 0) 0
          (le64 (c + n + h)), h, c + n, p, a1, a2⟩ : SplitSt), n) := by
    simp only [Be.replaceAdjustLen, SplitSt_len, RRes.monad_bind_eq,
      Nat.zero_min, Nat.zero_max, Nat.sub_zero]
    rw [if_neg (by omega)]
    rw [SplitSt_setLen]
    simp only [SplitSt.chfSetLen]
    rw [if_pos (by rw [hfl]; omega)]
    rfl
  simp only [Be.replaceFill, RRes.monad_bind_eq]
  rw [if_neg (by omega), hck]
  simp only [RRes.bind_ok]
  rw [hmv]
  simp only [RRes.bind_ok]
  rw [if_pos (by omega : (0 : Nat) < n), hcc]
  simp only [RRes.bind_ok, SplitSt_rd, SplitSt_wr]
  rw [if_pos (by simp only [Be.getIndex, SplitSt_fi]; rw [hcl]; omega)]
  exact hadj


/-! ## Claim C8 -/

/-- C8: growing the first side of a well-formed split file by `n` appends `n`
bytes to the root, shifts the second side's whole region right by `n`
(inserting `n` zero bytes at physical offset `split_pos` inside the
custom-header file, i.e. at root offset `8 + hlen + split_pos`), advances the
stored `split_pos` by `n` and the parent length by `n`; the first `split_pos`
bytes of the first side and the whole second side region are bytewise
unchanged, both cached side lengths are unchanged, the first side's capacity
grows by exactly `n` and the second side's capacity is unchanged. -/
theorem C8_grow_first_inserts_zeros (s : SplitSt) (n : Nat) (hwf : WFSplit s) :
    ∃ s1, SplitSt.growSF s .first n = .ok s1 ∧
      s1.hlen = s.hlen ∧ s1.split = s.split + n ∧ s1.clen = s.clen + n ∧
      s1.h1 = s.h1 ∧ s1.h2 = s.h2 ∧
      s1.data.length = s.data.length + n ∧
      getSeg s1.data (8 + s.hlen) s.split = getSeg s.data (8 + s.hlen) s.split ∧
      getSeg s1.data (8 + s.hlen + s.split) n = List.replicate n 0 ∧
      getSeg s1.data (8 + s.hlen + s.split + n) (s.clen - s.split) =
        getSeg s.data (8 + s.hlen + s.split) (s.clen - s.split) ∧
      SplitSt.rangeEnd s1 .first - SplitSt.rangeStart s1 .first =
        (SplitSt.rangeEnd s .first - SplitSt.rangeStart s .first) + n ∧
      SplitSt.rangeEnd s1 .second - SplitSt.rangeStart s1 .second =
        SplitSt.rangeEnd s .second - SplitSt.rangeStart s .second ∧
      WFSplit s1 := by
  obtain ⟨D, h, c, p, a1, a2⟩ := s
  obtain ⟨hh4, hp8, hpc, hbL, hh1, hh2⟩ := hwf
  dsimp only at hh4 hp8 hpc hbL hh1 hh2 ⊢
  by_cases hn0 : n = 0
  · subst hn0
    refine ⟨⟨D, h, c, p, a1, a2⟩, ?_, rfl, rfl, rfl, rfl, rfl, rfl, rfl, rfl,
      ?_, by dsimp [SplitSt.rangeStart, SplitSt.rangeEnd], ?_,
      ⟨hh4, hp8, hpc, hbL, hh1, hh2⟩⟩
    · show SplitSt.growSF ⟨D, h, c, p, a1, a2⟩ .first 0 = .ok ⟨D, h, c, p, a1, a2⟩
      have hg : SplitSt.chfGrow ⟨D, h, c, p, a1, a2⟩ 0 = .ok ⟨D, h, c, p, a1, a2⟩ := by
        unfold SplitSt.chfGrow
        rw [if_pos rfl]
      have hsf : Be.replaceFill (⟨D, h, c, p, a1, a2⟩ : SplitSt) p 0 0 0 =
          .ok (⟨D, h, c, p, a1, a2⟩, 0) := by
        simp only [Be.replaceFill]
        rw [if_pos trivial]
        simp only [Be.replaceSameLenFill, Be.getIndex, Be.checkCapacityOob,
          Be.endIndex, Be.lastIndex, SplitSt_fi, SplitSt_len, SplitSt_rd,
          SplitSt_wr, RRes.monad_bind_eq, Nat.add_zero]
        rw [if_neg (by omega)]
        simp only [RRes.bind_ok]
        rw [if_pos (by omega), fillSeg_self]
        rw [if_neg (by omega)]
      simp only [SplitSt.growSF, RRes.monad_bind_eq]
      rw [hg]
      simp only [RRes.bind_ok]
      rw [hsf]
      simp only [RRes.bind_ok]
      unfold SplitSt.setSplitPos
      rw [if_neg (by dsimp only; omega)]
      rfl
    · rfl
    · rfl
  · have hn1 : 1 ≤ n := by omega
    have hlen1 : (D ++ List.replicate n 0).length = D.length + n := by simp
    have hcl : (copyWithin (D ++ List.replicate n 0) (8 + h + p) (8 + h + c)
        (8 + h + p + n)).length = D.length + n := by
      rw [copyWithin_length _ _ _ _ (by omega) (by rw [hlen1]; omega)
        (by rw [hlen1]; omega)]
      exact hlen1
    have hfl : (fillSeg (copyWithin (D ++ List.replicate n 0) (8 + h + p)
        (8 + h + c) (8 + h + p + n)) (8 + h + p) (8 + h + p + n) 0).length =
        D.length + n := by
      rw [fillSeg_length _ _ _ _ (by omega) (by rw [hcl]; omega)]
      exact hcl
    have hwl : (writeSeg (fillSeg (copyWithin (D ++ List.replicate n 0)
        (8 + h + p) (8 + h + c) (8 + h + p + n)) (8 + h + p) (8 + h + p + n) 0)
        0 (le64 (c + n + h))).length = D.length + n := by
      rw [writeSeg_length _ _ _ (by rw [le64_length, hfl]; omega)]
      exact hfl
    have hgetD : ∀ j, 8 ≤ j → j < D.length + n →
        (writeSeg (fillSeg (copyWithin (D ++ List.replicate n 0)
          (8 + h + p) (8 + h + c) (8 + h + p + n)) (8 + h + p) (8 + h + p + n) 0)
          0 (le64 (c + n + h))).getD j 0 =
        if 8 + h + p ≤ j ∧ j < 8 + h + p + n then 0
        else if 8 + h + p + n ≤ j ∧ j < 8 + h + c + n then D.getD (j - n) 0
        else if j < D.length then D.getD j 0 else 0 := by
      intro j hj8 hjL
      rw [writeSeg_getD _ _ _ _ (by rw [le64_length, hfl]; omega)]
      rw [if_neg (by rw [le64_length]; omega)]
      rw [fillSeg_getD _ _ _ _ _ (by omega) (by rw [hcl]; omega)]
      by_cases hz : 8 + h + p ≤ j ∧ j < 8 + h + p + n
      · rw [if_pos hz, if_pos hz]
      · rw [if_neg hz, if_neg hz]
        rw [copyWithin_getD _ _ _ _ _ (by omega) (by rw [hlen1]; omega)
          (by rw [hlen1]; omega)]
        by_cases hm : 8 + h + p + n ≤ j ∧ j < 8 + h + c + n
        · rw [if_pos (by omega), if_pos hm, append_replicate_getD,
            if_pos (by omega)]
          congr 1
          omega
        · rw [if_neg (by omega), if_neg hm, append_replicate_getD]
    refine ⟨⟨writeSeg (fillSeg (copyWithin (D ++ List.replicate n 0)
        (8 + h + p) (8 + h + c) (8 + h + p + n)) (8 + h + p) (8 + h + p + n) 0)
        0 (le64 (c + n + h)), h, c + n, p + n, a1, a2⟩,
      ?_, rfl, rfl, rfl, rfl, rfl, hwl, ?_, ?_, ?_,
      by dsimp only [SplitSt.rangeStart, SplitSt.rangeEnd]; omega,
      by dsimp only [SplitSt.rangeStart, SplitSt.rangeEnd]; omega, ?_⟩
    · have hg : SplitSt.chfGrow ⟨D, h, c, p, a1, a2⟩ n =
          .ok ⟨D ++ List.replicate n 0, h, c, p, a1, a2⟩ := by
        unfold SplitSt.chfGrow
        rw [if_neg hn0, if_neg (by dsimp only; omega)]
      have hrf := SplitSt_replaceFill_insert (D ++ List.replicate n 0) h c p a1
        a2 n hn1 hh4 hpc hp8 (by rw [hlen1]; omega)
      simp only [SplitSt.growSF, RRes.monad_bind_eq]
      rw [hg]
      simp only [RRes.bind_ok]
      rw [hrf]
      simp only [RRes.bind_ok]
      unfold SplitSt.setSplitPos
      rw [if_neg (by dsimp only; rw [hwl]; omega)]
    · apply list_eq_of_getD
      · rw [getSeg_length _ _ _ (by rw [hwl]; omega),
          getSeg_length _ _ _ (by omega)]
      · intro i hi
        rw [getSeg_length _ _ _ (by rw [hwl]; omega)] at hi
        rw [getSeg_getD _ _ _ _ hi, getSeg_getD _ _ _ _ hi]
        rw [hgetD (8 + h + i) (by omega) (by omega)]
        rw [if_neg (by omega), if_neg (by omega), if_pos (by omega)]
    · apply list_eq_of_getD
      · rw [getSeg_length _ _ _ (by rw [hwl]; omega), List.length_replicate]
      · intro i hi
        rw [getSeg_length _ _ _ (by rw [hwl]; omega)] at hi
        rw [getSeg_getD _ _ _ _ hi]
        rw [hgetD (8 + h + p + i) (by omega) (by omega)]
        rw [if_pos (by omega)]
        rw [List.getD_eq_getElem?_getD, List.getElem?_replicate, if_pos hi]
        rfl
    · apply list_eq_of_getD
      · rw [getSeg_length _ _ _ (by rw [hwl]; omega),
          getSeg_length _ _ _ (by omega)]
      · intro i hi
        rw [getSeg_length _ _ _ (by rw [hwl]; omega)] at hi
        rw [getSeg_getD _ _ _ _ hi, getSeg_getD _ _ _ _ hi]
        rw [hgetD (8 + h + p + n + i) (by omega) (by omega)]
        rw [if_neg (by omega), if_pos (by omega)]
        congr 1
        omega
    · unfold WFSplit
      dsimp only
      refine ⟨hh4, by omega, by omega, ?_, by omega, by omega⟩
      rw [hwl]
      omega

/-- C8 witness: the statement at a concrete split file (fresh
`create_with_init_cap 4`) grown by 3 bytes. -/
theorem C8_grow_first_inserts_zeros_witness :
    WFSplit (mkSplit 4) ∧
    ∃ s1, SplitSt.growSF (mkSplit 4) .first 3 = .ok s1 ∧
      s1.hlen = (mkSplit 4).hlen ∧ s1.split = (mkSplit 4).split + 3 ∧
      s1.clen = (mkSplit 4).clen + 3 ∧
      s1.h1 = (mkSplit 4).h1 ∧ s1.h2 = (mkSplit 4).h2 ∧
      s1.data.length = (mkSplit 4).data.length + 3 ∧
      getSeg s1.data (8 + (mkSplit 4).hlen) (mkSplit 4).split =
        getSeg (mkSplit 4).data (8 + (mkSplit 4).hlen) (mkSplit 4).split ∧
      getSeg s1.data (8 + (mkSplit 4).hlen + (mkSplit 4).split) 3 =
        List.replicate 3 0 ∧
      getSeg s1.data (8 + (mkSplit 4).hlen + (mkSplit 4).split + 3)
          ((mkSplit 4).clen - (mkSplit 4).split) =
        getSeg (mkSplit 4).data (8 + (mkSplit 4).hlen + (mkSplit 4).split)
          ((mkSplit 4).clen - (mkSplit 4).split) ∧
      SplitSt.rangeEnd s1 .first - SplitSt.rangeStart s1 .first =
        (SplitSt.rangeEnd (mkSplit 4) .first -
          SplitSt.rangeStart (mkSplit 4) .first) + 3 ∧
      SplitSt.rangeEnd s1 .second - SplitSt.rangeStart s1 .second =
        SplitSt.rangeEnd (mkSplit 4) .second -
          SplitSt.rangeStart (mkSplit 4) .second ∧
      WFSplit s1 :=
  ⟨by unfold WFSplit; decide,
    C8_grow_first_inserts_zeros (mkSplit 4) 3 (by unfold WFSplit; decide)⟩


/-! ## Lemmas for the indexed file (claim C4) -/

theorem writeSeg_nil (l : List Nat) (d : Nat) : writeSeg l d [] = l := by
  unfold writeSeg
  simp

theorem copyWithin_empty (l : List Nat) (a d : Nat) : copyWithin l a a d = l := by
  unfold copyWithin getSeg
  rw [Nat.sub_self]
  simp only [List.take_zero]
  exact writeSeg_nil l d

theorem getSeg_getSeg (l : List Nat) (s n t m : Nat) (h1 : t + m ≤ n)
    (h2 : s + n ≤ l.length) :
    getSeg (getSeg l s n) t m = getSeg l (s + t) m := by
  apply list_eq_of_getD
  · rw [getSeg_length _ _ _ (by rw [getSeg_length _ _ _ h2]; omega),
      getSeg_length _ _ _ (by omega)]
  · intro i hi
    rw [getSeg_length _ _ _ (by rw [getSeg_length _ _ _ h2]; omega)] at hi
    rw [getSeg_getD _ _ _ _ hi, getSeg_getD _ _ _ _ (by omega : t + i < n),
      getSeg_getD _ _ _ _ hi]
    congr 1
    omega

theorem getSeg_writeSeg_self (l src : List Nat) (pp : Nat)
    (hb : pp + src.length ≤ l.length) :
    getSeg (writeSeg l pp src) pp src.length = src := by
  apply list_eq_of_getD
  · rw [getSeg_length _ _ _ (by rw [writeSeg_length _ _ _ hb]; omega)]
  · intro i hi
    rw [getSeg_length _ _ _ (by rw [writeSeg_length _ _ _ hb]; omega)] at hi
    rw [getSeg_getD _ _ _ _ hi, writeSeg_getD _ _ _ _ hb,
      if_pos (by omega : pp ≤ pp + i ∧ pp + i < pp + src.length)]
    congr 1
    omega

theorem getSeg_writeSeg_frame (l src : List Nat) (pp s n : Nat)
    (hdisj : s + n ≤ pp ∨ pp + src.length ≤ s)
    (hb : pp + src.length ≤ l.length) :
    getSeg (writeSeg l pp src) s n = getSeg l s n := by
  apply list_eq_of_getD
  · show (getSeg (writeSeg l pp src) s n).length = (getSeg l s n).length
    unfold getSeg
    rw [List.length_take, List.length_take, List.length_drop, List.length_drop,
      writeSeg_length _ _ _ hb]
  · intro i hi
    have hilen : i < n := by
      unfold getSeg at hi
      rw [List.length_take, List.length_drop] at hi
      omega
    rw [getSeg_getD _ _ _ _ hilen, getSeg_getD _ _ _ _ hilen,
      writeSeg_getD _ _ _ _ hb, if_neg (by omega)]

theorem writeSeg_writeSeg_same (l x y : List Nat) (pp : Nat)
    (hxy : x.length = y.length) (hb : pp + x.length ≤ l.length) :
    writeSeg (writeSeg l pp x) pp y = writeSeg l pp y := by
  apply list_eq_of_getD
  · rw [writeSeg_length _ _ _ (by rw [writeSeg_length _ _ _ hb]; omega),
      writeSeg_length _ _ _ hb, writeSeg_length _ _ _ (by omega)]
  · intro i hi
    rw [writeSeg_length _ _ _ (by rw [writeSeg_length _ _ _ hb]; omega)] at hi
    rw [writeSeg_getD _ _ _ _ (by rw [writeSeg_length _ _ _ hb]; omega)]
    rw [writeSeg_getD _ _ _ _ hb]
    rw [writeSeg_getD _ _ _ _ (by omega)]
    by_cases hj : pp ≤ i ∧ i < pp + y.length
    · rw [if_pos hj, if_pos hj]
    · rw [if_neg hj, if_neg (by omega), if_neg hj]

theorem writeSeg_slice (l : List Nat) (s m q : Nat) (src : List Nat)
    (h1 : q + src.length ≤ m) (h2 : s + m ≤ l.length) :
    writeSeg l s (writeSeg (getSeg l s m) q src) = writeSeg l (s + q) src := by
  have hsl : (getSeg l s m).length = m := getSeg_length _ _ _ h2
  have hwl : (writeSeg (getSeg l s m) q src).length = m := by
    rw [writeSeg_length _ _ _ (by rw [hsl]; omega)]
    exact hsl
  apply list_eq_of_getD
  · rw [writeSeg_length _ _ _ (by rw [hwl]; omega),
      writeSeg_length _ _ _ (by omega)]
  · intro i hi
    rw [writeSeg_length _ _ _ (by rw [hwl]; omega)] at hi
    rw [writeSeg_getD _ _ _ _ (by rw [hwl]; omega), hwl]
    by_cases hj : s ≤ i ∧ i < s + m
    · rw [if_pos hj]
      rw [writeSeg_getD _ _ _ _ (by omega)]
      rw [writeSeg_getD _ _ _ _ (by omega)]
      by_cases hq : q ≤ i - s ∧ i - s < q + src.length
      · rw [if_pos hq, if_pos (by omega)]
        congr 1
        omega
      · rw [if_neg hq, if_neg (by omega), getSeg_getD _ _ _ _ (by omega)]
        congr 1
        omega
    · rw [if_neg hj]
      rw [writeSeg_getD _ _ _ _ (by omega)]
      rw [if_neg (by omega)]


theorem idToOff_eval (D : List Nat) (h c p a1 a2 cnt id : Nat)
    (hid : id < cnt) (ha1 : 8 * cnt ≤ a1) (hfit : a1 + 8 ≤ p)
    (hbL : 8 + h + p ≤ D.length) :
    IdxFile.idToOff ⟨⟨D, h, c, p, a1, a2⟩, cnt⟩ id =
      .ok (offAt ⟨⟨D, h, c, p, a1, a2⟩, cnt⟩ id) := by
  simp only [IdxFile.idToOff, IdxFile.side, Be.get, Be.getIndex, Be.checkLenOob,
    Be.lastIndex, SFEnt_rd, SFEnt_fi, SFEnt_len, SplitSt.hOf,
    SplitSt.rangeStart, SplitSt.rangeEnd, RRes.monad_bind_eq]
  rw [if_neg (by omega)]
  simp only [RRes.bind_ok]
  rw [if_pos (by rw [getSeg_length _ _ _ (by omega)]; omega)]
  rw [getSeg_getSeg _ _ _ _ _ (by omega) (by omega)]
  unfold offAt
  dsimp only [SplitSt.rangeStart]
  have harith : 8 + h + (8 + id * 8) = 8 + h + 8 + 8 * id := by ring
  rw [harith]
  rfl

theorem setIdToOff_eval (D : List Nat) (h c p a1 a2 cnt id v : Nat)
    (hid8 : 8 + id * 8 + 8 ≤ p) (hbL : 8 + h + p ≤ D.length) :
    IdxFile.setIdToOff ⟨⟨D, h, c, p, a1, a2⟩, cnt⟩ id v =
      .ok ⟨⟨writeSeg D (8 + h + 8 + 8 * id) (le64 v), h, c, p, a1, a2⟩, cnt⟩ := by
  simp only [IdxFile.setIdToOff, IdxFile.side, SFEnt_rd, SFEnt_wr,
    SplitSt.rangeStart, SplitSt.rangeEnd, SplitSt.makeWr]
  rw [if_pos (by rw [getSeg_length _ _ _ (by omega)]; omega)]
  rw [writeSeg_slice D (8 + h) (8 + h + p - (8 + h)) (8 + id * 8) (le64 v)
    (by rw [le64_length]; omega) (by omega)]
  have harith : 8 + h + (8 + id * 8) = 8 + h + 8 + 8 * id := by ring
  rw [harith]

theorem getEntry_eval (D : List Nat) (h c p a1 a2 cnt id nxt : Nat)
    (hid : id < cnt) (ha1 : 8 * cnt ≤ a1) (hfit : a1 + 8 ≤ p)
    (hnxt : nxt = if id + 1 = cnt then a2
      else offAt ⟨⟨D, h, c, p, a1, a2⟩, cnt⟩ (id + 1))
    (hmono : offAt ⟨⟨D, h, c, p, a1, a2⟩, cnt⟩ id ≤ nxt)
    (hbound : nxt + 8 + p ≤ c) (hbL : 8 + h + c ≤ D.length) :
    IdxFile.getEntry ⟨⟨D, h, c, p, a1, a2⟩, cnt⟩ id =
      .ok (getSeg D (8 + h + p + 8 + offAt ⟨⟨D, h, c, p, a1, a2⟩, cnt⟩ id)
        (nxt - offAt ⟨⟨D, h, c, p, a1, a2⟩, cnt⟩ id)) := by
  simp only [IdxFile.getEntry, IdxFile.entryIndex, RRes.monad_bind_eq]
  rw [idToOff_eval D h c p a1 a2 cnt id hid ha1 hfit (by omega)]
  simp only [RRes.bind_ok]
  by_cases hlast : id + 1 = cnt
  · rw [if_pos hlast] at hnxt ⊢
    simp only [IdxFile.side, SFEnt_len, SFEnt_rd, SplitSt.hOf,
      SplitSt.rangeStart, SplitSt.rangeEnd, RRes.bind_ok]
    rw [if_pos ⟨by omega, by rw [getSeg_length _ _ _ (by omega)]; omega⟩]
    rw [getSeg_getSeg _ _ _ _ _ (by omega) (by omega)]
    have h1 : 8 + h + p + (offAt ⟨⟨D, h, c, p, a1, a2⟩, cnt⟩ id + 8) =
        8 + h + p + 8 + offAt ⟨⟨D, h, c, p, a1, a2⟩, cnt⟩ id := by ring
    have h2 : a2 + 8 - (offAt ⟨⟨D, h, c, p, a1, a2⟩, cnt⟩ id + 8) =
        a2 - offAt ⟨⟨D, h, c, p, a1, a2⟩, cnt⟩ id := by omega
    rw [h1, h2, hnxt]
  · rw [if_neg hlast] at hnxt ⊢
    rw [idToOff_eval D h c p a1 a2 cnt (id + 1) (by omega) ha1 hfit (by omega)]
    simp only [RRes.bind_ok, IdxFile.side, SFEnt_rd, SplitSt.rangeStart,
      SplitSt.rangeEnd]
    rw [← hnxt]
    rw [if_pos ⟨by omega, by rw [getSeg_length _ _ _ (by omega)]; omega⟩]
    rw [getSeg_getSeg _ _ _ _ _ (by omega) (by omega)]
    have h1 : 8 + h + p + (offAt ⟨⟨D, h, c, p, a1, a2⟩, cnt⟩ id + 8) =
        8 + h + p + 8 + offAt ⟨⟨D, h, c, p, a1, a2⟩, cnt⟩ id := by ring
    have h2 : nxt + 8 - (offAt ⟨⟨D, h, c, p, a1, a2⟩, cnt⟩ id + 8) =
        nxt - offAt ⟨⟨D, h, c, p, a1, a2⟩, cnt⟩ id := by omega
    rw [h1, h2]


theorem shiftLoop_spec (n : Nat) (h c p a1 a2 cnt : Nat)
    (ha1 : 8 * cnt ≤ a1) (hfit : a1 + 8 ≤ p) :
    ∀ fuel id0 (E : List Nat), 8 + h + p ≤ E.length → id0 + fuel ≤ cnt →
      ∃ E2, IdxFile.shiftLoop (n : Int) ⟨⟨E, h, c, p, a1, a2⟩, cnt⟩ fuel id0 =
          .ok ⟨⟨E2, h, c, p, a1, a2⟩, cnt⟩ ∧
        E2.length = E.length ∧
        (∀ j, j < 8 + h + 8 + 8 * id0 ∨ 8 + h + 8 + 8 * (id0 + fuel) ≤ j →
          E2.getD j 0 = E.getD j 0) ∧
        (∀ t, id0 ≤ t → t < id0 + fuel →
          getSeg E2 (8 + h + 8 + 8 * t) 8 =
            le64 (offAt ⟨⟨E, h, c, p, a1, a2⟩, cnt⟩ t + n)) := by
  intro fuel
  induction fuel with
  | zero =>
    intro id0 E hE hcnt
    exact ⟨E, rfl, rfl, fun j _ => rfl, fun t ht1 ht2 => by omega⟩
  | succ fl ih =>
    intro id0 E hE hcnt
    have hwb : 8 + h + 8 + 8 * id0 + (le64 (offAt ⟨⟨E, h, c, p, a1, a2⟩, cnt⟩
        id0 + n)).length ≤ E.length := by
      rw [le64_length]
      omega
    simp only [IdxFile.shiftLoop, RRes.monad_bind_eq]
    rw [idToOff_eval E h c p a1 a2 cnt id0 (by omega) ha1 hfit hE]
    simp only [RRes.bind_ok]
    rw [if_neg (by omega :
      ¬((offAt ⟨⟨E, h, c, p, a1, a2⟩, cnt⟩ id0 : Int) + (n : Int) < 0))]
    have htn : ((offAt ⟨⟨E, h, c, p, a1, a2⟩, cnt⟩ id0 : Int) + (n : Int)).toNat =
        offAt ⟨⟨E, h, c, p, a1, a2⟩, cnt⟩ id0 + n := by omega
    rw [htn]
    rw [setIdToOff_eval E h c p a1 a2 cnt id0 _ (by omega) hE]
    simp only [RRes.bind_ok]
    obtain ⟨E2, hrec, hlen, hframe, hslots⟩ := ih (id0 + 1)
      (writeSeg E (8 + h + 8 + 8 * id0)
        (le64 (offAt ⟨⟨E, h, c, p, a1, a2⟩, cnt⟩ id0 + n)))
      (by rw [writeSeg_length _ _ _ hwb]; exact hE) (by omega)
    refine ⟨E2, hrec, ?_, ?_, ?_⟩
    · rw [hlen, writeSeg_length _ _ _ hwb]
    · intro j hj
      rw [hframe j (by rw [le64_length] at hwb; omega)]
      rw [writeSeg_getD _ _ _ _ hwb, if_neg (by rw [le64_length]; omega)]
    · intro t ht1 ht2
      by_cases hteq : t = id0
      · subst hteq
        have hfr : getSeg E2 (8 + h + 8 + 8 * t) 8 =
            getSeg (writeSeg E (8 + h + 8 + 8 * t)
              (le64 (offAt ⟨⟨E, h, c, p, a1, a2⟩, cnt⟩ t + n)))
              (8 + h + 8 + 8 * t) 8 := by
          apply list_eq_of_getD
          · rw [getSeg_length _ _ _
              (by rw [hlen, writeSeg_length _ _ _ hwb]; rw [le64_length] at hwb; omega),
              getSeg_length _ _ _
              (by rw [writeSeg_length _ _ _ hwb]; rw [le64_length] at hwb; omega)]
          · intro i hi
            rw [getSeg_length _ _ _
              (by rw [hlen, writeSeg_length _ _ _ hwb]; rw [le64_length] at hwb; omega)] at hi
            rw [getSeg_getD _ _ _ _ hi, getSeg_getD _ _ _ _ hi,
              hframe _ (Or.inl (by omega))]
        have hself := getSeg_writeSeg_self E
          (le64 (offAt ⟨⟨E, h, c, p, a1, a2⟩, cnt⟩ t + n)) (8 + h + 8 + 8 * t) hwb
        rw [le64_length] at hself
        rw [hfr, hself]
      · have hf : getSeg (writeSeg E (8 + h + 8 + 8 * id0)
            (le64 (offAt ⟨⟨E, h, c, p, a1, a2⟩, cnt⟩ id0 + n)))
            (8 + h + 8 + 8 * t) 8 = getSeg E (8 + h + 8 + 8 * t) 8 :=
          getSeg_writeSeg_frame _ _ _ _ _ (by rw [le64_length]; omega) hwb
        rw [hslots t (by omega) (by omega)]
        have hoffeq : offAt ⟨⟨writeSeg E (8 + h + 8 + 8 * id0)
            (le64 (offAt ⟨⟨E, h, c, p, a1, a2⟩, cnt⟩ id0 + n)),
            h, c, p, a1, a2⟩, cnt⟩ t = offAt ⟨⟨E, h, c, p, a1, a2⟩, cnt⟩ t := by
          show leDec (getSeg (writeSeg E (8 + h + 8 + 8 * id0)
            (le64 (offAt ⟨⟨E, h, c, p, a1, a2⟩, cnt⟩ id0 + n)))
            (8 + h + 8 + 8 * t) 8) = leDec (getSeg E (8 + h + 8 + 8 * t) 8)
          rw [hf]
        rw [hoffeq]


theorem shiftOffsets_spec (n : Nat) (h c p a1 a2 cnt id : Nat) (E : List Nat)
    (hn : 1 ≤ n) (hid : id < cnt) (ha1 : 8 * cnt ≤ a1) (hfit : a1 + 8 ≤ p)
    (hE : 8 + h + p ≤ E.length)
    (hmono : offAt ⟨⟨E, h, c, p, a1, a2⟩, cnt⟩ id ≤
      offAt ⟨⟨E, h, c, p, a1, a2⟩, cnt⟩ (min (id + 1) (cnt - 1))) :
    ∃ E2 b, IdxFile.shiftOffsets ⟨⟨E, h, c, p, a1, a2⟩, cnt⟩ id (n : Int) =
        .ok (⟨⟨E2, h, c, p, a1, a2⟩, cnt⟩, b) ∧
      E2.length = E.length ∧
      (∀ j, j < 8 + h + 8 + 8 * (id + 1) ∨ 8 + h + 8 + 8 * cnt ≤ j →
        E2.getD j 0 = E.getD j 0) ∧
      (∀ t, id < t → t < cnt →
        getSeg E2 (8 + h + 8 + 8 * t) 8 =
          le64 (offAt ⟨⟨E, h, c, p, a1, a2⟩, cnt⟩ t + n)) := by
  by_cases hlast : id + 1 ≥ cnt
  · refine ⟨E, false, ?_, rfl, fun j _ => rfl, fun t ht1 ht2 => by omega⟩
    simp only [IdxFile.shiftOffsets, RRes.monad_bind_eq]
    rw [if_pos (Or.inl hlast)]
  · have hmin : min (id + 1) (cnt - 1) = id + 1 := by omega
    rw [hmin] at hmono
    have hwb : 8 + h + 8 + 8 * (id + 1) +
        (le64 (offAt ⟨⟨E, h, c, p, a1, a2⟩, cnt⟩ (id + 1) + n)).length ≤
        E.length := by
      rw [le64_length]
      omega
    simp only [IdxFile.shiftOffsets, RRes.monad_bind_eq]
    rw [if_neg (by omega)]
    rw [idToOff_eval E h c p a1 a2 cnt (id + 1) (by omega) ha1 hfit hE]
    simp only [RRes.bind_ok]
    rw [if_neg (by omega :
      ¬((offAt ⟨⟨E, h, c, p, a1, a2⟩, cnt⟩ (id + 1) : Int) + (n : Int) < 0))]
    have htn : ((offAt ⟨⟨E, h, c, p, a1, a2⟩, cnt⟩ (id + 1) : Int) +
        (n : Int)).toNat = offAt ⟨⟨E, h, c, p, a1, a2⟩, cnt⟩ (id + 1) + n := by
      omega
    rw [htn]
    rw [idToOff_eval E h c p a1 a2 cnt id (by omega) ha1 hfit hE]
    simp only [RRes.bind_ok]
    rw [if_neg (by omega)]
    rw [setIdToOff_eval E h c p a1 a2 cnt (id + 1) _ (by omega) hE]
    simp only [RRes.bind_ok]
    obtain ⟨E2, hrec, hlen, hframe, hslots⟩ := shiftLoop_spec n h c p a1 a2 cnt
      ha1 hfit (cnt - (id + 1 + 1)) (id + 1 + 1)
      (writeSeg E (8 + h + 8 + 8 * (id + 1))
        (le64 (offAt ⟨⟨E, h, c, p, a1, a2⟩, cnt⟩ (id + 1) + n)))
      (by rw [writeSeg_length _ _ _ hwb]; exact hE) (by omega)
    rw [hrec]
    refine ⟨E2, true, rfl, ?_, ?_, ?_⟩
    · rw [hlen, writeSeg_length _ _ _ hwb]
    · intro j hj
      rw [hframe j (by rw [le64_length] at hwb; omega)]
      rw [writeSeg_getD _ _ _ _ hwb, if_neg (by rw [le64_length]; omega)]
    · intro t ht1 ht2
      by_cases hteq : t = id + 1
      · rw [hteq]
        have hfr : getSeg E2 (8 + h + 8 + 8 * (id + 1)) 8 =
            getSeg (writeSeg E (8 + h + 8 + 8 * (id + 1))
              (le64 (offAt ⟨⟨E, h, c, p, a1, a2⟩, cnt⟩ (id + 1) + n)))
              (8 + h + 8 + 8 * (id + 1)) 8 := by
          apply list_eq_of_getD
          · rw [getSeg_length _ _ _
              (by rw [hlen, writeSeg_length _ _ _ hwb]; rw [le64_length] at hwb; omega),
              getSeg_length _ _ _
              (by rw [writeSeg_length _ _ _ hwb]; rw [le64_length] at hwb; omega)]
          · intro i hi
            rw [getSeg_length _ _ _
              (by rw [hlen, writeSeg_length _ _ _ hwb]; rw [le64_length] at hwb; omega)] at hi
            rw [getSeg_getD _ _ _ _ hi, getSeg_getD _ _ _ _ hi,
              hframe _ (Or.inl (by omega))]
        have hself := getSeg_writeSeg_self E
          (le64 (offAt ⟨⟨E, h, c, p, a1, a2⟩, cnt⟩ (id + 1) + n))
          (8 + h + 8 + 8 * (id + 1)) hwb
        rw [le64_length] at hself
        rw [hfr, hself]
      · have hf : getSeg (writeSeg E (8 + h + 8 + 8 * (id + 1))
            (le64 (offAt ⟨⟨E, h, c, p, a1, a2⟩, cnt⟩ (id + 1) + n)))
            (8 + h + 8 + 8 * t) 8 = getSeg E (8 + h + 8 + 8 * t) 8 :=
          getSeg_writeSeg_frame _ _ _ _ _ (by rw [le64_length]; omega) hwb
        rw [hslots t (by omega) (by omega)]
        have hoffeq : offAt ⟨⟨writeSeg E (8 + h + 8 + 8 * (id + 1))
            (le64 (offAt ⟨⟨E, h, c, p, a1, a2⟩, cnt⟩ (id + 1) + n)),
            h, c, p, a1, a2⟩, cnt⟩ t = offAt ⟨⟨E, h, c, p, a1, a2⟩, cnt⟩ t := by
          show leDec (getSeg (writeSeg E (8 + h + 8 + 8 * (id + 1))
            (le64 (offAt ⟨⟨E, h, c, p, a1, a2⟩, cnt⟩ (id + 1) + n)))
            (8 + h + 8 + 8 * t) 8) = leDec (getSeg E (8 + h + 8 + 8 * t) 8)
          rw [hf]
        rw [hoffeq]


theorem writeSeg_getSeg_self (l : List Nat) (s n : Nat) (h : s + n ≤ l.length) :
    writeSeg l s (getSeg l s n) = l := by
  have hg : (getSeg l s n).length = n := getSeg_length _ _ _ h
  apply list_eq_of_getD
  · rw [writeSeg_length _ _ _ (by rw [hg]; omega)]
  · intro i hi
    rw [writeSeg_length _ _ _ (by rw [hg]; omega)] at hi
    rw [writeSeg_getD _ _ _ _ (by rw [hg]; omega), hg]
    by_cases hj : s ≤ i ∧ i < s + n
    · rw [if_pos hj, getSeg_getD _ _ _ _ (by omega)]
      congr 1
      omega
    · rw [if_neg hj]

theorem SplitSt_grow_second (D : List Nat) (h c p a1 a2 n : Nat) (hn : 1 ≤ n)
    (hb : 8 + h + c ≤ D.length) :
    SplitSt.growSF ⟨D, h, c, p, a1, a2⟩ .second n =
      .ok ⟨writeSeg (D ++ List.replicate n 0) 0 (le64 (c + n + h)),
        h, c + n, p, a1, a2⟩ := by
  have hg : SplitSt.chfGrow ⟨D, h, c, p, a1, a2⟩ n =
      .ok ⟨D ++ List.replicate n 0, h, c, p, a1, a2⟩ := by
    unfold SplitSt.chfGrow
    rw [if_neg (by omega), if_neg (by dsimp only; omega)]
  simp only [SplitSt.growSF, RRes.monad_bind_eq]
  rw [hg]
  simp only [RRes.bind_ok, SplitSt_len, SplitSt_setLen]
  unfold SplitSt.chfSetLen
  rw [if_pos (by simp; omega)]

theorem SFEnt_replaceFill_append (D : List Nat) (h c p a1 a2 nxt v n : Nat)
    (hn : 1 ≤ n) (hp8 : 8 ≤ p) (hnxt : nxt ≤ a2) (hfree : a2 + 8 + p + n ≤ c)
    (hb : 8 + h + c ≤ D.length) :
    Be.replaceFill (⟨⟨D, h, c, p, a1, a2⟩, .second⟩ : SFEnt) nxt 0 v n =
      .ok ((⟨⟨writeSeg (writeSeg D (8 + h + p)
          (fillSeg (copyWithin (getSeg D (8 + h + p) (c - p))
            (8 + nxt) (8 + a2) (8 + nxt + n)) (8 + nxt) (8 + nxt + n) v))
          (8 + h + p) (le64 (a2 + n)), h, c, p, a1, a2 + n⟩, .second⟩ : SFEnt),
        n) := by
  have hsub : 8 + h + c - (8 + h + p) = c - p := by omega
  have hS1 : (getSeg D (8 + h + p) (c - p)).length = c - p :=
    getSeg_length _ _ _ (by omega)
  have hS2len : (copyWithin (getSeg D (8 + h + p) (c - p)) (8 + nxt) (8 + a2)
      (8 + nxt + n)).length = c - p := by
    rw [copyWithin_length _ _ _ _ (by omega) (by rw [hS1]; omega)
      (by rw [hS1]; omega)]
    exact hS1
  have hS3len : (fillSeg (copyWithin (getSeg D (8 + h + p) (c - p)) (8 + nxt)
      (8 + a2) (8 + nxt + n)) (8 + nxt) (8 + nxt + n) v).length = c - p := by
    rw [fillSeg_length _ _ _ _ (by omega) (by rw [hS2len]; omega)]
    exact hS2len
  have hW2len : (writeSeg D (8 + h + p) (copyWithin (getSeg D (8 + h + p) (c - p))
      (8 + nxt) (8 + a2) (8 + nxt + n))).length = D.length := by
    rw [writeSeg_length _ _ _ (by rw [hS2len]; omega)]
  have hck : Be.checkLenOob (⟨⟨D, h, c, p, a1, a2⟩, .second⟩ : SFEnt)
      (Be.getIndex (⟨⟨D, h, c, p, a1, a2⟩, .second⟩ : SFEnt) nxt) = .ok () := by
    simp only [Be.checkLenOob, Be.lastIndex, Be.getIndex, SFEnt_fi, SFEnt_len,
      SplitSt.hOf]
    rw [if_neg (by omega)]
  have hlenterm : (getSeg D (8 + h + p) (8 + h + c - (8 + h + p))).length =
      c - p := by
    rw [getSeg_length _ _ _ (by omega)]
    omega
  have hmv : Be.replaceMove (⟨⟨D, h, c, p, a1, a2⟩, .second⟩ : SFEnt)
      (Be.getIndex (⟨⟨D, h, c, p, a1, a2⟩, .second⟩ : SFEnt) nxt) 0 n =
      .ok (⟨⟨writeSeg D (8 + h + p) (copyWithin (getSeg D (8 + h + p) (c - p))
        (8 + nxt) (8 + a2) (8 + nxt + n)), h, c, p, a1, a2⟩, .second⟩ : SFEnt) := by
    simp only [Be.replaceMove, Be.endIndex, Be.lastIndex, Be.getIndex, SFEnt_fi,
      SFEnt_len, SFEnt_rd, SFEnt_wr, SplitSt.hOf, SplitSt.rangeStart,
      SplitSt.rangeEnd, SplitSt.makeWr, RRes.monad_bind_eq, Nat.add_zero]
    rw [hlenterm]
    by_cases hcase : 8 + nxt < c - p - 1
    · rw [if_pos hcase]
      rw [if_pos ⟨by omega, by omega, by omega⟩]
      rw [hsub]
    · rw [if_neg hcase]
      have h1 : nxt = a2 := by omega
      subst h1
      rw [copyWithin_empty, writeSeg_getSeg_self _ _ _ (by omega)]
  have hrd : getSeg (writeSeg D (8 + h + p) (copyWithin (getSeg D (8 + h + p)
      (c - p)) (8 + nxt) (8 + a2) (8 + nxt + n))) (8 + h + p)
      (8 + h + c - (8 + h + p)) =
      copyWithin (getSeg D (8 + h + p) (c - p)) (8 + nxt) (8 + a2)
        (8 + nxt + n) := by
    have hself := getSeg_writeSeg_self D (copyWithin (getSeg D (8 + h + p)
      (c - p)) (8 + nxt) (8 + a2) (8 + nxt + n)) (8 + h + p)
      (by rw [hS2len]; omega)
    rw [hS2len] at hself
    rw [hsub]
    exact hself
  have hcc : Be.checkCapacityOob (⟨⟨writeSeg D (8 + h + p)
      (copyWithin (getSeg D (8 + h + p) (c - p)) (8 + nxt) (8 + a2)
        (8 + nxt + n)), h, c, p, a1, a2⟩, .second⟩ : SFEnt)
      (Be.getIndex (⟨⟨D, h, c, p, a1, a2⟩, .second⟩ : SFEnt) nxt + n) =
      .ok () := by
    simp only [Be.checkCapacityOob, Be.endIndex, Be.getIndex, SFEnt_fi, SFEnt_rd,
      SplitSt.rangeStart, SplitSt.rangeEnd]
    rw [if_neg (by rw [getSeg_length _ _ _ (by rw [hW2len]; omega)]; omega)]
  simp only [Be.replaceFill, RRes.monad_bind_eq]
  rw [if_neg (by omega), hck]
  simp only [RRes.bind_ok]
  rw [hmv]
  simp only [RRes.bind_ok]
  rw [if_pos (by omega : (0 : Nat) < n), hcc]
  simp only [RRes.bind_ok, SFEnt_rd, SFEnt_wr, SFEnt_fi, Be.getIndex,
    SplitSt.rangeStart, SplitSt.rangeEnd, SplitSt.makeWr]
  rw [if_pos (by rw [getSeg_length _ _ _ (by rw [hW2len]; omega)]; omega)]
  rw [hrd]
  rw [writeSeg_writeSeg_same _ _ _ _ (by rw [hS2len, hS3len]) (by rw [hS2len]; omega)]
  simp only [Be.replaceAdjustLen, SFEnt_len, SplitSt.hOf, RRes.monad_bind_eq,
    Nat.zero_min, Nat.zero_max, Nat.sub_zero]
  rw [if_neg (by omega)]
  rw [SFEnt_setLen]
  unfold SFEnt.setLen
  simp only [SplitSt.rangeStart, SplitSt.rangeEnd, SplitSt.setHOf,
    SplitSt.makeWr]
  rw [if_neg (by omega), if_pos (by omega)]
  rfl


theorem offAt_mono (f : IdxFile)
    (hwf : ∀ i, i + 1 < f.count → offAt f i ≤ offAt f (i + 1)) :
    ∀ i j, i ≤ j → j < f.count → offAt f i ≤ offAt f j := by
  intro i j
  induction j with
  | zero =>
    intro hij hj
    have h0 : i = 0 := by omega
    rw [h0]
  | succ k ih =>
    intro hij hj
    rcases Nat.eq_or_lt_of_le hij with heq | hlt
    · rw [heq]
    · exact le_trans (ih (by omega) (by omega)) (hwf k (by omega))

theorem entryIndex_eval (D : List Nat) (h c p a1 a2 cnt id nxt : Nat)
    (hid : id < cnt) (ha1 : 8 * cnt ≤ a1) (hfit : a1 + 8 ≤ p)
    (hnxt : nxt = if id + 1 = cnt then a2
      else offAt ⟨⟨D, h, c, p, a1, a2⟩, cnt⟩ (id + 1))
    (hbL : 8 + h + p ≤ D.length) :
    IdxFile.entryIndex ⟨⟨D, h, c, p, a1, a2⟩, cnt⟩ id =
      .ok (offAt ⟨⟨D, h, c, p, a1, a2⟩, cnt⟩ id + 8, nxt + 8) := by
  simp only [IdxFile.entryIndex, RRes.monad_bind_eq]
  rw [idToOff_eval D h c p a1 a2 cnt id hid ha1 hfit hbL]
  simp only [RRes.bind_ok]
  by_cases hlast : id + 1 = cnt
  · rw [if_pos hlast] at hnxt
    rw [if_pos hlast]
    simp only [IdxFile.side, SFEnt_len, SplitSt.hOf, RRes.bind_ok]
    rw [hnxt]
  · rw [if_neg hlast] at hnxt
    rw [if_neg hlast]
    rw [idToOff_eval D h c p a1 a2 cnt (id + 1) (by omega) ha1 hfit hbL]
    simp only [RRes.bind_ok]
    rw [hnxt]


theorem append_getD_left (l1 l2 : List Nat) (i : Nat) (hi : i < l1.length) :
    (l1 ++ l2).getD i 0 = l1.getD i 0 := by
  rw [List.getD_eq_getElem?_getD, List.getElem?_append, if_pos hi,
    ← List.getD_eq_getElem?_getD]

theorem append_getD_right (l1 l2 : List Nat) (i : Nat) (hi : l1.length ≤ i) :
    (l1 ++ l2).getD i 0 = l2.getD (i - l1.length) 0 := by
  rw [List.getD_eq_getElem?_getD, List.getElem?_append, if_neg (by omega),
    ← List.getD_eq_getElem?_getD]

theorem replicate_getD (n v i : Nat) (hi : i < n) :
    (List.replicate n v).getD i 0 = v := by
  rw [List.getD_eq_getElem?_getD, List.getElem?_replicate, if_pos hi]
  rfl


theorem growEntry_spec (D : List Nat) (h c p a1 a2 cnt id n v : Nat)
    (hwf : WFIdx ⟨⟨D, h, c, p, a1, a2⟩, cnt⟩) (hid : id < cnt)
    (hsz : D.length + n < 2 ^ 64) :
    ∃ E2 c2 a2x, IdxFile.growEntry ⟨⟨D, h, c, p, a1, a2⟩, cnt⟩ id n v =
        .ok ⟨⟨E2, h, c2, p, a1, a2x⟩, cnt⟩ ∧
      (∀ j, j ≤ id → j < cnt → offAt ⟨⟨E2, h, c2, p, a1, a2x⟩, cnt⟩ j =
        offAt ⟨⟨D, h, c, p, a1, a2⟩, cnt⟩ j) ∧
      (∀ j, id < j → j < cnt → offAt ⟨⟨E2, h, c2, p, a1, a2x⟩, cnt⟩ j =
        offAt ⟨⟨D, h, c, p, a1, a2⟩, cnt⟩ j + n) ∧
      (∃ e, IdxFile.getEntry ⟨⟨D, h, c, p, a1, a2⟩, cnt⟩ id = .ok e ∧
        IdxFile.getEntry ⟨⟨E2, h, c2, p, a1, a2x⟩, cnt⟩ id =
          .ok (e ++ List.replicate n v)) ∧
      (∀ j, j < cnt → j ≠ id → IdxFile.getEntry ⟨⟨E2, h, c2, p, a1, a2x⟩, cnt⟩ j =
        IdxFile.getEntry ⟨⟨D, h, c, p, a1, a2⟩, cnt⟩ j) := by
  obtain ⟨⟨hh4, hp8, hpc, hbL, hh1, hh2⟩, ha1p, hm1, hbndp⟩ := hwf
  have ha1 : a1 = 8 * cnt := ha1p
  have hbnd : ∀ i, i < cnt → offAt ⟨⟨D, h, c, p, a1, a2⟩, cnt⟩ i ≤ a2 := hbndp
  have hh4' : 4 ≤ h := hh4
  have hp8' : 8 ≤ p := hp8
  have hpc' : p + 8 ≤ c := hpc
  have hbL' : 8 + h + c ≤ D.length := hbL
  have hh1' : a1 + 8 ≤ p := hh1
  have hh2' : a2 + 8 + p ≤ c := hh2
  have hmono : ∀ i j, i ≤ j → j < cnt →
      offAt ⟨⟨D, h, c, p, a1, a2⟩, cnt⟩ i ≤
      offAt ⟨⟨D, h, c, p, a1, a2⟩, cnt⟩ j := offAt_mono _ hm1
  obtain ⟨off, hoffdef⟩ : ∃ x, offAt ⟨⟨D, h, c, p, a1, a2⟩, cnt⟩ id = x :=
    ⟨_, rfl⟩
  obtain ⟨nxt, hnxtdef⟩ : ∃ x, (if id + 1 = cnt then a2
      else offAt ⟨⟨D, h, c, p, a1, a2⟩, cnt⟩ (id + 1)) = x := ⟨_, rfl⟩
  have hoffn : off ≤ nxt := by
    rcases eq_or_ne (id + 1) cnt with he | hne
    · rw [if_pos he] at hnxtdef
      rw [← hnxtdef, ← hoffdef]
      exact hbnd id hid
    · rw [if_neg hne] at hnxtdef
      rw [← hnxtdef, ← hoffdef]
      exact hmono id (id + 1) (by omega) (by omega)
  have hnxtb : nxt ≤ a2 := by
    rcases eq_or_ne (id + 1) cnt with he | hne
    · rw [if_pos he] at hnxtdef
      omega
    · rw [if_neg hne] at hnxtdef
      rw [← hnxtdef]
      exact hbnd (id + 1) (by omega)
  have hoffb : off ≤ a2 := by
    rw [← hoffdef]
    exact hbnd id hid
  have hentry_old : IdxFile.getEntry ⟨⟨D, h, c, p, a1, a2⟩, cnt⟩ id =
      .ok (getSeg D (8 + h + p + 8 + off) (nxt - off)) := by
    have hthis := getEntry_eval D h c p a1 a2 cnt id nxt hid (by omega) hh1'
      hnxtdef.symm (by rw [hoffdef]; exact hoffn) (by omega) (by omega)
    rw [hoffdef] at hthis
    exact hthis
  by_cases hn0 : n = 0
  · subst hn0
    refine ⟨D, c, a2, ?_, fun j _ _ => rfl, fun j _ _ => by omega,
      ⟨_, hentry_old, ?_⟩, fun j _ _ => rfl⟩
    · simp only [IdxFile.growEntry]
      rw [if_pos trivial]
    · rw [show List.replicate 0 v = [] from rfl, List.append_nil]
      exact hentry_old
  · have hn1 : 1 ≤ n := by omega
    obtain ⟨D1, hD1def⟩ : ∃ x,
        writeSeg (D ++ List.replicate n 0) 0 (le64 (c + n + h)) = x := ⟨_, rfl⟩
    have happlen : (D ++ List.replicate n 0).length = D.length + n := by simp
    have hD1len : D1.length = D.length + n := by
      rw [← hD1def, writeSeg_length _ _ _ (by rw [le64_length, happlen]; omega)]
      exact happlen
    have hD1getD : ∀ q, 8 ≤ q → q < D.length → D1.getD q 0 = D.getD q 0 := by
      intro q h1 h2
      rw [← hD1def, writeSeg_getD _ _ _ _ (by rw [le64_length, happlen]; omega),
        if_neg (by rw [le64_length]; omega), append_replicate_getD, if_pos h2]
    have hgrow : SplitSt.growSF ⟨D, h, c, p, a1, a2⟩ .second n =
        .ok ⟨D1, h, c + n, p, a1, a2⟩ := by
      rw [← hD1def]
      exact SplitSt_grow_second D h c p a1 a2 n hn1 (by omega)
    have hoff1 : ∀ j, j < cnt →
        offAt ⟨⟨D1, h, c + n, p, a1, a2⟩, cnt⟩ j =
        offAt ⟨⟨D, h, c, p, a1, a2⟩, cnt⟩ j := by
      intro j hj
      show leDec (getSeg D1 (8 + h + 8 + 8 * j) 8) =
        leDec (getSeg D (8 + h + 8 + 8 * j) 8)
      congr 1
      apply list_eq_of_getD
      · rw [getSeg_length _ _ _ (by rw [hD1len]; omega),
          getSeg_length _ _ _ (by omega)]
      · intro i hi
        rw [getSeg_length _ _ _ (by rw [hD1len]; omega)] at hi
        rw [getSeg_getD _ _ _ _ hi, getSeg_getD _ _ _ _ hi,
          hD1getD _ (by omega) (by omega)]
    have hei : IdxFile.entryIndex ⟨⟨D1, h, c + n, p, a1, a2⟩, cnt⟩ id =
        .ok (off + 8, nxt + 8) := by
      have hthis := entryIndex_eval D1 h (c + n) p a1 a2 cnt id nxt hid
        (by omega) hh1'
        (by rcases eq_or_ne (id + 1) cnt with he | hne
            · rw [if_pos he] at hnxtdef ⊢
              omega
            · rw [if_neg hne] at hnxtdef ⊢
              rw [hoff1 (id + 1) (by omega)]
              exact hnxtdef.symm)
        (by rw [hD1len]; omega)
      rw [hoff1 id hid, hoffdef] at hthis
      exact hthis
    obtain ⟨Dpre, hDpredef⟩ : ∃ x, writeSeg (writeSeg D1 (8 + h + p)
        (fillSeg (copyWithin (getSeg D1 (8 + h + p) (c + n - p)) (8 + nxt)
          (8 + a2) (8 + nxt + n)) (8 + nxt) (8 + nxt + n) v)) (8 + h + p)
        (le64 (a2 + n)) = x := ⟨_, rfl⟩
    have hS1len : (getSeg D1 (8 + h + p) (c + n - p)).length = c + n - p :=
      getSeg_length _ _ _ (by rw [hD1len]; omega)
    have hS2len : (copyWithin (getSeg D1 (8 + h + p) (c + n - p)) (8 + nxt)
        (8 + a2) (8 + nxt + n)).length = c + n - p := by
      rw [copyWithin_length _ _ _ _ (by omega) (by rw [hS1len]; omega)
        (by rw [hS1len]; omega)]
      exact hS1len
    have hS3len : (fillSeg (copyWithin (getSeg D1 (8 + h + p) (c + n - p))
        (8 + nxt) (8 + a2) (8 + nxt + n)) (8 + nxt) (8 + nxt + n) v).length =
        c + n - p := by
      rw [fillSeg_length _ _ _ _ (by omega) (by rw [hS2len]; omega)]
      exact hS2len
    have hrf : Be.replaceFill (⟨⟨D1, h, c + n, p, a1, a2⟩, .second⟩ : SFEnt)
        nxt 0 v n =
        .ok ((⟨⟨Dpre, h, c + n, p, a1, a2 + n⟩, .second⟩ : SFEnt), n) := by
      rw [← hDpredef]
      exact SFEnt_replaceFill_append D1 h (c + n) p a1 a2 nxt v n hn1 (by omega)
        (by omega) (by omega) (by rw [hD1len]; omega)
    have hWin : (writeSeg D1 (8 + h + p)
        (fillSeg (copyWithin (getSeg D1 (8 + h + p) (c + n - p)) (8 + nxt)
          (8 + a2) (8 + nxt + n)) (8 + nxt) (8 + nxt + n) v)).length =
        D.length + n := by
      rw [writeSeg_length _ _ _ (by rw [hS3len, hD1len]; omega)]
      exact hD1len
    have hDpre_len : Dpre.length = D.length + n := by
      rw [← hDpredef, writeSeg_length _ _ _ (by rw [le64_length, hWin]; omega)]
      exact hWin
    have hDpre_first : ∀ q, 8 ≤ q → q < 8 + h + p → Dpre.getD q 0 = D.getD q 0 := by
      intro q h1 h2
      rw [← hDpredef, writeSeg_getD _ _ _ _ (by rw [le64_length, hWin]; omega),
        if_neg (by rw [le64_length]; omega),
        writeSeg_getD _ _ _ _ (by rw [hS3len, hD1len]; omega),
        if_neg (by rw [hS3len]; omega), hD1getD _ (by omega) (by omega)]
    have hDpre_snd : ∀ r, 8 ≤ r → r < 8 + a2 + n →
        Dpre.getD (8 + h + p + r) 0 =
        (if 8 + nxt ≤ r ∧ r < 8 + nxt + n then v
         else if 8 + nxt + n ≤ r then D.getD (8 + h + p + r - n) 0
         else D.getD (8 + h + p + r) 0) := by
      intro r h8 hra
      rw [← hDpredef, writeSeg_getD _ _ _ _ (by rw [le64_length, hWin]; omega),
        if_neg (by rw [le64_length]; omega),
        writeSeg_getD _ _ _ _ (by rw [hS3len, hD1len]; omega), hS3len,
        if_pos (by omega)]
      have hr1 : 8 + h + p + r - (8 + h + p) = r := by omega
      rw [hr1, fillSeg_getD _ _ _ _ _ (by omega) (by rw [hS2len]; omega)]
      by_cases hfill : 8 + nxt ≤ r ∧ r < 8 + nxt + n
      · rw [if_pos hfill, if_pos hfill]
      · rw [if_neg hfill, if_neg hfill]
        rw [copyWithin_getD _ _ _ _ _ (by omega) (by rw [hS1len]; omega)
          (by rw [hS1len]; omega)]
        by_cases hdest : 8 + nxt + n ≤ r
        · rw [if_pos (by omega), if_pos hdest]
          have hr2 : 8 + nxt + (r - (8 + nxt + n)) = r - n := by omega
          rw [hr2, getSeg_getD _ _ _ _ (by omega),
            hD1getD _ (by omega) (by omega)]
          congr 1
          omega
        · rw [if_neg (by omega), if_neg hdest,
            getSeg_getD _ _ _ _ (by omega), hD1getD _ (by omega) (by omega)]
    have hoffpre : ∀ j, j < cnt →
        offAt ⟨⟨Dpre, h, c + n, p, a1, a2 + n⟩, cnt⟩ j =
        offAt ⟨⟨D, h, c, p, a1, a2⟩, cnt⟩ j := by
      intro j hj
      show leDec (getSeg Dpre (8 + h + 8 + 8 * j) 8) =
        leDec (getSeg D (8 + h + 8 + 8 * j) 8)
      congr 1
      apply list_eq_of_getD
      · rw [getSeg_length _ _ _ (by rw [hDpre_len]; omega),
          getSeg_length _ _ _ (by omega)]
      · intro i hi
        rw [getSeg_length _ _ _ (by rw [hDpre_len]; omega)] at hi
        rw [getSeg_getD _ _ _ _ hi, getSeg_getD _ _ _ _ hi,
          hDpre_first _ (by omega) (by omega)]
    obtain ⟨E2, bfl, hshift, hE2len, hE2frame, hE2slots⟩ :=
      shiftOffsets_spec n h (c + n) p a1 (a2 + n) cnt id Dpre hn1 hid (by omega)
        hh1' (by rw [hDpre_len]; omega)
        (by rw [hoffpre id hid, hoffpre (min (id + 1) (cnt - 1)) (by omega)]
            exact hmono id (min (id + 1) (cnt - 1)) (by omega) (by omega))
    have hE2len' : E2.length = D.length + n := by
      rw [hE2len]
      exact hDpre_len
    have hoff3lo : ∀ j, j ≤ id → j < cnt →
        offAt ⟨⟨E2, h, c + n, p, a1, a2 + n⟩, cnt⟩ j =
        offAt ⟨⟨D, h, c, p, a1, a2⟩, cnt⟩ j := by
      intro j hj hjcnt
      have hfr : getSeg E2 (8 + h + 8 + 8 * j) 8 =
          getSeg Dpre (8 + h + 8 + 8 * j) 8 := by
        apply list_eq_of_getD
        · rw [getSeg_length _ _ _ (by rw [hE2len']; omega),
            getSeg_length _ _ _ (by rw [hDpre_len]; omega)]
        · intro i hi
          rw [getSeg_length _ _ _ (by rw [hE2len']; omega)] at hi
          rw [getSeg_getD _ _ _ _ hi, getSeg_getD _ _ _ _ hi,
            hE2frame _ (Or.inl (by omega))]
      show leDec (getSeg E2 (8 + h + 8 + 8 * j) 8) =
        leDec (getSeg D (8 + h + 8 + 8 * j) 8)
      rw [hfr]
      exact hoffpre j hjcnt
    have hoff3hi : ∀ j, id < j → j < cnt →
        offAt ⟨⟨E2, h, c + n, p, a1, a2 + n⟩, cnt⟩ j =
        offAt ⟨⟨D, h, c, p, a1, a2⟩, cnt⟩ j + n := by
      intro j hj hjcnt
      show leDec (getSeg E2 (8 + h + 8 + 8 * j) 8) =
        offAt ⟨⟨D, h, c, p, a1, a2⟩, cnt⟩ j + n
      rw [hE2slots j hj hjcnt, hoffpre j hjcnt]
      exact leDec_le64 _ (by have := hbnd j hjcnt; omega)
    have hE2snd : ∀ r, 8 ≤ r → r < 8 + a2 + n →
        E2.getD (8 + h + p + r) 0 =
        (if 8 + nxt ≤ r ∧ r < 8 + nxt + n then v
         else if 8 + nxt + n ≤ r then D.getD (8 + h + p + r - n) 0
         else D.getD (8 + h + p + r) 0) := by
      intro r h8 hra
      rw [hE2frame _ (Or.inr (by omega))]
      exact hDpre_snd r h8 hra
    refine ⟨E2, c + n, a2 + n, ?_, hoff3lo, hoff3hi, ?_, ?_⟩
    · simp only [IdxFile.growEntry, RRes.monad_bind_eq]
      rw [if_neg hn0, hgrow]
      simp only [RRes.bind_ok]
      rw [hei]
      simp only [RRes.bind_ok]
      rw [Nat.add_sub_cancel]
      simp only [IdxFile.side]
      rw [hrf]
      simp only [RRes.bind_ok]
      rw [hshift]
      simp only [RRes.bind_ok]
    · refine ⟨_, hentry_old, ?_⟩
      have hread3 := getEntry_eval E2 h (c + n) p a1 (a2 + n) cnt id (nxt + n)
        hid (by omega) hh1'
        (by rcases eq_or_ne (id + 1) cnt with he | hne
            · rw [if_pos he] at hnxtdef ⊢
              omega
            · rw [if_neg hne] at hnxtdef ⊢
              rw [hoff3hi (id + 1) (by omega) (by omega)]
              omega)
        (by rw [hoff3lo id le_rfl hid, hoffdef]; omega)
        (by omega) (by rw [hE2len']; omega)
      rw [hoff3lo id le_rfl hid, hoffdef] at hread3
      rw [hread3]
      congr 1
      apply list_eq_of_getD
      · rw [getSeg_length _ _ _ (by rw [hE2len']; omega), List.length_append,
          getSeg_length _ _ _ (by omega), List.length_replicate]
        omega
      · intro i hi
        rw [getSeg_length _ _ _ (by rw [hE2len']; omega)] at hi
        rw [getSeg_getD _ _ _ _ hi]
        have hpos : 8 + h + p + 8 + off + i = 8 + h + p + (8 + off + i) := by
          ring
        rw [hpos, hE2snd (8 + off + i) (by omega) (by omega)]
        by_cases hio : i < nxt - off
        · rw [if_neg (by omega), if_neg (by omega),
            append_getD_left _ _ _ (by rw [getSeg_length _ _ _ (by omega)]; omega),
            getSeg_getD _ _ _ _ (by omega)]
          congr 1
          omega
        · rw [if_pos (by omega),
            append_getD_right _ _ _ (by rw [getSeg_length _ _ _ (by omega)]; omega),
            getSeg_length _ _ _ (by omega), replicate_getD _ _ _ (by omega)]
    · intro j hjcnt hjne
      obtain ⟨offj, hoffjdef⟩ : ∃ x, offAt ⟨⟨D, h, c, p, a1, a2⟩, cnt⟩ j = x :=
        ⟨_, rfl⟩
      obtain ⟨nxtj, hnxtjdef⟩ : ∃ x, (if j + 1 = cnt then a2
          else offAt ⟨⟨D, h, c, p, a1, a2⟩, cnt⟩ (j + 1)) = x := ⟨_, rfl⟩
      have hoffjn : offj ≤ nxtj := by
        rcases eq_or_ne (j + 1) cnt with he | hne
        · rw [if_pos he] at hnxtjdef
          rw [← hnxtjdef, ← hoffjdef]
          exact hbnd j hjcnt
        · rw [if_neg hne] at hnxtjdef
          rw [← hnxtjdef, ← hoffjdef]
          exact hmono j (j + 1) (by omega) (by omega)
      have hnxtjb : nxtj ≤ a2 := by
        rcases eq_or_ne (j + 1) cnt with he | hne
        · rw [if_pos he] at hnxtjdef
          omega
        · rw [if_neg hne] at hnxtjdef
          rw [← hnxtjdef]
          exact hbnd (j + 1) (by omega)
      have hold := getEntry_eval D h c p a1 a2 cnt j nxtj hjcnt (by omega) hh1'
        hnxtjdef.symm (by rw [hoffjdef]; exact hoffjn) (by omega) (by omega)
      rw [hoffjdef] at hold
      rcases Nat.lt_or_ge j id with hjlt | hjge
      · -- entry strictly before id: untouched
        have hjlast : j + 1 ≠ cnt := by omega
        rw [if_neg hjlast] at hnxtjdef
        have hnxtj_le : nxtj ≤ off := by
          rw [← hnxtjdef, ← hoffdef]
          exact hmono (j + 1) id (by omega) (by omega)
        have hnew := getEntry_eval E2 h (c + n) p a1 (a2 + n) cnt j nxtj hjcnt
          (by omega) hh1'
          (by rw [if_neg hjlast, hoff3lo (j + 1) (by omega) (by omega)]
              exact hnxtjdef.symm)
          (by rw [hoff3lo j (by omega) hjcnt, hoffjdef]; exact hoffjn)
          (by omega) (by rw [hE2len']; omega)
        rw [hoff3lo j (by omega) hjcnt, hoffjdef] at hnew
        rw [hold, hnew]
        congr 1
        apply list_eq_of_getD
        · rw [getSeg_length _ _ _ (by rw [hE2len']; omega),
            getSeg_length _ _ _ (by omega)]
        · intro i hi
          rw [getSeg_length _ _ _ (by rw [hE2len']; omega)] at hi
          rw [getSeg_getD _ _ _ _ hi, getSeg_getD _ _ _ _ hi]
          have hpos : 8 + h + p + 8 + offj + i = 8 + h + p + (8 + offj + i) := by
            ring
          rw [hpos, hE2snd (8 + offj + i) (by omega) (by omega),
            if_neg (by omega), if_neg (by omega)]
      · -- entry strictly after id: shifted by n, contents preserved
        have hjgt : id < j := by omega
        have hne_id1 : id + 1 ≠ cnt := by omega
        rw [if_neg hne_id1] at hnxtdef
        have hnxt_le : nxt ≤ offj := by
          rw [← hnxtdef, ← hoffjdef]
          exact hmono (id + 1) j (by omega) (by omega)
        have hnew := getEntry_eval E2 h (c + n) p a1 (a2 + n) cnt j (nxtj + n)
          hjcnt (by omega) hh1'
          (by rcases eq_or_ne (j + 1) cnt with he | hne
              · rw [if_pos he] at hnxtjdef ⊢
                omega
              · rw [if_neg hne] at hnxtjdef ⊢
                rw [hoff3hi (j + 1) (by omega) (by omega)]
                omega)
          (by rw [hoff3hi j hjgt hjcnt, hoffjdef]; omega)
          (by omega) (by rw [hE2len']; omega)
        rw [hoff3hi j hjgt hjcnt, hoffjdef] at hnew
        rw [hold, hnew]
        have hlen_eq : nxtj + n - (offj + n) = nxtj - offj := by omega
        rw [hlen_eq]
        congr 1
        apply list_eq_of_getD
        · rw [getSeg_length _ _ _ (by rw [hE2len']; omega),
            getSeg_length _ _ _ (by omega)]
        · intro i hi
          rw [getSeg_length _ _ _ (by rw [hE2len']; omega)] at hi
          rw [getSeg_getD _ _ _ _ hi, getSeg_getD _ _ _ _ hi]
          have hpos : 8 + h + p + 8 + (offj + n) + i =
              8 + h + p + (8 + offj + n + i) := by ring
          rw [hpos, hE2snd (8 + offj + n + i) (by omega) (by omega),
            if_neg (by omega), if_pos (by omega)]
          congr 1
          omega


theorem WFIdx_testIdx2 : WFIdx testIdx2 := by
  refine ⟨by unfold WFSplit; decide, by decide, ?_, ?_⟩
  · intro i hi
    have h0 : i = 0 := by
      have hc : testIdx2.count = 2 := by decide
      omega
    subst h0
    decide
  · intro i hi
    have h01 : i = 0 ∨ i = 1 := by
      have hc : testIdx2.count = 2 := by decide
      omega
    rcases h01 with h0 | h0 <;> subst h0 <;> decide

/-! ## Claim C4 -/

/-- C4: on a well-formed indexed file, `grow_entry(id, n, fill)` (for any
entry count, any valid id and any `n`, sizes below `2^64`) succeeds, keeps
`count` and the offsets up to `id` unchanged, shifts the offsets after `id`
by exactly `+n`, appends exactly `n` bytes equal to `fill` to entry `id`,
and leaves the bytes of every other entry unchanged; concretely, after
inserting `[1,2,3]` and `[9,9,9]`, `grow_entry(0, 2, 0)` yields entry 0 =
`[1,2,3,0,0]` and entry 1 = `[9,9,9]`, and a following `grow_entry(1, 4, 3)`
yields entry 1 = `[9,9,9,3,3,3,3]`. -/
theorem C4_grow_entry_appends_and_frames (f : IdxFile) (id n v : Nat)
    (hwf : WFIdx f) (hid : id < f.count)
    (hsz : f.sf.data.length + n < 2 ^ 64) :
    (∃ f3, IdxFile.growEntry f id n v = .ok f3 ∧ f3.count = f.count ∧
      (∀ j, j ≤ id → j < f.count → offAt f3 j = offAt f j) ∧
      (∀ j, id < j → j < f.count → offAt f3 j = offAt f j + n) ∧
      (∃ e, IdxFile.getEntry f id = .ok e ∧
        IdxFile.getEntry f3 id = .ok (e ++ List.replicate n v)) ∧
      (∀ j, j < f.count → j ≠ id →
        IdxFile.getEntry f3 j = IdxFile.getEntry f j)) ∧
    (IdxFile.insert (mkIdx 0) [1, 2, 3] = .ok (testIdx1, 0) ∧
     IdxFile.insert testIdx1 [9, 9, 9] = .ok (testIdx2, 1) ∧
     IdxFile.growEntry testIdx2 0 2 0 = .ok testIdx3 ∧
     IdxFile.getEntry testIdx3 0 = .ok [1, 2, 3, 0, 0] ∧
     IdxFile.getEntry testIdx3 1 = .ok [9, 9, 9] ∧
     IdxFile.growEntry testIdx3 1 4 3 = .ok testIdx4 ∧
     IdxFile.getEntry testIdx4 1 = .ok [9, 9, 9, 3, 3, 3, 3]) := by
  constructor
  · obtain ⟨⟨D, h, c, p, a1, a2⟩, cnt⟩ := f
    obtain ⟨E2, c2, a2x, h1, h2, h3, h4, h5⟩ :=
      growEntry_spec D h c p a1 a2 cnt id n v hwf hid hsz
    exact ⟨⟨⟨E2, h, c2, p, a1, a2x⟩, cnt⟩, h1, rfl, h2, h3, h4, h5⟩
  · exact ⟨by decide, by decide, by decide, by decide, by decide, by decide,
      by decide⟩

/-- C4 witness: the theorem applied to the concrete file holding `[1,2,3]`
and `[9,9,9]`, growing entry 0 by two zero bytes. -/
theorem C4_grow_entry_appends_and_frames_witness :
    (WFIdx testIdx2 ∧ 0 < testIdx2.count ∧
      testIdx2.sf.data.length + 2 < 2 ^ 64) ∧
    ((∃ f3, IdxFile.growEntry testIdx2 0 2 0 = .ok f3 ∧
        f3.count = testIdx2.count ∧
      (∀ j, j ≤ 0 → j < testIdx2.count → offAt f3 j = offAt testIdx2 j) ∧
      (∀ j, 0 < j → j < testIdx2.count → offAt f3 j = offAt testIdx2 j + 2) ∧
      (∃ e, IdxFile.getEntry testIdx2 0 = .ok e ∧
        IdxFile.getEntry f3 0 = .ok (e ++ List.replicate 2 0)) ∧
      (∀ j, j < testIdx2.count → j ≠ 0 →
        IdxFile.getEntry f3 j = IdxFile.getEntry testIdx2 j)) ∧
    (IdxFile.insert (mkIdx 0) [1, 2, 3] = .ok (testIdx1, 0) ∧
     IdxFile.insert testIdx1 [9, 9, 9] = .ok (testIdx2, 1) ∧
     IdxFile.growEntry testIdx2 0 2 0 = .ok testIdx3 ∧
     IdxFile.getEntry testIdx3 0 = .ok [1, 2, 3, 0, 0] ∧
     IdxFile.getEntry testIdx3 1 = .ok [9, 9, 9] ∧
     IdxFile.growEntry testIdx3 1 4 3 = .ok testIdx4 ∧
     IdxFile.getEntry testIdx4 1 = .ok [9, 9, 9, 3, 3, 3, 3])) :=
  ⟨⟨WFIdx_testIdx2, by decide, by decide⟩,
    C4_grow_entry_appends_and_frames testIdx2 0 2 0 WFIdx_testIdx2 (by decide)
      (by decide)⟩

end Bytestore
